import Mathlib

/-!
Verification of the makai waveform database core against its specification.

The definitions below are a shallow embedding of the Rust sources:
machine integers (u8, u64, usize on a 64-bit target) are modelled as Nat
with explicit masking where the source truncates, byte buffers are lists
of Nat (each element below 256), and the handful of source loops that are
not structurally recursive are written with an explicit fuel argument
whose value provably exceeds the maximal number of iterations of the
source loop.
-/

set_option maxHeartbeats 1000000
set_option maxRecDepth 100000

namespace Makai

/-! Byte-level helpers shared by the embedding: big-endian byte strings of
machine words, exactly as produced by to_be_bytes / from_be_bytes. -/

/-- Value of a big-endian byte string, as computed by the source loops
that fold bytes with a shift by 8 and a bitwise or. -/
def beVal (bytes : List Nat) : Nat :=
  bytes.foldl (fun acc b => (acc <<< 8) ||| b) 0

/-- Low k bytes of n as a big-endian byte string, as produced by the
source loops that emit a byte with a mask by 0xff and shift by 8. -/
def beBytes : Nat → Nat → List Nat
  | 0, _ => []
  | k + 1, n => beBytes k (n >>> 8) ++ [n &&& 0xff]

/-- Every element of the list is a byte value. -/
def allBytes (bytes : List Nat) : Prop := ∀ b ∈ bytes, b < 256

/-- Little-endian word order value of a list of 64-bit words, matching the
layout of a heap bit-vector payload. -/
def wordsVal : List Nat → Nat
  | [] => 0
  | w :: ws => w + wordsVal ws * 2 ^ 64

/-! Word-chunking loops of src/bitvector.rs: clone_be_bytes_to_usizes fills
64-bit words from a big-endian byte slice starting at the last byte, and
clone_usizes_to_be_bytes is its inverse.  Both source loops run once per
word, so any fuel of at least the byte count plus one is sufficient. -/

/-- Loop body of clone_be_bytes_to_usizes: word i is filled from the i-th
8-byte chunk counted from the end of the byte slice; the final (leftmost)
chunk may be shorter and is zero-padded at its front. -/
def clone_be_bytes_to_usizes : Nat → List Nat → List Nat
  | 0, _ => []
  | fuel + 1, bytes =>
    if bytes.length ≤ 8 then [beVal bytes]
    else beVal (bytes.drop (bytes.length - 8))
      :: clone_be_bytes_to_usizes fuel (bytes.take (bytes.length - 8))

/-- Loop body of clone_usizes_to_be_bytes: word 0 is written to the last 8
bytes of the output, word 1 to the previous 8, and so on; the leftmost
chunk receives only the low bytes of the final word used. -/
def clone_usizes_to_be_bytes : Nat → List Nat → Nat → List Nat
  | 0, _, _ => []
  | fuel + 1, ws, len =>
    if len ≤ 8 then beBytes len (ws.getD 0 0)
    else clone_usizes_to_be_bytes fuel (ws.drop 1) (len - 8) ++ beBytes 8 (ws.getD 0 0)

/-! Embedding of src/bitvector.rs: the Logic and Bit scalars and the
tagged BitVector container.  The source stores the payload as a union of
an inline usize and a heap pointer discriminated by the top two bits of
the size word; the embedding keeps the size word verbatim and represents
the payload as a tagged variant, with the heap array as a list of words. -/

inductive Logic where
  | Zero : Logic
  | One : Logic
  | Unknown : Logic
  | HighImpedance : Logic
deriving DecidableEq, Repr

def Logic.is_two_state : Logic → Bool
  | .Zero | .One => true
  | _ => false

def Logic.to_bool_pair : Logic → Bool × Bool
  | .Zero => (false, false)
  | .One => (true, false)
  | .Unknown => (false, true)
  | .HighImpedance => (true, true)

inductive Bit where
  | Zero : Bit
  | One : Bit
deriving DecidableEq, Repr

/-- Conversion From Bit for Logic. -/
def Logic.ofBit : Bit → Logic
  | .Zero => .Zero
  | .One => .One

/-- Conversion From Logic for Bit: anything other than One becomes Zero. -/
def Bit.ofLogic : Logic → Bit
  | .One => .One
  | _ => .Zero

/-- Conversion From a pair of bools for Logic. -/
def Logic.ofPair : Bool × Bool → Logic
  | (false, false) => .Zero
  | (true, false) => .One
  | (false, true) => .Unknown
  | (true, true) => .HighImpedance

/-- Conversion From a pair of usize values for Logic. -/
def Logic.ofNatPair (v m : Nat) : Logic := Logic.ofPair (v != 0, m != 0)

/-- Conversion From a usize for Bit. -/
def Bit.ofUsize (v : Nat) : Bit := if v != 0 then .One else .Zero

def USIZE_BITS : Nat := 64
def HALF_WORD_BITS : Nat := USIZE_BITS / 2
def HALF_WORD_MASK : Nat := (1 <<< HALF_WORD_BITS) - 1
def POINTER_TAG : Nat := 1 <<< (USIZE_BITS - 1)
def FOUR_STATE_TAG : Nat := 1 <<< (USIZE_BITS - 2)

/-- Payload of a bit-vector: either the inline usize word or the heap
array of usize words pointed to by the payload pointer. -/
inductive BVPayload where
  | word (value : Nat) : BVPayload
  | ptr (words : List Nat) : BVPayload
deriving DecidableEq, Repr

/-- Reading the payload as an inline usize. -/
def BVPayload.asWord : BVPayload → Nat
  | .word v => v
  | .ptr _ => 0

/-- Reading the heap word at the given offset from the payload pointer. -/
def BVPayload.get : BVPayload → Nat → Nat
  | .word _, _ => 0
  | .ptr ws, i => ws.getD i 0

/-- Reading the whole heap array behind the payload pointer. -/
def BVPayload.ptrWords : BVPayload → List Nat
  | .word _ => []
  | .ptr ws => ws

structure BitVector where
  size : Nat
  payload : BVPayload
deriving DecidableEq, Repr

def BitVector.is_pointer (bv : BitVector) : Bool := bv.size &&& POINTER_TAG != 0

def BitVector.is_four_state (bv : BitVector) : Bool := bv.size &&& FOUR_STATE_TAG != 0

/-- Width field of the size word: size with the two tag bits masked off,
since the complement of POINTER_TAG plus FOUR_STATE_TAG over 64 bits
keeps exactly the low 62 bits. -/
def BitVector.get_bit_width (bv : BitVector) : Nat := bv.size &&& (FOUR_STATE_TAG - 1)

def BitVector.get_vector_words_size (bv : BitVector) : Nat :=
  if bv.is_pointer then (bv.get_bit_width - 1) / USIZE_BITS + 1 else 1

def BitVector.get_memory_words_size (bv : BitVector) : Nat :=
  if bv.is_pointer then
    if bv.is_four_state then ((bv.get_bit_width - 1) / USIZE_BITS + 1) * 2
    else (bv.get_bit_width - 1) / USIZE_BITS + 1
  else 0

/-- Constructor new: the construction additionally asserts that bit_width
fits below the tag bits, which callers in scope always satisfy. -/
def BitVector.new (bit_width : Nat) (four_state : Bool) : BitVector :=
  if four_state then
    if bit_width * 2 > USIZE_BITS then
      { size := bit_width ||| POINTER_TAG ||| FOUR_STATE_TAG,
        payload := .ptr (List.replicate (((bit_width - 1) / USIZE_BITS + 1) * 2) 0) }
    else { size := bit_width ||| FOUR_STATE_TAG, payload := .word 0 }
  else
    if bit_width > USIZE_BITS then
      { size := bit_width ||| POINTER_TAG,
        payload := .ptr (List.replicate ((bit_width - 1) / USIZE_BITS + 1) 0) }
    else { size := bit_width, payload := .word 0 }

/-- Constructor from_bits_two_state with the generic integer argument
already cast to usize; asserts bit_width at most 64. -/
def BitVector.from_bits_two_state (bit_width : Nat) (value : Nat) : BitVector :=
  { size := bit_width, payload := .word value }

/-- Constructor from_bits_four_state with the generic integer arguments
already cast to usize; asserts bit_width at most 32. -/
def BitVector.from_bits_four_state (bit_width : Nat) (value mask : Nat) : BitVector :=
  { size := bit_width ||| FOUR_STATE_TAG,
    payload := .word ((value &&& HALF_WORD_MASK) ||| (mask <<< HALF_WORD_BITS)) }

/-- Egress to_bits_two_state at type u8, as used by the vector signal;
asserts that the vector is two-state, inline and at most 8 bits wide. -/
def BitVector.to_bits_two_state_u8 (bv : BitVector) : Nat :=
  bv.payload.asWord % 256

/-- Egress to_bits_four_state at type u8, as used by the vector signal;
asserts that the vector is at most 8 bits wide. -/
def BitVector.to_bits_four_state_u8 (bv : BitVector) : Nat × Nat :=
  if !bv.is_four_state then (bv.to_bits_two_state_u8, 0)
  else ((bv.payload.asWord &&& HALF_WORD_MASK) % 256,
    (bv.payload.asWord >>> HALF_WORD_BITS) % 256)

/-- Constructor from_be_bytes_two_state; asserts that the byte slice
length equals the byte width of bit_width. -/
def BitVector.from_be_bytes_two_state (bit_width : Nat) (value : List Nat) : BitVector :=
  let bv := BitVector.new bit_width false
  if bv.is_pointer then
    { bv with payload := .ptr (clone_be_bytes_to_usizes (value.length + 1) value) }
  else
    { bv with payload := .word (value.foldl (fun p b => (p <<< 8) ||| b) 0) }

/-- Payload fold of the inline branch of from_be_bytes_four_state. -/
def fourStateFold (value mask : List Nat) : Nat :=
  (List.zip value mask).foldl
    (fun p vm => (((p <<< 8) ||| vm.1) ||| (vm.2 <<< HALF_WORD_BITS))) 0

/-- Constructor from_be_bytes_four_state; asserts that both slices have
length equal to the byte width of bit_width. -/
def BitVector.from_be_bytes_four_state (bit_width : Nat) (value mask : List Nat) : BitVector :=
  let bv := BitVector.new bit_width true
  if bv.is_pointer then
    { bv with payload := .ptr (clone_be_bytes_to_usizes (value.length + 1) value
        ++ clone_be_bytes_to_usizes (mask.length + 1) mask) }
  else
    { bv with payload := .word (fourStateFold value mask) }

/-- Egress to_be_bytes_two_state, returning the output buffer whose length
the source asserts to be the byte width; asserts not four-state. -/
def BitVector.to_be_bytes_two_state (bv : BitVector) : List Nat :=
  let byte_width := (bv.get_bit_width - 1) / 8 + 1
  if bv.is_pointer then
    clone_usizes_to_be_bytes (byte_width + 1) bv.payload.ptrWords byte_width
  else beBytes byte_width bv.payload.asWord

/-- Byte extraction loop of the inline branch of to_be_bytes_four_state,
walking the indices from the last byte to the first. -/
def fourStateUnfold : Nat → Nat → List Nat × List Nat
  | 0, _ => ([], [])
  | k + 1, p =>
    let r := fourStateUnfold k (p >>> 8)
    (r.1 ++ [p &&& 0xff], r.2 ++ [(p >>> HALF_WORD_BITS) &&& 0xff])

/-- Egress to_be_bytes_four_state, returning both output buffers. -/
def BitVector.to_be_bytes_four_state (bv : BitVector) : List Nat × List Nat :=
  let byte_width := (bv.get_bit_width - 1) / 8 + 1
  if !bv.is_four_state then
    (bv.to_be_bytes_two_state, List.replicate byte_width 0)
  else if bv.is_pointer then
    (clone_usizes_to_be_bytes (byte_width + 1) bv.payload.ptrWords byte_width,
     clone_usizes_to_be_bytes (byte_width + 1)
       (bv.payload.ptrWords.drop bv.get_vector_words_size) byte_width)
  else fourStateUnfold byte_width bv.payload.asWord

/-- Bitwise complement at usize width. -/
def usizeNot (x : Nat) : Nat := x ^^^ (2 ^ 64 - 1)

def BitVector.set_bit_four_state_internal (bv : BitVector) (index : Nat) (bit : Logic) :
    BitVector :=
  if bv.is_pointer then
    let word_index := index / USIZE_BITS
    let word_index_mask := word_index + bv.get_vector_words_size
    let bit_index := index % USIZE_BITS
    let bit_mask := 1 <<< bit_index
    let value_bits := bv.payload.get word_index
    let mask_bits := bv.payload.get word_index_mask
    let value_bits := (value_bits &&& usizeNot bit_mask)
      ||| (if bit.to_bool_pair.1 then bit_mask else 0)
    let mask_bits := (mask_bits &&& usizeNot bit_mask)
      ||| (if bit.to_bool_pair.2 then bit_mask else 0)
    { bv with payload := .ptr ((bv.payload.ptrWords.set word_index value_bits).set
        word_index_mask mask_bits) }
  else
    let value_mask := 1 <<< index
    let mask_mask := 1 <<< (index + HALF_WORD_BITS)
    let bits := (bv.payload.asWord &&& usizeNot (value_mask ||| mask_mask))
      ||| (if bit.to_bool_pair.1 then value_mask else 0)
      ||| (if bit.to_bool_pair.2 then mask_mask else 0)
    { bv with payload := .word bits }

def BitVector.get_bit_four_state_internal (bv : BitVector) (index : Nat) : Logic :=
  if bv.is_pointer then
    let word_index := index / USIZE_BITS
    let word_index_mask := word_index + bv.get_vector_words_size
    let bit_index := index % USIZE_BITS
    let value_bits := bv.payload.get word_index
    let mask_bits := bv.payload.get word_index_mask
    Logic.ofNatPair ((value_bits >>> bit_index) &&& 1) ((mask_bits >>> bit_index) &&& 1)
  else
    let bits := bv.payload.asWord
    Logic.ofNatPair ((bits >>> index) &&& 1) ((bits >>> (index + HALF_WORD_BITS)) &&& 1)

def BitVector.set_bit_two_state_internal (bv : BitVector) (index : Nat) (bit : Bit) :
    BitVector :=
  if bv.is_pointer then
    let word_index := index / USIZE_BITS
    let bit_index := index % USIZE_BITS
    let bit_mask := 1 <<< bit_index
    let value_bits := bv.payload.get word_index
    let value_bits := (value_bits &&& usizeNot bit_mask)
      ||| (if bit == Bit.One then bit_mask else 0)
    { bv with payload := .ptr (bv.payload.ptrWords.set word_index value_bits) }
  else
    let bit_mask := 1 <<< index
    let bits := bv.payload.asWord
    let bits := (bits &&& usizeNot bit_mask) ||| (if bit == Bit.One then bit_mask else 0)
    { bv with payload := .word bits }

def BitVector.get_bit_two_state_internal (bv : BitVector) (index : Nat) : Bit :=
  if bv.is_pointer then
    let word_index := index / USIZE_BITS
    let bit_index := index % USIZE_BITS
    Bit.ofUsize ((bv.payload.get word_index >>> bit_index) &&& 1)
  else
    Bit.ofUsize ((bv.payload.asWord >>> index) &&& 1)

def BitVector.set_bit (bv : BitVector) (index : Nat) (bit : Logic) : BitVector :=
  if index ≥ bv.get_bit_width then bv
  else if bv.is_four_state then bv.set_bit_four_state_internal index bit
  else bv.set_bit_two_state_internal index (Bit.ofLogic bit)

def BitVector.get_bit (bv : BitVector) (index : Nat) : Logic :=
  if index ≥ bv.get_bit_width then Logic.Zero
  else if bv.is_four_state then bv.get_bit_four_state_internal index
  else Logic.ofBit (bv.get_bit_two_state_internal index)

/-- Equality test of impl PartialEq for BitVector: the wider vector is
compared bit for bit against the narrower one, and its remaining high
bits must all be Zero. -/
def BitVector.beq (a b : BitVector) : Bool :=
  let p := if a.get_bit_width > b.get_bit_width then (a, b) else (b, a)
  ((List.range p.2.get_bit_width).all fun i => p.1.get_bit i == p.2.get_bit i) &&
  ((List.range' p.2.get_bit_width (p.1.get_bit_width - p.2.get_bit_width)).all
    fun i => p.1.get_bit i == Logic.Zero)

/-! Embedding of src/history.rs and src/history/block.rs: the fixed 512
byte blocks, the run-length token decoder, the append path and the
timestamp search.  A block is the list of its 512 byte values; the whole
history keeps the concatenated block bytes exactly like the source
byte vector. -/

def BLOCK_SIZE : Nat := 512

def MAX_BLOCK_CHANGES : Nat := BLOCK_SIZE * 128

inductive WaveformSearchMode where
  | Before : WaveformSearchMode
  | After : WaveformSearchMode
  | Closest : WaveformSearchMode
  | Exact : WaveformSearchMode
deriving DecidableEq, Repr

structure WaveformHistoryIndex where
  timestamp_index : Nat
  value_index : Nat
deriving DecidableEq, Repr

/-- State of a block iterator: the pending index, the byte offset inside
the block and the changes already consumed from the current change byte. -/
structure BlockIterState where
  index : WaveformHistoryIndex
  offset : Nat
  consumed_changes : Nat
deriving DecidableEq, Repr

/-- Loop of get_skips, walking the byte list from the current offset to
the end of the block: a byte with the top bit set stops the scan, any
other byte shifts its low 7 bits into the pending partial sum, and every
8th consecutive skip byte the partial sum is flushed into the total. -/
def get_skips_go : List Nat → Nat → Nat → Nat → Nat × Nat
  | [], skip_bytes, skips, pending => (skip_bytes, skips + pending)
  | b :: rest, skip_bytes, skips, pending =>
    if b &&& 0x80 == 0x80 then (skip_bytes, skips + pending)
    else
      let pending := (pending <<< 7) ||| b
      let skip_bytes := skip_bytes + 1
      if skip_bytes &&& 0b111 == 0 then get_skips_go rest skip_bytes (skips + pending) 0
      else get_skips_go rest skip_bytes skips pending

/-- The get_skips scan of a block from the given offset. -/
def get_skips (blk : List Nat) (offset : Nat) : Nat × Nat :=
  get_skips_go (blk.drop offset) 0 0 0

/-- Loop of next_index; the fuel bounds the loop iterations, each of
which advances the offset by at least one byte, so any fuel above
BLOCK_SIZE is sufficient. -/
def next_index_go (blk : List Nat) :
    Nat → WaveformHistoryIndex → Nat → Nat → Option (WaveformHistoryIndex × BlockIterState)
  | 0, _, _, _ => none
  | fuel + 1, index, offset, consumed_changes =>
    let sk := get_skips blk offset
    let offset := offset + sk.1
    let index : WaveformHistoryIndex :=
      { index with timestamp_index := index.timestamp_index + sk.2 }
    if offset ≥ BLOCK_SIZE then none
    else
      let total_changes := (blk.getD offset 0 &&& 0x7F) + 1
      if consumed_changes < total_changes then
        some (index,
          ⟨⟨index.timestamp_index + 1, index.value_index + 1⟩, offset, consumed_changes + 1⟩)
      else next_index_go blk fuel index (offset + 1) 0

/-- One step of the block iterator. -/
def next_index (blk : List Nat) (s : BlockIterState) :
    Option (WaveformHistoryIndex × BlockIterState) :=
  next_index_go blk (BLOCK_SIZE + 1) s.index s.offset s.consumed_changes

/-- Fuel bound for draining a whole block: a strictly decreasing measure
of the iterator state is below (BLOCK_SIZE + 1) * 129. -/
def BLOCK_FUEL : Nat := (BLOCK_SIZE + 1) * 129

/-- List of the remaining items of a block iterator. -/
def block_iter_go (blk : List Nat) : Nat → BlockIterState → List WaveformHistoryIndex
  | 0, _ => []
  | fuel + 1, s =>
    match next_index blk s with
    | none => []
    | some is2 => is2.1 :: block_iter_go blk fuel is2.2

def block_iter_list (blk : List Nat) (s : BlockIterState) : List WaveformHistoryIndex :=
  block_iter_go blk BLOCK_FUEL s

/-- Loop of seek_index: repeatedly take the next index, keep it while it
is at or before the requested timestamp, and restore the pre-step state
on overshoot or exhaustion. -/
def seek_index_go (blk : List Nat) (timestamp_index : Nat) :
    Nat → BlockIterState → Option WaveformHistoryIndex →
    Option WaveformHistoryIndex × BlockIterState
  | 0, s, last => (last, s)
  | fuel + 1, s, last =>
    match next_index blk s with
    | none => (last, s)
    | some is2 =>
      if is2.1.timestamp_index > timestamp_index then (last, s)
      else if is2.1.timestamp_index = timestamp_index then (some is2.1, is2.2)
      else seek_index_go blk timestamp_index fuel is2.2 (some is2.1)

/-- The seek of a block iterator, returning the result together with the
iterator state after the seek. -/
def seek_index (blk : List Nat) (s : BlockIterState) (timestamp_index : Nat) :
    Option WaveformHistoryIndex × BlockIterState :=
  seek_index_go blk timestamp_index BLOCK_FUEL s none

/-- Header timestamp of a block: u64 from the first 8 bytes big-endian. -/
def get_timestamp_index (blk : List Nat) : Nat := beVal (blk.take 8)

/-- Header value index of a block: u64 from bytes 8 to 16 big-endian. -/
def get_value_index (blk : List Nat) : Nat := beVal ((blk.drop 8).take 8)

def get_index (blk : List Nat) : WaveformHistoryIndex :=
  ⟨get_timestamp_index blk, get_value_index blk⟩

/-- Initial iterator state of a block, as built by into_iter. -/
def block_init_state (blk : List Nat) : BlockIterState := ⟨get_index blk, 16, 0⟩

structure WaveformHistory where
  timestamp_index_last : Int
  blocks : List Nat
  block_index : Int
  block_offset : Nat
deriving DecidableEq, Repr

def WaveformHistory.new : WaveformHistory := ⟨-1, [], -1, 16⟩

/-- Bit length of a usize value, that is usize::BITS minus the leading
zero count; the fuel of 64 covers every value below 2 to the 64. -/
def bit_length_go : Nat → Nat → Nat
  | 0, _ => 0
  | f + 1, n => if n = 0 then 0 else bit_length_go f (n / 2) + 1

def bit_length (n : Nat) : Nat := bit_length_go 64 n

/-- The reversed loop writing the base-128 big-endian skip bytes: the
byte at base + k - 1 receives the lowest 7 bits, and so on upward. -/
def write_skip_bytes (blocks : List Nat) (base : Nat) : Nat → Nat → List Nat
  | 0, _ => blocks
  | k + 1, skips => write_skip_bytes (blocks.set (base + k) (skips &&& 127)) base k (skips >>> 7)

/-- clone_from_slice of a byte range starting at base. -/
def set_range (blocks : List Nat) (base : Nat) : List Nat → List Nat
  | [] => blocks
  | b :: rest => set_range (blocks.set base b) (base + 1) rest

/-- insert_change_block: returns whether there was room in the current
block, together with the updated history. -/
def WaveformHistory.insert_change_block (h : WaveformHistory) (timestamp_index_diff : Nat) :
    Bool × WaveformHistory :=
  let skips := timestamp_index_diff - 1
  let block_index := h.block_index.toNat
  if skips > 0 then
    let skip_bits := bit_length skips
    let skip_bytes := (skip_bits - 1) / 7 + 1
    if BLOCK_SIZE - h.block_offset < skip_bytes + 1 then (false, h)
    else
      let blocks := write_skip_bytes h.blocks
        (block_index * BLOCK_SIZE + h.block_offset) skip_bytes skips
      let block_offset := h.block_offset + skip_bytes
      let blocks := blocks.set (block_index * BLOCK_SIZE + block_offset) 128
      (true, { h with blocks := blocks, block_offset := block_offset + 1 })
  else
    let index := block_index * BLOCK_SIZE + h.block_offset
    if h.blocks.getD (index - 1) 0 < 255 then
      (true, { h with blocks := h.blocks.set (index - 1) (h.blocks.getD (index - 1) 0 + 1) })
    else if h.block_offset < BLOCK_SIZE then
      (true, { h with blocks := h.blocks.set index 128, block_offset := h.block_offset + 1 })
    else (false, h)

/-- insert_block appends a zeroed block, writes the header timestamp and
value index as big-endian u64 values, and writes one change byte. -/
def WaveformHistory.insert_block (h : WaveformHistory) (timestamp_index value_index : Nat) :
    WaveformHistory :=
  let blocks := h.blocks ++ List.replicate BLOCK_SIZE 0
  let block_index := h.block_index + 1
  let block_bytes := block_index.toNat * BLOCK_SIZE
  let blocks := set_range blocks block_bytes (beBytes 8 timestamp_index)
  let blocks := set_range blocks (block_bytes + 8) (beBytes 8 value_index)
  let blocks := blocks.set (block_bytes + 16) 128
  { h with blocks := blocks, block_index := block_index, block_offset := 17 }

/-- add_change; a duplicate timestamp aborts in the source and a smaller
one is undefined, so callers pass a strictly larger timestamp.  The
source stores the timestamp in the isize register timestamp_index_last:
for timestamps below 2 to the 63 the cast preserves the value and sign,
which Int.ofNat mirrors exactly; from 2 to the 63 on the cast wraps
negative and the following append takes the fresh-block branch, so the
theorems that quantify over sequences confine them below 2 to the 63
through ts_valid. -/
def WaveformHistory.add_change (h : WaveformHistory) (timestamp_index value_index : Nat) :
    WaveformHistory :=
  let h2 :=
    if h.timestamp_index_last ≥ 0 then
      let r := h.insert_change_block (timestamp_index - h.timestamp_index_last.toNat)
      if r.1 then r.2 else r.2.insert_block timestamp_index value_index
    else h.insert_block timestamp_index value_index
  { h2 with timestamp_index_last := Int.ofNat timestamp_index }

def WaveformHistory.get_block (h : WaveformHistory) (block_index : Nat) : List Nat :=
  (h.blocks.drop (block_index * BLOCK_SIZE)).take BLOCK_SIZE

def WaveformHistory.get_block_count (h : WaveformHistory) : Nat :=
  h.blocks.length / BLOCK_SIZE

/-- The sequence of items of the whole-history iterator: every block is
drained in order from its initial state.  The source's into_iter calls
get_block(0) unconditionally and panics slicing the first 512 bytes of
a zero-block history, so the list model is exact only for a history
holding at least one change; the iteration theorems exclude the empty
sequence. -/
def WaveformHistory.into_iter_list (h : WaveformHistory) : List WaveformHistoryIndex :=
  (List.range h.get_block_count).flatMap
    (fun b => block_iter_list (h.get_block b) (block_init_state (h.get_block b)))

/-- Binary search loop over block header timestamps; the searched range
shrinks every iteration, so a fuel above the block count is sufficient.
The subtraction mid - 1 underflows in the source when mid is zero and the
searched timestamp is below the header; that abort is an error here. -/
def search_block_go (h : WaveformHistory) (timestamp_index : Nat)
    (search_mode : WaveformSearchMode) :
    Nat → Nat → Nat → Except Unit (Option Nat)
  | 0, _, _ => .error ()
  | fuel + 1, start, end_ =>
    if start ≤ end_ then
      let mid := (start + end_) / 2
      let mid_value := get_timestamp_index (h.get_block mid)
      if timestamp_index < mid_value then
        if mid = 0 then .error ()
        else search_block_go h timestamp_index search_mode fuel start (mid - 1)
      else if timestamp_index > mid_value then
        search_block_go h timestamp_index search_mode fuel (mid + 1) end_
      else .ok (some mid)
    else
      match search_mode with
      | .Exact => .ok none
      | .Before => .ok (some end_)
      | .After => .ok (some start)
      | .Closest =>
        if get_timestamp_index (h.get_block start) - timestamp_index
            < timestamp_index - get_timestamp_index (h.get_block end_)
        then .ok (some start) else .ok (some end_)

/-- search_timestamp_block_index; the source starts by computing
get_block_count() - 1 on usize, which underflows and aborts on a history
holding no blocks, modelled as the error value.  The out-of-range test
adds MAX_BLOCK_CHANGES to the last block header on usize; the unbounded
Nat sum here is exact as long as that header stays below 2 to the 64
minus MAX_BLOCK_CHANGES, which the search theorems guarantee by keeping
every appended timestamp, hence every header, below 2 to the 63. -/
def WaveformHistory.search_timestamp_block_index (h : WaveformHistory)
    (timestamp_index : Nat) (search_mode : WaveformSearchMode) :
    Except Unit (Option Nat) :=
  if h.get_block_count = 0 then .error ()
  else
    let start := 0
    let end_ := h.get_block_count - 1
    if timestamp_index < get_timestamp_index (h.get_block start) then
      match search_mode with
      | .Exact | .Before => .ok none
      | .After | .Closest => .ok (some start)
    else if get_timestamp_index (h.get_block end_) + MAX_BLOCK_CHANGES < timestamp_index then
      match search_mode with
      | .Exact | .After => .ok none
      | .Before | .Closest => .ok (some end_)
    else search_block_go h timestamp_index search_mode (h.get_block_count + 1) start end_

/-- search_timestamp_index: block-level search with mode Before, then a
seek inside the found block, then the mode dispatch. -/
def WaveformHistory.search_timestamp_index (h : WaveformHistory) (timestamp_index : Nat)
    (search_mode : WaveformSearchMode) : Except Unit (Option WaveformHistoryIndex) :=
  match h.search_timestamp_block_index timestamp_index WaveformSearchMode.Before with
  | .error e => .error e
  | .ok none => .ok none
  | .ok (some block_index) =>
    let blk := h.get_block block_index
    let r := seek_index blk (block_init_state blk) timestamp_index
    match r.1 with
    | none =>
      match search_mode with
      | .After | .Closest =>
        .ok (Option.map Prod.fst
          (next_index (h.get_block 0) (block_init_state (h.get_block 0))))
      | _ => .ok none
    | some index_before =>
      if index_before.timestamp_index = timestamp_index then .ok (some index_before)
      else
        let index_after :=
          match next_index blk r.2 with
          | some ia => some ia.1
          | none =>
            if block_index + 1 < h.get_block_count then
              Option.map Prod.fst (next_index (h.get_block (block_index + 1))
                (block_init_state (h.get_block (block_index + 1))))
            else none
        match search_mode, index_after with
        | .Before, _ => .ok (some index_before)
        | .After, some ia => .ok (some ia)
        | .After, none => .ok none
        | .Closest, some ia =>
          if ia.timestamp_index - timestamp_index
              < timestamp_index - index_before.timestamp_index
          then .ok (some ia) else .ok (some index_before)
        | .Closest, none => .ok (some index_before)
        | .Exact, _ => .ok none

/-- History resulting from add_change(t_i, i) for the i-th element of ts. -/
def build_history (ts : List Nat) : WaveformHistory :=
  ts.enum.foldl (fun h p => h.add_change p.2 p.1) WaveformHistory.new

/-! Embedding of src/real.rs: the real-valued signal.  The f64 argument
of update is represented by the 8 big-endian bytes of value.to_be_bytes,
the only view of the value the container ever stores or reads. -/

structure WaveformSignalReal where
  history : WaveformHistory
  vectors : List Nat
  vector_index : Nat
deriving Repr

def WaveformSignalReal.new : WaveformSignalReal := ⟨WaveformHistory.new, [], 0⟩

def WaveformSignalReal.update (s : WaveformSignalReal) (timestamp_index : Nat)
    (value_be_bytes : List Nat) : WaveformSignalReal :=
  ⟨s.history.add_change timestamp_index s.vector_index,
   s.vectors ++ value_be_bytes, s.vector_index + 1⟩

/-- get_real slices the byte range from index * 8 to index * 8 + 1, a one
byte slice, and passes it to try_into for the 8-byte array argument of
f64::from_be_bytes; none models the abort of the unwrap on the length
mismatch. -/
def WaveformSignalReal.get_real (s : WaveformSignalReal) (index : Nat) : Option (List Nat) :=
  let range_bytes := (s.vectors.drop (index * 8)).take (index * 8 + 1 - index * 8)
  if range_bytes.length = 8 then some range_bytes else none

/-! Embedding of src/vector.rs: the packed vector signal. -/

inductive WaveformVectorPacking where
  | Bits (bits : Nat) : WaveformVectorPacking
  | Bytes (bytes : Nat) : WaveformVectorPacking
deriving DecidableEq, Repr

def WaveformVectorPacking.ofWidth (width : Nat) : WaveformVectorPacking :=
  match width with
  | 1 => .Bits 2
  | 2 => .Bits 4
  | 3 | 4 => .Bits 8
  | _ => .Bytes (((width - 1) / 8 + 1) * 2)

structure WaveformSignalVector where
  width : Nat
  packing : WaveformVectorPacking
  history : WaveformHistory
  vectors : List Nat
  vector_index : Nat
  bits_unused : Nat
deriving Repr

def WaveformSignalVector.new (width : Nat) : WaveformSignalVector :=
  ⟨width, WaveformVectorPacking.ofWidth width, WaveformHistory.new, [], 0, 0⟩

def WaveformSignalVector.get_width (s : WaveformSignalVector) : Nat := s.width

/-- update: record the change in the history and append the packed value.
In the byte-aligned mode the source resizes the vector by the entry size,
splits the new region into the value half and the mask half and writes
the big-endian bytes right-justified into each half; appending the two
zero-padded halves produces the identical bytes. -/
def WaveformSignalVector.update (s : WaveformSignalVector) (timestamp_index : Nat)
    (bv : BitVector) : WaveformSignalVector :=
  let history := s.history.add_change timestamp_index s.vector_index
  let offset := s.vectors.length
  match s.packing with
  | .Bits bits =>
    let combined_mask := (1 <<< (bits / 2)) - 1
    let vm := bv.to_bits_four_state_u8
    let combined := (vm.1 &&& combined_mask) ||| ((vm.2 &&& combined_mask) <<< (bits / 2))
    let r : List Nat × Nat :=
      match s.bits_unused with
      | 2 => (s.vectors.set (offset - 1) (s.vectors.getD (offset - 1) 0 ||| (combined <<< 6)),
              s.bits_unused)
      | 4 => (s.vectors.set (offset - 1) (s.vectors.getD (offset - 1) 0 ||| (combined <<< 4)),
              s.bits_unused)
      | 6 => (s.vectors.set (offset - 1) (s.vectors.getD (offset - 1) 0 ||| (combined <<< 2)),
              s.bits_unused)
      | _ => (s.vectors ++ [combined], 8)
    { s with history := history, vectors := r.1, bits_unused := (r.2 - bits), vector_index := s.vector_index + 1 }
  | .Bytes bytes =>
    let byte_width := (bv.get_bit_width - 1) / 8 + 1
    let pair := bv.to_be_bytes_four_state
    let vectors := s.vectors
      ++ (List.replicate (bytes / 2 - byte_width) 0 ++ pair.1)
      ++ (List.replicate (bytes / 2 - byte_width) 0 ++ pair.2)
    { s with history := history, vectors := vectors, vector_index := s.vector_index + 1 }

def WaveformSignalVector.get_bitvector (s : WaveformSignalVector) (index : Nat) : BitVector :=
  match s.packing with
  | .Bits bits =>
    let bit_mask := (1 <<< (bits / 2)) - 1
    let vectors_per_byte := 8 / bits
    let byte_index := index / vectors_per_byte
    let bit_index := (index % vectors_per_byte) * bits
    let byte := s.vectors.getD byte_index 0
    let value := (byte >>> bit_index) &&& bit_mask
    let mask := (byte >>> (bit_index + bits / 2)) &&& bit_mask
    BitVector.from_bits_four_state s.get_width value mask
  | .Bytes bytes =>
    let offset := bytes * index
    BitVector.from_be_bytes_four_state s.get_width
      ((s.vectors.drop offset).take (bytes / 2))
      ((s.vectors.drop (offset + bytes / 2)).take (bytes / 2))

/-! Specification-side views of the block token stream, used to state and
prove the append and decode theorems: a block body is a list of groups,
each a skip count followed by a number of consecutive changes. -/

/-- Base-128 big-endian digits of s, k digits. -/
def skip_digits : Nat → Nat → List Nat
  | 0, _ => []
  | k + 1, s => skip_digits k (s >>> 7) ++ [s &&& 127]

/-- The minimal base-128 big-endian encoding of a positive skip count,
as written by insert_change_block. -/
def skip_enc (s : Nat) : List Nat := skip_digits ((bit_length s - 1) / 7 + 1) s

/-- Token bytes encoding c consecutive changes, c at least 1: saturated
change bytes of 128 changes each, then the remainder change byte. -/
def change_run_bytes (c : Nat) : List Nat :=
  List.replicate ((c - 1) / 128) 255 ++ [128 + (c - 1) % 128]

/-- Token bytes of a list of groups. -/
def runs_enc (gs : List (Nat × Nat)) : List Nat :=
  gs.flatMap (fun g => (if g.1 = 0 then [] else skip_enc g.1) ++ change_run_bytes g.2)

/-- Decoded index pairs of a list of groups starting at the index pair
(t, v): each group first skips g.1 ticks and then emits g.2 consecutive
changes. -/
def runs_list (t v : Nat) : List (Nat × Nat) → List WaveformHistoryIndex
  | [] => []
  | g :: rest =>
    (List.range g.2).map (fun i => ⟨t + g.1 + i, v + i⟩)
      ++ runs_list (t + g.1 + g.2) (v + g.2) rest

/-- Timestamp ticks advanced by a list of groups. -/
def runs_adv_t (gs : List (Nat × Nat)) : Nat := (gs.map (fun g => g.1 + g.2)).sum

/-- Changes contained in a list of groups. -/
def runs_count (gs : List (Nat × Nat)) : Nat := (gs.map (fun g => g.2)).sum

/-- Specification of one block of the history: header pair and groups. -/
structure BlockSpec where
  t0 : Nat
  v0 : Nat
  gs : List (Nat × Nat)
deriving DecidableEq, Repr

instance : Inhabited BlockSpec := ⟨⟨0, 0, []⟩⟩

/-- Byte image of one block under the specification view. -/
def encode_block (e : BlockSpec) : List Nat :=
  beBytes 8 e.t0 ++ beBytes 8 e.v0 ++ runs_enc e.gs
    ++ List.replicate (BLOCK_SIZE - 16 - (runs_enc e.gs).length) 0

def replace_last (xs : List BlockSpec) (x : BlockSpec) : List BlockSpec :=
  xs.dropLast ++ [x]

/-- Increment the change count of the last group. -/
def bump_last (gs : List (Nat × Nat)) : List (Nat × Nat) :=
  gs.dropLast ++ [((gs.getLastD (0, 0)).1, (gs.getLastD (0, 0)).2 + 1)]

/-- Specification mirror of the decisions taken by add_change on a
history already holding at least one change: t is the new timestamp,
tlast the previous one and v the new value index. -/
def spec_add (bspec : List BlockSpec) (tlast t v : Nat) : List BlockSpec :=
  let e := bspec.getLastD default
  let L := (runs_enc e.gs).length
  let skips := t - tlast - 1
  if skips > 0 then
    if BLOCK_SIZE - (16 + L) < (skip_enc skips).length + 1 then bspec ++ [⟨t, v, [(0, 1)]⟩]
    else replace_last bspec ⟨e.t0, e.v0, e.gs ++ [(skips, 1)]⟩
  else
    if (runs_enc e.gs).getLastD 0 < 255 then
      replace_last bspec ⟨e.t0, e.v0, bump_last e.gs⟩
    else if 16 + L < BLOCK_SIZE then
      replace_last bspec ⟨e.t0, e.v0, bump_last e.gs⟩
    else bspec ++ [⟨t, v, [(0, 1)]⟩]

def spec_of_go : Nat → Nat → List BlockSpec → List Nat → List BlockSpec
  | _, _, bspec, [] => bspec
  | tlast, v, bspec, t :: rest => spec_of_go t (v + 1) (spec_add bspec tlast t v) rest

/-- Block structure of the history built from the timestamps ts. -/
def spec_of : List Nat → List BlockSpec
  | [] => []
  | t :: rest => spec_of_go t 1 [⟨t, 0, [(0, 1)]⟩] rest

/-- Iterator measure used for fuel bounds. -/
def iter_measure (s : BlockIterState) : Nat :=
  (BLOCK_SIZE - s.offset) * 129 + (129 - s.consumed_changes)

/-- Recursion-friendly form of build_history: add the changes of ts with
consecutive value indices starting at v. -/
def add_changes (h : WaveformHistory) (v : Nat) : List Nat → WaveformHistory
  | [] => h
  | t :: rest => add_changes (h.add_change t v) (v + 1) rest

/-- Validity of a timestamp sequence continuing after tlast: strictly
increasing, every gap at most 2 to the 56, every value below 2 to the
63.  The 63-bit bound keeps the embedding exact along the whole
sequence: the source stores the last appended timestamp in an isize,
which wraps negative from 2 to the 63 on and diverts the following
append into the fresh-block branch, and guards the block search with
the usize sum of the last block header and MAX_BLOCK_CHANGES, which
overflows for headers within MAX_BLOCK_CHANGES of 2 to the 64. -/
def ts_ok (tlast : Nat) : List Nat → Bool
  | [] => true
  | t :: rest =>
    (decide (tlast < t) && decide (t - tlast ≤ 2 ^ 56) && decide (t < 2 ^ 63)) && ts_ok t rest

/-- Validity of a whole timestamp sequence. -/
def ts_valid : List Nat → Bool
  | [] => true
  | t :: rest => decide (t < 2 ^ 63) && ts_ok t rest

/-- The index pairs of the timestamps ts with value indices starting at
v. -/
def enum_pairs (v : Nat) : List Nat → List WaveformHistoryIndex
  | [] => []
  | t :: rest => ⟨t, v⟩ :: enum_pairs (v + 1) rest

/-- All decoded pairs of a list of block specifications. -/
def runs_pairs (B : List BlockSpec) : List WaveformHistoryIndex :=
  (B.map (fun e => runs_list e.t0 e.v0 e.gs)).flatten

/-- Well-formedness of one block specification as produced by the
encoder. -/
def block_wf (e : BlockSpec) : Prop :=
  e.t0 < 2 ^ 64 ∧ e.v0 < 2 ^ 64 ∧ e.gs ≠ [] ∧ (e.gs.headD (0, 0)).1 = 0 ∧
    (runs_enc e.gs).length ≤ 496 ∧ ∀ g ∈ e.gs, 1 ≤ g.2 ∧ g.1 < 2 ^ 56

/-- Invariant tying a history under construction to its block
specification view: B is the block structure, tlast the last appended
timestamp, v the number of changes so far, P the pairs appended so
far. -/
structure hist_inv (h : WaveformHistory) (B : List BlockSpec) (tlast v : Nat)
    (P : List WaveformHistoryIndex) : Prop where
  nonempty : B ≠ []
  blocks_eq : h.blocks = (B.map encode_block).flatten
  index_eq : h.block_index = Int.ofNat (B.length - 1)
  offset_eq : h.block_offset = 16 + (runs_enc (B.getLastD default).gs).length
  tlast_eq : h.timestamp_index_last = Int.ofNat tlast
  wf : ∀ e ∈ B, block_wf e
  tlast_val : tlast + 1 = (B.getLastD default).t0 + runs_adv_t (B.getLastD default).gs
  v_val : v = (B.getLastD default).v0 + runs_count (B.getLastD default).gs
  tlast_lt : tlast < 2 ^ 64
  v_le : v ≤ tlast + 1
  pairs_eq : runs_pairs B = P

/-- Brute-force search over the appended pair sequence, following the
words of the search claim: an exact hit wins for every mode; otherwise
Before takes the last pair below t, After the first pair above t,
Closest the nearer of those two with ties to the earlier pair, and
Exact nothing. -/
def brute_search (pairs : List WaveformHistoryIndex) (t : Nat)
    (mode : WaveformSearchMode) : Option WaveformHistoryIndex :=
  match pairs.find? (fun p => p.timestamp_index == t) with
  | some p => some p
  | none =>
    match mode with
    | .Exact => none
    | .Before => (pairs.filter (fun p => decide (p.timestamp_index < t))).getLast?
    | .After => (pairs.filter (fun p => decide (p.timestamp_index > t))).head?
    | .Closest =>
      match (pairs.filter (fun p => decide (p.timestamp_index < t))).getLast?,
          (pairs.filter (fun p => decide (p.timestamp_index > t))).head? with
      | some b, some a =>
        if t - b.timestamp_index ≤ a.timestamp_index - t then some b else some a
      | some b, none => some b
      | none, some a => some a
      | none, none => none

/-- Reference walk of the seek loop over the decoded item list: keep
items while they are before t, stop on the first item beyond t, and
return an exact hit at once; the second component is the list of items
remaining after the returned position. -/
def seek_res (t : Nat) : List WaveformHistoryIndex → Option WaveformHistoryIndex →
    Option WaveformHistoryIndex × List WaveformHistoryIndex
  | [], last => (last, [])
  | p :: rest, last =>
    if p.timestamp_index > t then (last, p :: rest)
    else if p.timestamp_index = t then (some p, rest)
    else seek_res t rest (some p)

deriving instance DecidableEq for Except


/-! Representation invariant and content views of a bit-vector, used by
the vector-signal round trip (claim C6). -/

/-- Four-state inline part of the representation invariant. -/
def BitVector.wf_four_inline (bv : BitVector) : Prop :=
  bv.is_four_state = true → bv.get_bit_width * 2 ≤ 64 →
    bv.size = bv.get_bit_width ||| FOUR_STATE_TAG ∧
    bv.payload = .word bv.payload.asWord ∧
    bv.payload.asWord &&& HALF_WORD_MASK < 2 ^ bv.get_bit_width ∧
    bv.payload.asWord >>> HALF_WORD_BITS < 2 ^ bv.get_bit_width

/-- Four-state heap part of the representation invariant. -/
def BitVector.wf_four_heap (bv : BitVector) : Prop :=
  bv.is_four_state = true → 64 < bv.get_bit_width * 2 →
    bv.size = bv.get_bit_width ||| POINTER_TAG ||| FOUR_STATE_TAG ∧
    bv.payload = .ptr bv.payload.ptrWords ∧
    bv.payload.ptrWords.length = ((bv.get_bit_width - 1) / 64 + 1) * 2 ∧
    (∀ x ∈ bv.payload.ptrWords, x < 2 ^ 64) ∧
    wordsVal (bv.payload.ptrWords.take ((bv.get_bit_width - 1) / 64 + 1))
      < 2 ^ bv.get_bit_width ∧
    wordsVal (bv.payload.ptrWords.drop ((bv.get_bit_width - 1) / 64 + 1))
      < 2 ^ bv.get_bit_width

/-- Two-state inline part of the representation invariant. -/
def BitVector.wf_two_inline (bv : BitVector) : Prop :=
  bv.is_four_state = false → bv.get_bit_width ≤ 64 →
    bv.size = bv.get_bit_width ∧
    bv.payload = .word bv.payload.asWord ∧
    bv.payload.asWord < 2 ^ bv.get_bit_width

/-- Two-state heap part of the representation invariant. -/
def BitVector.wf_two_heap (bv : BitVector) : Prop :=
  bv.is_four_state = false → 64 < bv.get_bit_width →
    bv.size = bv.get_bit_width ||| POINTER_TAG ∧
    bv.payload = .ptr bv.payload.ptrWords ∧
    bv.payload.ptrWords.length = (bv.get_bit_width - 1) / 64 + 1 ∧
    (∀ x ∈ bv.payload.ptrWords, x < 2 ^ 64) ∧
    wordsVal bv.payload.ptrWords < 2 ^ bv.get_bit_width

instance (bv : BitVector) : Decidable bv.wf_four_inline := by
  unfold BitVector.wf_four_inline
  exact inferInstance

instance (bv : BitVector) : Decidable bv.wf_four_heap := by
  unfold BitVector.wf_four_heap
  exact inferInstance

instance (bv : BitVector) : Decidable bv.wf_two_inline := by
  unfold BitVector.wf_two_inline
  exact inferInstance

instance (bv : BitVector) : Decidable bv.wf_two_heap := by
  unfold BitVector.wf_two_heap
  exact inferInstance

/-- Representation invariant of a BitVector as maintained by the library
constructors: the size word carries the canonical tag layout for the
width and flavor, the payload constructor matches the pointer tag, the
stored value and mask content is bounded by the width, and heap payloads
have the allocated word count with 64-bit words. -/
def BitVector.wf (bv : BitVector) : Prop :=
  1 ≤ bv.get_bit_width ∧ bv.get_bit_width < 2 ^ 62 ∧
  bv.wf_four_inline ∧ bv.wf_four_heap ∧ bv.wf_two_inline ∧ bv.wf_two_heap

instance (bv : BitVector) : Decidable bv.wf := by
  unfold BitVector.wf
  exact inferInstance

/-- Numeric value content of a bit-vector, read off its representation;
proof-side view used to state the per-bit and byte-codec lemmas. -/
def bvVal (bv : BitVector) : Nat :=
  if bv.is_pointer then
    if bv.is_four_state then
      wordsVal (bv.payload.ptrWords.take ((bv.get_bit_width - 1) / 64 + 1))
    else wordsVal bv.payload.ptrWords
  else if bv.is_four_state then bv.payload.asWord &&& HALF_WORD_MASK
  else bv.payload.asWord

/-- Numeric mask content of a bit-vector, read off its representation;
two-state vectors have mask zero. -/
def bvMask (bv : BitVector) : Nat :=
  if bv.is_pointer then
    if bv.is_four_state then
      wordsVal (bv.payload.ptrWords.drop ((bv.get_bit_width - 1) / 64 + 1))
    else 0
  else if bv.is_four_state then bv.payload.asWord >>> HALF_WORD_BITS
  else 0

/-- State of a vector signal after a sequence of update calls. -/
def signal_after (w : Nat) (updates : List (Nat × BitVector)) : WaveformSignalVector :=
  updates.foldl (fun s u => s.update u.1 u.2) (WaveformSignalVector.new w)

/-- The packed value-and-mask fragment stored by an update in the
bit-packed mode, exactly as computed in the source. -/
def combinedOf (bits : Nat) (bv : BitVector) : Nat :=
  let combined_mask := (1 <<< (bits / 2)) - 1
  let vm := bv.to_bits_four_state_u8
  (vm.1 &&& combined_mask) ||| ((vm.2 &&& combined_mask) <<< (bits / 2))

/-- Layout invariant of the bit-packed mode after a sequence of updates
whose packed fragments are cs: the byte count and the free bits of the
last byte account for bits per entry, the last byte is zero above its
used bits, and extracting entry j's bit range from its byte yields
fragment j. -/
def bits_inv (w bits : Nat) (s : WaveformSignalVector) (cs : List Nat) : Prop :=
  s.width = w ∧
  s.packing = .Bits bits ∧
  8 * s.vectors.length = bits * cs.length + s.bits_unused ∧
  s.bits_unused < 8 ∧
  bits ∣ s.bits_unused ∧
  s.vectors.getD (s.vectors.length - 1) 0 < 2 ^ (8 - s.bits_unused) ∧
  ∀ j < cs.length,
    (s.vectors.getD (j / (8 / bits)) 0 >>> ((j % (8 / bits)) * bits)) &&& (2 ^ bits - 1)
      = cs.getD j 0

/-- Bytes appended to the vector store by one update in the byte-aligned
mode: the zero-padded big-endian value half followed by the zero-padded
mask half. -/
def bytes_chunk (half : Nat) (bv : BitVector) : List Nat :=
  (List.replicate (half - ((bv.get_bit_width - 1) / 8 + 1)) 0
    ++ bv.to_be_bytes_four_state.1)
  ++ (List.replicate (half - ((bv.get_bit_width - 1) / 8 + 1)) 0
    ++ bv.to_be_bytes_four_state.2)

/-- Layout invariant of the byte-aligned mode: the vector store is the
concatenation of the chunks of the updates done so far. -/
def bytes_inv (w bytes : Nat) (s : WaveformSignalVector)
    (us : List (Nat × BitVector)) : Prop :=
  s.width = w ∧
  s.packing = .Bytes bytes ∧
  s.vectors = (us.map (fun u => bytes_chunk (bytes / 2) u.2)).flatten

/-! THEOREMS: everything below this point is a theorem; all
definitions of the embedding are above. -/

theorem shiftLeft_or_eq_add (a b k : Nat) (h : b < 2 ^ k) :
    (a <<< k) ||| b = a * 2 ^ k + b := by
  apply Nat.eq_of_testBit_eq
  intro i
  rw [Nat.mul_comm, Nat.testBit_mul_pow_two_add a h i, Nat.testBit_lor]
  rcases Nat.lt_or_ge i k with h1 | h1
  · rw [if_pos h1]
    simp [Nat.testBit_shiftLeft, Nat.not_le.mpr h1]
  · rw [if_neg (Nat.not_lt.mpr h1)]
    simp [Nat.testBit_shiftLeft, h1,
      Nat.testBit_lt_two_pow (lt_of_lt_of_le h (Nat.pow_le_pow_right (by norm_num) h1))]

theorem and_0xff_eq_mod (x : Nat) : x &&& 0xff = x % 256 := by
  have h := Nat.and_pow_two_sub_one_eq_mod x 8
  norm_num at h
  simpa using h

theorem shiftRight_8_eq_div (x : Nat) : x >>> 8 = x / 256 := by
  have h := Nat.shiftRight_eq_div_pow x 8
  norm_num at h
  simpa using h

theorem beVal_step (acc b : Nat) (hb : b < 256) :
    (acc <<< 8) ||| b = acc * 256 + b := by
  have h256 : (2 : Nat) ^ 8 = 256 := by norm_num
  have h := shiftLeft_or_eq_add acc b 8 (by omega)
  rw [h256] at h
  exact h

theorem beVal_go (bytes : List Nat) : ∀ acc, allBytes bytes →
    bytes.foldl (fun acc b => (acc <<< 8) ||| b) acc
      = acc * 256 ^ bytes.length + beVal bytes := by
  induction bytes with
  | nil => intro acc _; simp [beVal]
  | cons b bs ih =>
    intro acc h
    have hb : b < 256 := h b (by simp)
    have hbs : allBytes bs := fun x hx => h x (by simp [hx])
    have hcons : beVal (b :: bs) = b * 256 ^ bs.length + beVal bs := by
      unfold beVal
      simp only [List.foldl_cons]
      rw [beVal_step 0 b hb]
      simpa using ih b hbs
    simp only [List.foldl_cons, List.length_cons]
    rw [beVal_step acc b hb, ih (acc * 256 + b) hbs, hcons]
    ring

theorem beVal_cons (b : Nat) (bs : List Nat) (hb : b < 256) (hbs : allBytes bs) :
    beVal (b :: bs) = b * 256 ^ bs.length + beVal bs := by
  unfold beVal
  simp only [List.foldl_cons]
  rw [beVal_step 0 b hb]
  simpa using beVal_go bs b hbs

theorem beVal_lt (bytes : List Nat) (h : allBytes bytes) :
    beVal bytes < 256 ^ bytes.length := by
  induction bytes with
  | nil => simp [beVal]
  | cons b bs ih =>
    have hb : b < 256 := h b (by simp)
    have hbs : allBytes bs := fun x hx => h x (by simp [hx])
    rw [beVal_cons b bs hb hbs]
    have h1 := ih hbs
    have h2 : b * 256 ^ bs.length + beVal bs < (b + 1) * 256 ^ bs.length := by
      have : (b + 1) * 256 ^ bs.length = b * 256 ^ bs.length + 256 ^ bs.length := by ring
      omega
    have h3 : (b + 1) * 256 ^ bs.length ≤ 256 * 256 ^ bs.length :=
      Nat.mul_le_mul_right _ (by omega)
    have h4 : (256 : Nat) ^ (b :: bs).length = 256 * 256 ^ bs.length := by
      simp [List.length_cons]; ring
    omega

theorem beVal_append (l1 l2 : List Nat) (h1 : allBytes l1) (h2 : allBytes l2) :
    beVal (l1 ++ l2) = beVal l1 * 256 ^ l2.length + beVal l2 := by
  unfold beVal
  rw [List.foldl_append]
  exact beVal_go l2 _ h2

theorem beBytes_length (k n : Nat) : (beBytes k n).length = k := by
  induction k generalizing n with
  | zero => simp [beBytes]
  | succ k ih => simp [beBytes, ih]

theorem beBytes_allBytes (k n : Nat) : allBytes (beBytes k n) := by
  induction k generalizing n with
  | zero => intro b hb; simp [beBytes] at hb
  | succ k ih =>
    intro b hb
    simp only [beBytes, List.mem_append, List.mem_singleton] at hb
    rcases hb with hb | hb
    · exact ih _ b hb
    · rw [hb, and_0xff_eq_mod]
      exact Nat.mod_lt _ (by norm_num)

theorem beVal_beBytes (k n : Nat) : beVal (beBytes k n) = n % 256 ^ k := by
  induction k generalizing n with
  | zero => simp [beBytes, beVal, Nat.mod_one]
  | succ k ih =>
    have hsingle : allBytes [n &&& 0xff] := by
      intro x hx
      simp at hx
      rw [hx, and_0xff_eq_mod]
      exact Nat.mod_lt _ (by norm_num)
    rw [beBytes, beVal_append _ _ (beBytes_allBytes _ _) hsingle]
    have hb : beVal [n &&& 0xff] = n % 256 := by
      have : beVal [n &&& 0xff] = n &&& 0xff := by
        unfold beVal
        simp only [List.foldl_cons, List.foldl_nil]
        rw [beVal_step 0 _ (by rw [and_0xff_eq_mod]; exact Nat.mod_lt _ (by norm_num))]
        omega
      rw [this, and_0xff_eq_mod]
    rw [hb, ih, shiftRight_8_eq_div]
    have h2 : (256 : Nat) ^ (k + 1) = 256 * 256 ^ k := by ring
    rw [h2, Nat.mod_mul]
    simp only [List.length_singleton, pow_one]
    ring

theorem beBytes_mod (k n : Nat) : beBytes k (n % 256 ^ k) = beBytes k n := by
  induction k generalizing n with
  | zero => simp [beBytes]
  | succ k ih =>
    simp only [beBytes]
    congr 1
    · rw [shiftRight_8_eq_div, shiftRight_8_eq_div]
      have h1 : (256 : Nat) ^ (k + 1) = 256 * 256 ^ k := by ring
      rw [h1, Nat.mod_mul_right_div_self]
      rw [ih (n / 256)]
    · rw [and_0xff_eq_mod, and_0xff_eq_mod]
      congr 1
      exact Nat.mod_mod_of_dvd n (dvd_pow_self 256 (Nat.succ_ne_zero k))

theorem beBytes_beVal (bytes : List Nat) (h : allBytes bytes) :
    beBytes bytes.length (beVal bytes) = bytes := by
  induction bytes using List.reverseRecOn with
  | nil => simp [beBytes, beVal]
  | append_singleton bs b ih =>
    have hb : b < 256 := h b (by simp)
    have hbs : allBytes bs := fun x hx => h x (by simp [hx])
    rw [beVal_append bs [b] hbs (by intro x hx; simp at hx; omega)]
    have hb1 : beVal [b] = b := by
      unfold beVal
      simp only [List.foldl_cons, List.foldl_nil]
      rw [beVal_step 0 b hb]
      omega
    rw [hb1]
    have hlen : (bs ++ [b]).length = bs.length + 1 := by simp
    rw [hlen]
    simp only [beBytes, List.length_singleton, pow_one]
    congr 1
    · rw [shiftRight_8_eq_div]
      have hdiv : (beVal bs * 256 + b) / 256 = beVal bs := by omega
      rw [hdiv]
      exact ih hbs
    · rw [and_0xff_eq_mod]
      have hmod : (beVal bs * 256 + b) % 256 = b := by omega
      rw [hmod]

theorem clone_be_words_lt (fuel : Nat) (bytes : List Nat) (h : allBytes bytes) :
    ∀ w ∈ clone_be_bytes_to_usizes fuel bytes, w < 2 ^ 64 := by
  induction fuel generalizing bytes with
  | zero => intro w hw; simp [clone_be_bytes_to_usizes] at hw
  | succ fuel ih =>
    intro w hw
    unfold clone_be_bytes_to_usizes at hw
    by_cases hl : bytes.length ≤ 8
    · rw [if_pos hl] at hw
      simp at hw
      subst hw
      have := beVal_lt bytes h
      calc beVal bytes < 256 ^ bytes.length := this
        _ ≤ 256 ^ 8 := Nat.pow_le_pow_right (by norm_num) hl
        _ = 2 ^ 64 := by norm_num
    · rw [if_neg hl] at hw
      simp at hw
      rcases hw with hw | hw
      · subst hw
        have hdrop : allBytes (bytes.drop (bytes.length - 8)) := by
          intro x hx
          exact h x (List.mem_of_mem_drop hx)
        have hlen : (bytes.drop (bytes.length - 8)).length = 8 := by
          simp [List.length_drop]
          omega
        have := beVal_lt _ hdrop
        rw [hlen] at this
        calc beVal _ < 256 ^ 8 := this
          _ = 2 ^ 64 := by norm_num
      · exact ih (bytes.take (bytes.length - 8))
          (fun x hx => h x (List.mem_of_mem_take hx)) w hw

theorem clone_be_wordsVal (fuel : Nat) (bytes : List Nat) (h : allBytes bytes)
    (hfuel : bytes.length ≤ 8 * fuel) :
    wordsVal (clone_be_bytes_to_usizes fuel bytes) = beVal bytes := by
  induction fuel generalizing bytes with
  | zero =>
    have hnil : bytes = [] := List.length_eq_zero.mp (by omega)
    subst hnil
    simp [clone_be_bytes_to_usizes, wordsVal, beVal]
  | succ fuel ih =>
    unfold clone_be_bytes_to_usizes
    by_cases hl : bytes.length ≤ 8
    · rw [if_pos hl]
      simp [wordsVal]
    · rw [if_neg hl]
      have htake : allBytes (bytes.take (bytes.length - 8)) :=
        fun x hx => h x (List.mem_of_mem_take hx)
      have hdrop : allBytes (bytes.drop (bytes.length - 8)) :=
        fun x hx => h x (List.mem_of_mem_drop hx)
      have hlend : (bytes.drop (bytes.length - 8)).length = 8 := by
        rw [List.length_drop]; omega
      have hlent : (bytes.take (bytes.length - 8)).length = bytes.length - 8 := by
        rw [List.length_take]; omega
      rw [wordsVal]
      rw [ih (bytes.take (bytes.length - 8)) htake (by omega)]
      have hsplit := beVal_append (bytes.take (bytes.length - 8))
        (bytes.drop (bytes.length - 8)) htake hdrop
      rw [List.take_append_drop] at hsplit
      rw [hsplit, hlend]
      have h64 : (256 : Nat) ^ 8 = 2 ^ 64 := by norm_num
      rw [h64]
      ring

theorem clone_be_length (fuel : Nat) (bytes : List Nat)
    (hfuel : bytes.length ≤ 8 * fuel) (hfuel1 : 1 ≤ fuel) :
    (clone_be_bytes_to_usizes fuel bytes).length = (bytes.length - 1) / 8 + 1 := by
  induction fuel generalizing bytes with
  | zero => omega
  | succ fuel ih =>
    unfold clone_be_bytes_to_usizes
    by_cases hl : bytes.length ≤ 8
    · rw [if_pos hl]
      simp
      omega
    · rw [if_neg hl]
      have hlent : (bytes.take (bytes.length - 8)).length = bytes.length - 8 := by
        rw [List.length_take]; omega
      simp only [List.length_cons]
      rw [ih (bytes.take (bytes.length - 8)) (by omega) (by omega), hlent]
      omega

theorem beBytes_split (j k n : Nat) :
    beBytes (j + k) n = beBytes j (n / 256 ^ k) ++ beBytes k n := by
  induction k generalizing n with
  | zero => simp [beBytes]
  | succ k ih =>
    have h1 : j + (k + 1) = (j + k) + 1 := by omega
    rw [h1]
    show beBytes (j + k) (n >>> 8) ++ [n &&& 0xff]
      = beBytes j (n / 256 ^ (k + 1)) ++ (beBytes k (n >>> 8) ++ [n &&& 0xff])
    rw [ih (n >>> 8), shiftRight_8_eq_div]
    have h2 : n / 256 / 256 ^ k = n / 256 ^ (k + 1) := by
      rw [Nat.div_div_eq_div_mul]
      congr 1
      ring
    rw [h2, List.append_assoc]

theorem wordsVal_head (ws : List Nat) :
    wordsVal ws = ws.getD 0 0 + wordsVal (ws.drop 1) * 2 ^ 64 := by
  cases ws with
  | nil => simp [wordsVal]
  | cons w rest => simp [wordsVal]

theorem clone_usizes_eq_beBytes (fuel : Nat) (ws : List Nat) (len : Nat)
    (hws : ∀ w ∈ ws, w < 2 ^ 64) (hfuel : len ≤ 8 * fuel) (hlen1 : 1 ≤ len) :
    clone_usizes_to_be_bytes fuel ws len = beBytes len (wordsVal ws) := by
  induction fuel generalizing ws len with
  | zero => omega
  | succ fuel ih =>
    have hw0 : ws.getD 0 0 < 2 ^ 64 := by
      cases ws with
      | nil => simp
      | cons w rest => exact hws w (by simp)
    have hmod8 : ∀ m : Nat, m ≤ 8 →
        wordsVal ws % 256 ^ m = ws.getD 0 0 % 256 ^ m := by
      intro m hm
      rw [wordsVal_head ws]
      have hdvd : (256 : Nat) ^ m ∣ 2 ^ 64 := by
        have h1 : (256 : Nat) ^ m ∣ 256 ^ 8 := pow_dvd_pow 256 hm
        simpa [show (256 : Nat) ^ 8 = 2 ^ 64 by norm_num] using h1
      rcases hdvd with ⟨c, hc⟩
      rw [hc]
      have : ws.getD 0 0 + wordsVal (ws.drop 1) * (256 ^ m * c)
          = ws.getD 0 0 + 256 ^ m * (wordsVal (ws.drop 1) * c) := by ring
      rw [this, Nat.add_mul_mod_self_left]
    unfold clone_usizes_to_be_bytes
    by_cases hl : len ≤ 8
    · rw [if_pos hl]
      rw [← beBytes_mod len (wordsVal ws), hmod8 len hl, beBytes_mod]
    · rw [if_neg hl]
      have hrest : ∀ w ∈ ws.drop 1, w < 2 ^ 64 :=
        fun w hw => hws w (List.mem_of_mem_drop hw)
      rw [ih (ws.drop 1) (len - 8) hrest (by omega) (by omega)]
      have hsplit := beBytes_split (len - 8) 8 (wordsVal ws)
      have hlen8 : len - 8 + 8 = len := by omega
      rw [hlen8] at hsplit
      rw [hsplit]
      congr 1
      · congr 1
        rw [wordsVal_head ws]
        have h64 : (256 : Nat) ^ 8 = 2 ^ 64 := by norm_num
        rw [h64]
        rw [Nat.add_mul_div_right _ _ (by norm_num : 0 < 2 ^ 64)]
        rw [Nat.div_eq_of_lt hw0]
        omega
      · rw [← beBytes_mod 8 (wordsVal ws), hmod8 8 (by omega), beBytes_mod]

/-! Arithmetic of the size-word tag bits. -/

theorem POINTER_TAG_eq : POINTER_TAG = 2 ^ 63 := by
  norm_num [POINTER_TAG, USIZE_BITS, Nat.shiftLeft_eq]

theorem FOUR_STATE_TAG_eq : FOUR_STATE_TAG = 2 ^ 62 := by
  norm_num [FOUR_STATE_TAG, USIZE_BITS, Nat.shiftLeft_eq]

theorem HALF_WORD_BITS_eq : HALF_WORD_BITS = 32 := by norm_num [HALF_WORD_BITS, USIZE_BITS]

theorem HALF_WORD_MASK_eq : HALF_WORD_MASK = 2 ^ 32 - 1 := by
  norm_num [HALF_WORD_MASK, HALF_WORD_BITS, USIZE_BITS, Nat.shiftLeft_eq]

theorem or_eq_add_of_dvd (a b k : Nat) (hdvd : 2 ^ k ∣ a) (hb : b < 2 ^ k) :
    a ||| b = a + b := by
  rcases hdvd with ⟨c, hc⟩
  subst hc
  have h1 : c <<< k = 2 ^ k * c := by rw [Nat.shiftLeft_eq]; ring
  rw [← h1, shiftLeft_or_eq_add c b k hb, h1]
  ring

theorem or_tags_F (w : Nat) (hw : w < 2 ^ 62) :
    w ||| FOUR_STATE_TAG = 1 * 2 ^ 62 + w := by
  rw [FOUR_STATE_TAG_eq, Nat.lor_comm,
    or_eq_add_of_dvd _ _ 62 (dvd_refl _) hw]
  ring

theorem or_tags_P (w : Nat) (hw : w < 2 ^ 62) :
    w ||| POINTER_TAG = 2 * 2 ^ 62 + w := by
  rw [POINTER_TAG_eq, Nat.lor_comm,
    or_eq_add_of_dvd _ _ 63 (dvd_refl _) (lt_trans hw (by norm_num))]
  ring

theorem or_tags_PF (w : Nat) (hw : w < 2 ^ 62) :
    w ||| POINTER_TAG ||| FOUR_STATE_TAG = 3 * 2 ^ 62 + w := by
  rw [Nat.lor_assoc, POINTER_TAG_eq, FOUR_STATE_TAG_eq]
  have h1 : (2 : Nat) ^ 63 ||| 2 ^ 62 = 3 * 2 ^ 62 := by decide
  rw [Nat.lor_comm _ (2 ^ 63 ||| 2 ^ 62), h1,
    or_eq_add_of_dvd _ _ 62 ⟨3, by ring⟩ hw]

theorem size_width (a w : Nat) (hw : w < 2 ^ 62) :
    (a * 2 ^ 62 + w) &&& (FOUR_STATE_TAG - 1) = w := by
  rw [FOUR_STATE_TAG_eq, Nat.and_pow_two_sub_one_eq_mod, Nat.mul_comm a (2 ^ 62),
    Nat.mul_add_mod, Nat.mod_eq_of_lt hw]

theorem size_four_state (a w : Nat) (hw : w < 2 ^ 62) :
    (a * 2 ^ 62 + w) &&& FOUR_STATE_TAG = (a.testBit 0).toNat * 2 ^ 62 := by
  rw [FOUR_STATE_TAG_eq, Nat.and_two_pow]
  congr 2
  rw [Nat.mul_comm, Nat.testBit_mul_pow_two_add a hw 62]
  simp

theorem size_pointer (a w : Nat) (hw : w < 2 ^ 62) :
    (a * 2 ^ 62 + w) &&& POINTER_TAG = (a.testBit 1).toNat * 2 ^ 63 := by
  rw [POINTER_TAG_eq, Nat.and_two_pow]
  congr 2
  rw [Nat.mul_comm, Nat.testBit_mul_pow_two_add a hw 63]
  simp

/-- Field values of a size word of the shape tag-weight times 2 to the 62
plus width. -/
theorem size_fields (a w : Nat) (hw : w < 2 ^ 62) (p : BVPayload) :
    (BitVector.mk (a * 2 ^ 62 + w) p).get_bit_width = w
    ∧ (BitVector.mk (a * 2 ^ 62 + w) p).is_four_state = a.testBit 0
    ∧ (BitVector.mk (a * 2 ^ 62 + w) p).is_pointer = a.testBit 1 := by
  refine ⟨?_, ?_, ?_⟩
  · show (a * 2 ^ 62 + w) &&& (FOUR_STATE_TAG - 1) = w
    exact size_width a w hw
  · show ((a * 2 ^ 62 + w) &&& FOUR_STATE_TAG != 0) = a.testBit 0
    rw [size_four_state a w hw]
    cases a.testBit 0 <;> simp
  · show ((a * 2 ^ 62 + w) &&& POINTER_TAG != 0) = a.testBit 1
    rw [size_pointer a w hw]
    cases a.testBit 1 <;> simp

theorem size_fields_plain (w : Nat) (hw : w < 2 ^ 62) (p : BVPayload) :
    (BitVector.mk w p).get_bit_width = w
    ∧ (BitVector.mk w p).is_four_state = false
    ∧ (BitVector.mk w p).is_pointer = false := by
  have h := size_fields 0 w hw p
  simpa using h

/-- Reading past the width always yields Zero. -/
theorem get_bit_out_of_range (bv : BitVector) (i : Nat) (h : bv.get_bit_width ≤ i) :
    bv.get_bit i = Logic.Zero := by
  unfold BitVector.get_bit
  rw [if_pos (by omega)]

/-- C9 supporting lemma: both halves of the out-of-range contract. -/
theorem set_bit_out_of_range (bv : BitVector) (i : Nat) (l : Logic)
    (h : bv.get_bit_width ≤ i) : bv.set_bit i l = bv := by
  unfold BitVector.set_bit
  rw [if_pos (by omega)]

/-- C9: for every BitVector bv and index i at or past bv.bit_width,
get_bit i yields Logic.Zero without error and set_bit i l is a no-op:
the result has the same width, the same four-state flavor, and the same
get_bit view at every index. -/
theorem c9_out_of_range_bit_access (bv : BitVector) (i : Nat) (l : Logic)
    (h : bv.get_bit_width ≤ i) :
    bv.get_bit i = Logic.Zero
    ∧ bv.set_bit i l = bv
    ∧ (bv.set_bit i l).get_bit_width = bv.get_bit_width
    ∧ (bv.set_bit i l).is_four_state = bv.is_four_state
    ∧ ∀ j, (bv.set_bit i l).get_bit j = bv.get_bit j := by
  refine ⟨get_bit_out_of_range bv i h, set_bit_out_of_range bv i l h, ?_, ?_, ?_⟩
  · rw [set_bit_out_of_range bv i l h]
  · rw [set_bit_out_of_range bv i l h]
  · intro j
    rw [set_bit_out_of_range bv i l h]

/-- C9 witness at a concrete vector, index and logic value. -/
theorem c9_out_of_range_bit_access_witness :
    (BitVector.from_bits_two_state 3 5).get_bit_width ≤ 7
    ∧ (BitVector.from_bits_two_state 3 5).get_bit 7 = Logic.Zero
    ∧ (BitVector.from_bits_two_state 3 5).set_bit 7 Logic.One
      = BitVector.from_bits_two_state 3 5 := by
  have h : (BitVector.from_bits_two_state 3 5).get_bit_width ≤ 7 := by decide
  have hc := c9_out_of_range_bit_access (BitVector.from_bits_two_state 3 5) 7 Logic.One h
  exact ⟨h, hc.1, hc.2.1⟩

/-- Spelled-out form of the comparison loops of impl PartialEq, for the
vector acting as the wider of the two. -/
theorem beq_spec (x y : BitVector) (h : y.get_bit_width ≤ x.get_bit_width) :
    (((List.range y.get_bit_width).all fun i => x.get_bit i == y.get_bit i) &&
      ((List.range' y.get_bit_width (x.get_bit_width - y.get_bit_width)).all
        fun i => x.get_bit i == Logic.Zero)) = true
    ↔ ∀ i < x.get_bit_width, x.get_bit i = y.get_bit i := by
  rw [Bool.and_eq_true, List.all_eq_true, List.all_eq_true]
  constructor
  · rintro ⟨h1, h2⟩ i hi
    by_cases hy : i < y.get_bit_width
    · have := h1 i (List.mem_range.mpr hy)
      simpa using this
    · have hx := h2 i (List.mem_range'_1.mpr ⟨by omega, by omega⟩)
      have hyz : y.get_bit i = Logic.Zero := get_bit_out_of_range y i (by omega)
      simp at hx
      rw [hx, hyz]
  · intro hall
    constructor
    · intro i hi
      have hi' : i < y.get_bit_width := List.mem_range.mp hi
      have := hall i (by omega)
      simpa using this
    · intro i hi
      have hi' := List.mem_range'_1.mp hi
      have h1 := hall i (by omega)
      have hyz : y.get_bit i = Logic.Zero := get_bit_out_of_range y i (by omega)
      simp
      rw [h1, hyz]

/-- C8: two bit-vectors compare equal exactly when every bit position up
to the larger width carries the same Logic value, the shorter vector
reading Zero past its width; in particular a two-state vector equals the
four-state vector with the same bits and zero mask, and the width 3
vector with bits 0b101 equals its zero-extended width 7 version. -/
theorem c8_partial_eq_zero_extended :
    (∀ a b : BitVector, BitVector.beq a b = true
      ↔ ∀ i < max a.get_bit_width b.get_bit_width, a.get_bit i = b.get_bit i)
    ∧ BitVector.beq (BitVector.from_bits_two_state 4 0b1010)
        (BitVector.from_bits_four_state 4 0b1010 0) = true
    ∧ BitVector.beq (BitVector.from_bits_two_state 3 0b101)
        (BitVector.from_bits_two_state 7 0b101) = true := by
  refine ⟨?_, by decide, by decide⟩
  intro a b
  unfold BitVector.beq
  by_cases hab : a.get_bit_width > b.get_bit_width
  · rw [if_pos hab]
    have hmax : max a.get_bit_width b.get_bit_width = a.get_bit_width := by omega
    rw [hmax]
    exact beq_spec a b (by omega)
  · rw [if_neg hab]
    have hmax : max a.get_bit_width b.get_bit_width = b.get_bit_width := by omega
    rw [hmax]
    rw [beq_spec b a (by omega)]
    constructor
    · intro h1 i hi
      exact (h1 i hi).symm
    · intro h1 i hi
      exact (h1 i hi).symm

/-! Round-trip facts for the byte constructors (claim C5). -/

theorem shiftLeft_lor_distrib (a b k : Nat) :
    (a ||| b) <<< k = (a <<< k) ||| (b <<< k) := by
  apply Nat.eq_of_testBit_eq
  intro i
  simp only [Nat.testBit_shiftLeft, Nat.testBit_lor]
  by_cases h : k ≤ i <;> simp [h]

theorem wordsVal_append (a b : List Nat) :
    wordsVal (a ++ b) = wordsVal a + wordsVal b * 2 ^ (64 * a.length) := by
  induction a with
  | nil => simp [wordsVal]
  | cons w ws ih =>
    have h1 : (2 : Nat) ^ (64 * (ws.length + 1)) = 2 ^ (64 * ws.length) * 2 ^ 64 := by
      rw [show 64 * (ws.length + 1) = 64 * ws.length + 64 by ring, pow_add]
    simp only [List.cons_append, List.append_eq, wordsVal, List.length_cons, h1]
    rw [ih]
    ring

theorem new_two_state_inline (w : Nat) (h : w ≤ 64) :
    BitVector.new w false = ⟨w, .word 0⟩ := by
  unfold BitVector.new
  simp [USIZE_BITS, Nat.not_lt.mpr h]

theorem new_two_state_heap (w : Nat) (h : 64 < w) :
    BitVector.new w false = ⟨w ||| POINTER_TAG, .ptr (List.replicate ((w - 1) / 64 + 1) 0)⟩ := by
  unfold BitVector.new
  simp [USIZE_BITS, h]

theorem new_four_state_inline (w : Nat) (h : w * 2 ≤ 64) :
    BitVector.new w true = ⟨w ||| FOUR_STATE_TAG, .word 0⟩ := by
  unfold BitVector.new
  simp [USIZE_BITS, Nat.not_lt.mpr h]

theorem new_four_state_heap (w : Nat) (h : 64 < w * 2) :
    BitVector.new w true
      = ⟨w ||| POINTER_TAG ||| FOUR_STATE_TAG,
         .ptr (List.replicate (((w - 1) / 64 + 1) * 2) 0)⟩ := by
  unfold BitVector.new
  simp [USIZE_BITS, h]

theorem fourStateUnfold_eq (k p : Nat) :
    fourStateUnfold k p = (beBytes k p, beBytes k (p >>> HALF_WORD_BITS)) := by
  induction k generalizing p with
  | zero => simp [fourStateUnfold, beBytes]
  | succ k ih =>
    simp only [fourStateUnfold, ih]
    have hcomm : p >>> 8 >>> HALF_WORD_BITS = p >>> HALF_WORD_BITS >>> 8 := by
      rw [Nat.shiftRight_eq_div_pow, Nat.shiftRight_eq_div_pow, Nat.shiftRight_eq_div_pow,
        Nat.shiftRight_eq_div_pow, Nat.div_div_eq_div_mul, Nat.div_div_eq_div_mul,
        Nat.mul_comm]
    rw [hcomm]
    simp only [beBytes]

theorem fourStateFold_go (vs ms : List Nat) (X Y j : Nat)
    (hlen : vs.length = ms.length) (hj : j + vs.length ≤ 4)
    (hX : X < 2 ^ (8 * j)) (hY : Y < 2 ^ (8 * j))
    (hvb : allBytes vs) (hmb : allBytes ms) :
    (List.zip vs ms).foldl
        (fun p vm => (((p <<< 8) ||| vm.1) ||| (vm.2 <<< HALF_WORD_BITS)))
        (X + Y * 2 ^ 32)
      = (X * 256 ^ vs.length + beVal vs) + (Y * 256 ^ ms.length + beVal ms) * 2 ^ 32 := by
  induction vs generalizing ms X Y j with
  | nil =>
    match ms, hlen with
    | [], _ => simp [beVal]
  | cons v vtl ih =>
    match ms, hlen with
    | m :: mtl, hlen =>
      have hv : v < 256 := hvb v (by simp)
      have hm : m < 256 := hmb m (by simp)
      have hvtl : allBytes vtl := fun x hx => hvb x (by simp [hx])
      have hmtl : allBytes mtl := fun x hx => hmb x (by simp [hx])
      have hlen' : vtl.length = mtl.length := by simpa using hlen
      simp only [List.zip_cons_cons, List.foldl_cons]
      have hXb : X * 256 + v < 2 ^ (8 * (j + 1)) := by
        have h1 : X * 256 + v < (X + 1) * 256 := by omega
        have h2 : (X + 1) * 256 ≤ 2 ^ (8 * j) * 256 := Nat.mul_le_mul_right _ (by omega)
        have h3 : (2 : Nat) ^ (8 * (j + 1)) = 2 ^ (8 * j) * 256 := by
          rw [show 8 * (j + 1) = 8 * j + 8 by ring, pow_add]
          norm_num
        omega
      have hYb : Y * 256 + m < 2 ^ (8 * (j + 1)) := by
        have h1 : Y * 256 + m < (Y + 1) * 256 := by omega
        have h2 : (Y + 1) * 256 ≤ 2 ^ (8 * j) * 256 := Nat.mul_le_mul_right _ (by omega)
        have h3 : (2 : Nat) ^ (8 * (j + 1)) = 2 ^ (8 * j) * 256 := by
          rw [show 8 * (j + 1) = 8 * j + 8 by ring, pow_add]
          norm_num
        omega
      have hj' : j + (vtl.length + 1) ≤ 4 := by simpa using hj
      have hX32 : X * 256 + v < 2 ^ 32 := by
        have h32 : (2 : Nat) ^ (8 * (j + 1)) ≤ 2 ^ 32 :=
          Nat.pow_le_pow_right (by norm_num) (by omega)
        omega
      have hstep : (((X + Y * 2 ^ 32) <<< 8) ||| v) ||| (m <<< HALF_WORD_BITS)
          = (X * 256 + v) + (Y * 256 + m) * 2 ^ 32 := by
        have h1 : ((X + Y * 2 ^ 32) <<< 8) ||| v = (X + Y * 2 ^ 32) * 256 + v :=
          beVal_step _ v hv
        rw [h1, HALF_WORD_BITS_eq]
        have h2 : (X + Y * 2 ^ 32) * 256 + v = (Y * 256) * 2 ^ 32 + (X * 256 + v) := by ring
        have h3 : (Y * 256) * 2 ^ 32 + (X * 256 + v) = ((Y * 256) <<< 32) ||| (X * 256 + v) :=
          (shiftLeft_or_eq_add (Y * 256) (X * 256 + v) 32 hX32).symm
        rw [h2, h3, Nat.lor_assoc, Nat.lor_comm (X * 256 + v) (m <<< 32), ← Nat.lor_assoc]
        have h4 : ((Y * 256) <<< 32) ||| (m <<< 32) = (Y * 256 + m) <<< 32 := by
          rw [← shiftLeft_lor_distrib]
          congr 1
          calc (Y * 256) ||| m = (Y <<< 8) ||| m := by norm_num [Nat.shiftLeft_eq]
            _ = Y * 256 + m := beVal_step Y m hm
        rw [h4, shiftLeft_or_eq_add _ _ 32 hX32]
        ring
      rw [hstep, ih mtl (X * 256 + v) (Y * 256 + m) (j + 1) hlen' (by omega)
        hXb hYb hvtl hmtl]
      rw [beVal_cons v vtl hv hvtl, beVal_cons m mtl hm hmtl, hlen']
      simp only [List.length_cons]
      have h5 : (256 : Nat) ^ (vtl.length + 1) = 256 ^ vtl.length * 256 := by ring
      have h6 : (256 : Nat) ^ (mtl.length + 1) = 256 ^ mtl.length * 256 := by ring
      rw [h5, hlen']
      ring

theorem fourStateFold_eq (vs ms : List Nat) (hlen : vs.length = ms.length)
    (hl4 : vs.length ≤ 4) (hvb : allBytes vs) (hmb : allBytes ms) :
    fourStateFold vs ms = beVal vs + beVal ms * 2 ^ 32 := by
  unfold fourStateFold
  have h := fourStateFold_go vs ms 0 0 0 hlen (by omega) (by norm_num) (by norm_num) hvb hmb
  simpa using h

theorem beBytes_add_mul_two_pow (k A B e : Nat) (h : 8 * k ≤ e) :
    beBytes k (A + B * 2 ^ e) = beBytes k A := by
  rw [← beBytes_mod k (A + B * 2 ^ e), ← beBytes_mod k A]
  congr 1
  have h256 : (256 : Nat) ^ k = 2 ^ (8 * k) := by
    rw [pow_mul]
    norm_num
  have hdvd : (256 : Nat) ^ k ∣ 2 ^ e := by
    rw [h256]
    exact pow_dvd_pow 2 h
  rcases hdvd with ⟨c, hc⟩
  rw [hc]
  have : A + B * (256 ^ k * c) = A + 256 ^ k * (B * c) := by ring
  rw [this, Nat.add_mul_mod_self_left]

theorem shiftRight_32_add (X Y : Nat) (h : X < 2 ^ 32) :
    (X + Y * 2 ^ 32) >>> 32 = Y := by
  rw [Nat.shiftRight_eq_div_pow]
  omega

theorem from_be2_inline (w : Nat) (value : List Nat) (h64 : w ≤ 64) :
    BitVector.from_be_bytes_two_state w value = ⟨w, .word (beVal value)⟩ := by
  simp only [BitVector.from_be_bytes_two_state]
  rw [new_two_state_inline w h64]
  have hp := (size_fields_plain w (lt_of_le_of_lt h64 (by norm_num)) (.word 0)).2.2
  simp [hp]
  rfl

theorem from_be2_heap (w : Nat) (value : List Nat) (h64 : 64 < w) (hcap : w < 2 ^ 62) :
    BitVector.from_be_bytes_two_state w value
      = ⟨w ||| POINTER_TAG, .ptr (clone_be_bytes_to_usizes (value.length + 1) value)⟩ := by
  simp only [BitVector.from_be_bytes_two_state]
  rw [new_two_state_heap w h64]
  have hsz := or_tags_P w hcap
  have hp : (BitVector.mk (w ||| POINTER_TAG) (.ptr (List.replicate ((w - 1) / 64 + 1) 0))).is_pointer = true := by
    show ((w ||| POINTER_TAG) &&& POINTER_TAG != 0) = true
    rw [hsz, size_pointer 2 w hcap]
    decide
  simp only [hp]
  simp

theorem from_be4_inline (w : Nat) (value mask : List Nat) (h64 : w * 2 ≤ 64)
    (hcap : w < 2 ^ 62) :
    BitVector.from_be_bytes_four_state w value mask
      = ⟨w ||| FOUR_STATE_TAG, .word (fourStateFold value mask)⟩ := by
  simp only [BitVector.from_be_bytes_four_state]
  rw [new_four_state_inline w h64]
  have hsz := or_tags_F w hcap
  have hp : (BitVector.mk (w ||| FOUR_STATE_TAG) (BVPayload.word 0)).is_pointer = false := by
    show ((w ||| FOUR_STATE_TAG) &&& POINTER_TAG != 0) = false
    rw [hsz, size_pointer 1 w hcap]
    decide
  simp only [hp]
  simp

theorem from_be4_heap (w : Nat) (value mask : List Nat) (h64 : 64 < w * 2)
    (hcap : w < 2 ^ 62) :
    BitVector.from_be_bytes_four_state w value mask
      = ⟨w ||| POINTER_TAG ||| FOUR_STATE_TAG,
         .ptr (clone_be_bytes_to_usizes (value.length + 1) value
           ++ clone_be_bytes_to_usizes (mask.length + 1) mask)⟩ := by
  simp only [BitVector.from_be_bytes_four_state]
  rw [new_four_state_heap w h64]
  have hsz := or_tags_PF w hcap
  have hp : (BitVector.mk (w ||| POINTER_TAG ||| FOUR_STATE_TAG)
      (.ptr (List.replicate (((w - 1) / 64 + 1) * 2) 0))).is_pointer = true := by
    show ((w ||| POINTER_TAG ||| FOUR_STATE_TAG) &&& POINTER_TAG != 0) = true
    rw [hsz, size_pointer 3 w hcap]
    decide
  simp only [hp]
  simp

theorem to_be2_inline (w p : Nat) (hcap : w < 2 ^ 62) :
    (BitVector.mk w (.word p)).to_be_bytes_two_state = beBytes ((w - 1) / 8 + 1) p := by
  have hf := size_fields_plain w hcap (.word p)
  simp only [BitVector.to_be_bytes_two_state]
  rw [hf.1]
  simp [hf.2.2]
  rfl

theorem to_be2_heap (w : Nat) (ws : List Nat) (hcap : w < 2 ^ 62) :
    (BitVector.mk (w ||| POINTER_TAG) (.ptr ws)).to_be_bytes_two_state
      = clone_usizes_to_be_bytes ((w - 1) / 8 + 1 + 1) ws ((w - 1) / 8 + 1) := by
  have hsz := or_tags_P w hcap
  have hw' : (BitVector.mk (w ||| POINTER_TAG) (.ptr ws)).get_bit_width = w := by
    show (w ||| POINTER_TAG) &&& (FOUR_STATE_TAG - 1) = w
    rw [hsz]
    exact size_width 2 w hcap
  have hp : (BitVector.mk (w ||| POINTER_TAG) (.ptr ws)).is_pointer = true := by
    show ((w ||| POINTER_TAG) &&& POINTER_TAG != 0) = true
    rw [hsz, size_pointer 2 w hcap]
    decide
  simp only [BitVector.to_be_bytes_two_state, hw', hp]
  simp [BVPayload.ptrWords]

theorem to_be4_inline (w p : Nat) (hcap : w < 2 ^ 62) :
    (BitVector.mk (w ||| FOUR_STATE_TAG) (.word p)).to_be_bytes_four_state
      = fourStateUnfold ((w - 1) / 8 + 1) p := by
  have hsz := or_tags_F w hcap
  have hw' : (BitVector.mk (w ||| FOUR_STATE_TAG) (.word p)).get_bit_width = w := by
    show (w ||| FOUR_STATE_TAG) &&& (FOUR_STATE_TAG - 1) = w
    rw [hsz]
    exact size_width 1 w hcap
  have h4s : (BitVector.mk (w ||| FOUR_STATE_TAG) (.word p)).is_four_state = true := by
    show ((w ||| FOUR_STATE_TAG) &&& FOUR_STATE_TAG != 0) = true
    rw [hsz, size_four_state 1 w hcap]
    decide
  have hp : (BitVector.mk (w ||| FOUR_STATE_TAG) (.word p)).is_pointer = false := by
    show ((w ||| FOUR_STATE_TAG) &&& POINTER_TAG != 0) = false
    rw [hsz, size_pointer 1 w hcap]
    decide
  simp only [BitVector.to_be_bytes_four_state, hw', h4s, hp]
  simp [BVPayload.asWord]

theorem to_be4_heap (w : Nat) (ws : List Nat) (hcap : w < 2 ^ 62) :
    (BitVector.mk (w ||| POINTER_TAG ||| FOUR_STATE_TAG) (.ptr ws)).to_be_bytes_four_state
      = (clone_usizes_to_be_bytes ((w - 1) / 8 + 1 + 1) ws ((w - 1) / 8 + 1),
         clone_usizes_to_be_bytes ((w - 1) / 8 + 1 + 1) (ws.drop ((w - 1) / 64 + 1))
           ((w - 1) / 8 + 1)) := by
  have hsz := or_tags_PF w hcap
  have hw' : (BitVector.mk (w ||| POINTER_TAG ||| FOUR_STATE_TAG) (.ptr ws)).get_bit_width
      = w := by
    show (w ||| POINTER_TAG ||| FOUR_STATE_TAG) &&& (FOUR_STATE_TAG - 1) = w
    rw [hsz]
    exact size_width 3 w hcap
  have h4s : (BitVector.mk (w ||| POINTER_TAG ||| FOUR_STATE_TAG) (.ptr ws)).is_four_state
      = true := by
    show ((w ||| POINTER_TAG ||| FOUR_STATE_TAG) &&& FOUR_STATE_TAG != 0) = true
    rw [hsz, size_four_state 3 w hcap]
    decide
  have hp : (BitVector.mk (w ||| POINTER_TAG ||| FOUR_STATE_TAG) (.ptr ws)).is_pointer
      = true := by
    show ((w ||| POINTER_TAG ||| FOUR_STATE_TAG) &&& POINTER_TAG != 0) = true
    rw [hsz, size_pointer 3 w hcap]
    decide
  have hvws : (BitVector.mk (w ||| POINTER_TAG ||| FOUR_STATE_TAG) (.ptr ws)).get_vector_words_size
      = (w - 1) / 64 + 1 := by
    unfold BitVector.get_vector_words_size
    rw [hp, hw']
    simp [USIZE_BITS]
  simp only [BitVector.to_be_bytes_four_state, hw', h4s, hp, hvws]
  simp [BVPayload.ptrWords]

/-- Round trip of the two-state byte codec. -/
theorem be_bytes_round_trip_two_state (w : Nat) (value : List Nat)
    (hw : 1 ≤ w) (hcap : w < 2 ^ 62) (hv : value.length = (w - 1) / 8 + 1)
    (hvb : allBytes value) :
    (BitVector.from_be_bytes_two_state w value).to_be_bytes_two_state = value := by
  by_cases h64 : w ≤ 64
  · rw [from_be2_inline w value h64, to_be2_inline w _ hcap, ← hv, beBytes_beVal value hvb]
  · push_neg at h64
    rw [from_be2_heap w value h64 hcap, to_be2_heap w _ hcap]
    have hwords := clone_be_words_lt (value.length + 1) value hvb
    rw [clone_usizes_eq_beBytes _ _ _ hwords (by omega) (by omega)]
    rw [clone_be_wordsVal (value.length + 1) value hvb (by omega)]
    rw [← hv, beBytes_beVal value hvb]

/-- Round trip of the four-state byte codec. -/
theorem be_bytes_round_trip_four_state (w : Nat) (value mask : List Nat)
    (hw : 1 ≤ w) (hcap : w < 2 ^ 62) (hv : value.length = (w - 1) / 8 + 1)
    (hm : mask.length = (w - 1) / 8 + 1) (hvb : allBytes value) (hmb : allBytes mask) :
    (BitVector.from_be_bytes_four_state w value mask).to_be_bytes_four_state
      = (value, mask) := by
  by_cases h64 : w * 2 ≤ 64
  · rw [from_be4_inline w value mask h64 hcap, to_be4_inline w _ hcap]
    rw [fourStateFold_eq value mask (by omega) (by omega) hvb hmb]
    rw [fourStateUnfold_eq]
    have hlt : beVal value < 2 ^ 32 := by
      have h1 := beVal_lt value hvb
      have h2 : (256 : Nat) ^ value.length ≤ 2 ^ 32 := by
        have h3 : value.length ≤ 4 := by omega
        calc (256 : Nat) ^ value.length ≤ 256 ^ 4 := Nat.pow_le_pow_right (by norm_num) h3
          _ = 2 ^ 32 := by norm_num
      omega
    rw [Prod.mk.injEq]
    constructor
    · show beBytes ((w - 1) / 8 + 1) (beVal value + beVal mask * 2 ^ 32) = value
      rw [beBytes_add_mul_two_pow _ _ _ _ (by omega), ← hv, beBytes_beVal value hvb]
    · show beBytes ((w - 1) / 8 + 1) ((beVal value + beVal mask * 2 ^ 32) >>> HALF_WORD_BITS)
        = mask
      rw [HALF_WORD_BITS_eq, shiftRight_32_add _ _ hlt, ← hm, beBytes_beVal mask hmb]
  · push_neg at h64
    rw [from_be4_heap w value mask h64 hcap, to_be4_heap w _ hcap]
    have hvwords := clone_be_words_lt (value.length + 1) value hvb
    have hmwords := clone_be_words_lt (mask.length + 1) mask hmb
    have hallw : ∀ x ∈ clone_be_bytes_to_usizes (value.length + 1) value
        ++ clone_be_bytes_to_usizes (mask.length + 1) mask, x < 2 ^ 64 := by
      intro x hx
      rcases List.mem_append.mp hx with hx | hx
      · exact hvwords x hx
      · exact hmwords x hx
    have hvlen : (clone_be_bytes_to_usizes (value.length + 1) value).length
        = (w - 1) / 64 + 1 := by
      rw [clone_be_length (value.length + 1) value (by omega) (by omega), hv]
      have : ((w - 1) / 8 + 1 - 1) / 8 = (w - 1) / 64 := by
        rw [Nat.add_sub_cancel, Nat.div_div_eq_div_mul]
      rw [this]
    have hdrop : (clone_be_bytes_to_usizes (value.length + 1) value
        ++ clone_be_bytes_to_usizes (mask.length + 1) mask).drop ((w - 1) / 64 + 1)
        = clone_be_bytes_to_usizes (mask.length + 1) mask := by
      rw [← hvlen, List.drop_left]
    rw [Prod.mk.injEq]
    constructor
    · show clone_usizes_to_be_bytes _ _ _ = value
      rw [clone_usizes_eq_beBytes _ _ _ hallw (by omega) (by omega)]
      rw [wordsVal_append, hvlen]
      rw [beBytes_add_mul_two_pow _ _ _ _ (by omega)]
      rw [clone_be_wordsVal (value.length + 1) value hvb (by omega)]
      rw [← hv, beBytes_beVal value hvb]
    · show clone_usizes_to_be_bytes _ _ _ = mask
      rw [hdrop]
      rw [clone_usizes_eq_beBytes _ _ _ hmwords (by omega) (by omega)]
      rw [clone_be_wordsVal (mask.length + 1) mask hmb (by omega)]
      rw [← hm, beBytes_beVal mask hmb]

/-- C5: for every width w of at least 1 that fits the size-word tag and
every byte slice (pair of slices in the four-state flavor) of length
equal to the byte width of w, from_be_bytes followed by to_be_bytes
reproduces exactly the input bytes, in both the inline and the heap
storage regimes. -/
theorem c5_be_bytes_round_trip (w : Nat) (value mask : List Nat)
    (hw : 1 ≤ w) (hcap : w < 2 ^ 62)
    (hv : value.length = (w - 1) / 8 + 1) (hm : mask.length = (w - 1) / 8 + 1)
    (hvb : allBytes value) (hmb : allBytes mask) :
    (BitVector.from_be_bytes_two_state w value).to_be_bytes_two_state = value
    ∧ (BitVector.from_be_bytes_four_state w value mask).to_be_bytes_four_state
      = (value, mask) :=
  ⟨be_bytes_round_trip_two_state w value hw hcap hv hvb,
   be_bytes_round_trip_four_state w value mask hw hcap hv hm hvb hmb⟩

/-- C5 witness: a concrete inline two-state round trip at width 3 and a
concrete heap four-state round trip at width 65. -/
theorem c5_be_bytes_round_trip_witness :
    (BitVector.from_be_bytes_two_state 3 [0x05]).to_be_bytes_two_state = [0x05]
    ∧ (BitVector.from_be_bytes_four_state 65
        [1, 0, 0, 0, 0, 0, 0, 0, 0xAB] [0, 1, 2, 3, 4, 5, 6, 7, 8]).to_be_bytes_four_state
      = ([1, 0, 0, 0, 0, 0, 0, 0, 0xAB], [0, 1, 2, 3, 4, 5, 6, 7, 8]) := by
  constructor
  · exact (c5_be_bytes_round_trip 3 [0x05] [0x07] (by decide) (by decide) (by decide)
      (by decide) (by intro b hb; simp at hb; omega)
      (by intro b hb; simp at hb; omega)).1
  · exact (c5_be_bytes_round_trip 65 [1, 0, 0, 0, 0, 0, 0, 0, 0xAB]
      [0, 1, 2, 3, 4, 5, 6, 7, 8] (by decide) (by decide) (by decide)
      (by decide) (by intro b hb; simp at hb; omega)
      (by intro b hb; simp at hb; omega)).2

/-! Fuel congruence for the block iterator loops. -/

theorem next_index_go_congr (blk : List Nat) :
    ∀ f1 f2 (i : WaveformHistoryIndex) (o c : Nat),
      BLOCK_SIZE < f1 + o → BLOCK_SIZE < f2 + o →
      next_index_go blk f1 i o c = next_index_go blk f2 i o c := by
  intro f1
  induction f1 with
  | zero =>
    intro f2 i o c h1 h2
    have ho : BLOCK_SIZE < o := by omega
    cases f2 with
    | zero => rfl
    | succ f2 =>
      show none = next_index_go blk (f2 + 1) i o c
      simp only [next_index_go]
      rw [if_pos (by omega)]
  | succ f1 ih =>
    intro f2 i o c h1 h2
    cases f2 with
    | zero =>
      have ho : BLOCK_SIZE < o := by omega
      show next_index_go blk (f1 + 1) i o c = none
      simp only [next_index_go]
      rw [if_pos (by omega)]
    | succ f2 =>
      simp only [next_index_go]
      by_cases hoff : o + (get_skips blk o).1 ≥ BLOCK_SIZE
      · rw [if_pos hoff, if_pos hoff]
      · rw [if_neg hoff, if_neg hoff]
        by_cases hc : c < (blk.getD (o + (get_skips blk o).1) 0 &&& 0x7F) + 1
        · rw [if_pos hc, if_pos hc]
        · rw [if_neg hc, if_neg hc]
          exact ih f2 _ _ _ (by omega) (by omega)

theorem next_index_go_some_facts (blk : List Nat) :
    ∀ f (i : WaveformHistoryIndex) (o c : Nat) r s',
      next_index_go blk f i o c = some (r, s') →
      1 ≤ s'.consumed_changes ∧ s'.consumed_changes ≤ 128 ∧ s'.offset < BLOCK_SIZE ∧
      (o < s'.offset ∨ (s'.offset = o ∧ c < 128 ∧ s'.consumed_changes = c + 1)) := by
  intro f
  induction f with
  | zero => intro i o c r s' h; simp [next_index_go] at h
  | succ f ih =>
    intro i o c r s' h
    simp only [next_index_go] at h
    by_cases hoff : o + (get_skips blk o).1 ≥ BLOCK_SIZE
    · rw [if_pos hoff] at h
      exact absurd h (by simp)
    · rw [if_neg hoff] at h
      by_cases hc : c < (blk.getD (o + (get_skips blk o).1) 0 &&& 0x7F) + 1
      · rw [if_pos hc] at h
        have htot : (blk.getD (o + (get_skips blk o).1) 0 &&& 0x7F) + 1 ≤ 128 := by
          have hand : blk.getD (o + (get_skips blk o).1) 0 &&& 0x7F ≤ 0x7F :=
            Nat.and_le_right
          omega
        simp only [Option.some.injEq, Prod.mk.injEq] at h
        rcases h with ⟨hr, hs⟩
        subst hs
        refine ⟨by simp, by simp; omega, by simpa using (by omega : o + (get_skips blk o).1 < BLOCK_SIZE), ?_⟩
        by_cases hsk : (get_skips blk o).1 = 0
        · right
          refine ⟨by simp [hsk], by omega, by simp⟩
        · left
          simp
          omega
      · rw [if_neg hc] at h
        have := ih _ _ _ _ _ h
        refine ⟨this.1, this.2.1, this.2.2.1, ?_⟩
        left
        rcases this.2.2.2 with hlt | ⟨heq, _, _⟩
        · omega
        · omega

theorem next_index_some_facts (blk : List Nat) (s : BlockIterState)
    (r : WaveformHistoryIndex) (s' : BlockIterState)
    (h : next_index blk s = some (r, s')) :
    1 ≤ s'.consumed_changes ∧ s'.consumed_changes ≤ 128 ∧ s'.offset < BLOCK_SIZE ∧
    iter_measure s' < iter_measure s := by
  have hf := next_index_go_some_facts blk (BLOCK_SIZE + 1) s.index s.offset
    s.consumed_changes r s' h
  refine ⟨hf.1, hf.2.1, hf.2.2.1, ?_⟩
  unfold iter_measure
  rcases hf.2.2.2 with hlt | ⟨heq, hclt, hcs⟩
  · have h1 : (BLOCK_SIZE - s'.offset) * 129 + (129 - s'.consumed_changes)
        ≤ (BLOCK_SIZE - s'.offset) * 129 + 128 := by omega
    have h2 : (BLOCK_SIZE - s'.offset) * 129 ≤ (BLOCK_SIZE - s.offset) * 129 - 129 := by
      have h3 : BLOCK_SIZE - s'.offset + 1 ≤ BLOCK_SIZE - s.offset := by omega
      have h4 : (BLOCK_SIZE - s'.offset + 1) * 129 ≤ (BLOCK_SIZE - s.offset) * 129 :=
        Nat.mul_le_mul_right _ h3
      omega
    have h5 : 129 ≤ (BLOCK_SIZE - s.offset) * 129 := by
      have h6 : 1 ≤ BLOCK_SIZE - s.offset := by omega
      have h7 : 1 * 129 ≤ (BLOCK_SIZE - s.offset) * 129 := Nat.mul_le_mul_right _ h6
      omega
    omega
  · rw [heq, hcs]
    omega

theorem block_iter_go_congr (blk : List Nat) :
    ∀ n f1 f2 (s : BlockIterState), iter_measure s ≤ n →
      iter_measure s ≤ f1 → iter_measure s ≤ f2 →
      block_iter_go blk f1 s = block_iter_go blk f2 s := by
  intro n
  induction n with
  | zero =>
    intro f1 f2 s hn h1 h2
    have hoff : BLOCK_SIZE ≤ s.offset := by
      unfold iter_measure at hn
      by_contra hlt
      have : 1 ≤ BLOCK_SIZE - s.offset := by omega
      have := Nat.mul_le_mul_right 129 this
      omega
    have hnone : next_index blk s = none := by
      unfold next_index next_index_go
      rw [if_pos (by omega)]
    cases f1 with
    | zero =>
      cases f2 with
      | zero => rfl
      | succ f2 =>
        show ([] : List WaveformHistoryIndex) = block_iter_go blk (f2 + 1) s
        simp [block_iter_go, hnone]
    | succ f1 =>
      cases f2 with
      | zero =>
        show block_iter_go blk (f1 + 1) s = []
        simp [block_iter_go, hnone]
      | succ f2 =>
        simp [block_iter_go, hnone]
  | succ n ih =>
    intro f1 f2 s hn h1 h2
    cases hni : next_index blk s with
    | none =>
      cases f1 with
      | zero =>
        cases f2 with
        | zero => rfl
        | succ f2 => simp [block_iter_go, hni]
      | succ f1 =>
        cases f2 with
        | zero => simp [block_iter_go, hni]
        | succ f2 => simp [block_iter_go, hni]
    | some p =>
      have hm := (next_index_some_facts blk s p.1 p.2 (by rw [hni])).2.2.2
      have hmu : 1 ≤ iter_measure s := by omega
      cases f1 with
      | zero => omega
      | succ f1 =>
        cases f2 with
        | zero => omega
        | succ f2 =>
          simp only [block_iter_go, hni]
          rw [ih f1 f2 p.2 (by omega) (by omega) (by omega)]

theorem iter_measure_le_fuel (s : BlockIterState) : iter_measure s ≤ BLOCK_FUEL := by
  unfold iter_measure BLOCK_FUEL
  have h1 : BLOCK_SIZE - s.offset ≤ BLOCK_SIZE := by omega
  have h2 : (BLOCK_SIZE - s.offset) * 129 ≤ BLOCK_SIZE * 129 := Nat.mul_le_mul_right _ h1
  have h3 : 129 - s.consumed_changes ≤ 129 := by omega
  have h4 : (BLOCK_SIZE + 1) * 129 = BLOCK_SIZE * 129 + 129 := by ring
  omega

theorem block_iter_list_unfold (blk : List Nat) (s : BlockIterState) :
    block_iter_list blk s
      = match next_index blk s with
        | none => []
        | some p => p.1 :: block_iter_list blk p.2 := by
  have hstep : ∀ f s2, block_iter_go blk (f + 1) s2
      = match next_index blk s2 with
        | none => []
        | some p => p.1 :: block_iter_go blk f p.2 := fun f s2 => rfl
  have h1 : BLOCK_FUEL = (BLOCK_FUEL - 1) + 1 := by decide
  show block_iter_go blk BLOCK_FUEL s = _
  rw [h1, hstep]
  cases hni : next_index blk s with
  | none => rfl
  | some p =>
    have hm := (next_index_some_facts blk s p.1 p.2 (by rw [hni])).2.2.2
    dsimp only
    have hco : block_iter_go blk (BLOCK_FUEL - 1) p.2 = block_iter_go blk BLOCK_FUEL p.2 :=
      block_iter_go_congr blk (iter_measure p.2) (BLOCK_FUEL - 1) BLOCK_FUEL p.2 (le_refl _)
        (by have := iter_measure_le_fuel s; omega) (iter_measure_le_fuel p.2)
    rw [hco]
    rfl

theorem seek_index_go_congr (blk : List Nat) (t : Nat) :
    ∀ n f1 f2 (s : BlockIterState) last, iter_measure s ≤ n →
      iter_measure s ≤ f1 → iter_measure s ≤ f2 →
      seek_index_go blk t f1 s last = seek_index_go blk t f2 s last := by
  intro n
  induction n with
  | zero =>
    intro f1 f2 s last hn h1 h2
    have hoff : BLOCK_SIZE ≤ s.offset := by
      unfold iter_measure at hn
      by_contra hlt
      have : 1 ≤ BLOCK_SIZE - s.offset := by omega
      have := Nat.mul_le_mul_right 129 this
      omega
    have hnone : next_index blk s = none := by
      unfold next_index next_index_go
      rw [if_pos (by omega)]
    cases f1 with
    | zero =>
      cases f2 with
      | zero => rfl
      | succ f2 => simp [seek_index_go, hnone]
    | succ f1 =>
      cases f2 with
      | zero => simp [seek_index_go, hnone]
      | succ f2 => simp [seek_index_go, hnone]
  | succ n ih =>
    intro f1 f2 s last hn h1 h2
    cases hni : next_index blk s with
    | none =>
      cases f1 with
      | zero =>
        cases f2 with
        | zero => rfl
        | succ f2 => simp [seek_index_go, hni]
      | succ f1 =>
        cases f2 with
        | zero => simp [seek_index_go, hni]
        | succ f2 => simp [seek_index_go, hni]
    | some p =>
      have hm := (next_index_some_facts blk s p.1 p.2 (by rw [hni])).2.2.2
      have hmu : 1 ≤ iter_measure s := by omega
      cases f1 with
      | zero => omega
      | succ f1 =>
        cases f2 with
        | zero => omega
        | succ f2 =>
          simp only [seek_index_go, hni]
          by_cases hgt : p.1.timestamp_index > t
          · rw [if_pos hgt, if_pos hgt]
          · rw [if_neg hgt, if_neg hgt]
            by_cases heq : p.1.timestamp_index = t
            · rw [if_pos heq, if_pos heq]
            · rw [if_neg heq, if_neg heq]
              rw [ih f1 f2 p.2 (some p.1) (by omega) (by omega) (by omega)]

theorem seek_index_go_unfold (blk : List Nat) (t : Nat) (s : BlockIterState)
    (last : Option WaveformHistoryIndex) :
    seek_index_go blk t BLOCK_FUEL s last
      = match next_index blk s with
        | none => (last, s)
        | some p =>
          if p.1.timestamp_index > t then (last, s)
          else if p.1.timestamp_index = t then (some p.1, p.2)
          else seek_index_go blk t BLOCK_FUEL p.2 (some p.1) := by
  have hstep : ∀ f s2 last2, seek_index_go blk t (f + 1) s2 last2
      = match next_index blk s2 with
        | none => (last2, s2)
        | some p =>
          if p.1.timestamp_index > t then (last2, s2)
          else if p.1.timestamp_index = t then (some p.1, p.2)
          else seek_index_go blk t f p.2 (some p.1) := fun f s2 last2 => rfl
  have h1 : BLOCK_FUEL = (BLOCK_FUEL - 1) + 1 := by decide
  conv_lhs => rw [h1]
  rw [hstep]
  cases hni : next_index blk s with
  | none => rfl
  | some p =>
    have hm := (next_index_some_facts blk s p.1 p.2 (by rw [hni])).2.2.2
    dsimp only
    by_cases hgt : p.1.timestamp_index > t
    · rw [if_pos hgt, if_pos hgt]
    · rw [if_neg hgt, if_neg hgt]
      by_cases heq : p.1.timestamp_index = t
      · rw [if_pos heq, if_pos heq]
      · rw [if_neg heq, if_neg heq]
        exact seek_index_go_congr blk t (iter_measure p.2) (BLOCK_FUEL - 1) BLOCK_FUEL p.2
          (some p.1) (le_refl _)
          (by have := iter_measure_le_fuel s; omega) (iter_measure_le_fuel p.2)

/-! Facts about the skip-byte scan. -/

theorem and_0x80_of_ge (b : Nat) (h1 : 128 ≤ b) (h2 : b < 256) : b &&& 0x80 = 0x80 := by
  have h3 : b &&& 2 ^ 7 = (b.testBit 7).toNat * 2 ^ 7 := Nat.and_two_pow b 7
  have h4 : b.testBit 7 = true := by
    have h5 : b = 1 * 2 ^ 7 + (b - 128) := by omega
    rw [h5, Nat.mul_comm, Nat.testBit_mul_pow_two_add 1 (by omega) 7]
    simp
  rw [h4] at h3
  simpa using h3

theorem and_0x80_of_lt (b : Nat) (h : b < 128) : b &&& 0x80 = 0 := by
  have h3 : b &&& 2 ^ 7 = (b.testBit 7).toNat * 2 ^ 7 := Nat.and_two_pow b 7
  have h4 : b.testBit 7 = false := Nat.testBit_lt_two_pow h
  rw [h4] at h3
  simpa using h3

theorem and_0x7f_eq_mod (b : Nat) : b &&& 0x7F = b % 128 := by
  have h := Nat.and_pow_two_sub_one_eq_mod b 7
  norm_num at h
  simpa using h

theorem d7_step (a d : Nat) (hd : d < 128) : (a <<< 7) ||| d = a * 128 + d := by
  have h := shiftLeft_or_eq_add a d 7 (by omega)
  norm_num at h
  simpa using h

theorem skip_digits_length (k s : Nat) : (skip_digits k s).length = k := by
  induction k generalizing s with
  | zero => simp [skip_digits]
  | succ k ih => simp [skip_digits, ih]

theorem skip_digits_lt (k s : Nat) : ∀ d ∈ skip_digits k s, d < 128 := by
  induction k generalizing s with
  | zero => intro d hd; simp [skip_digits] at hd
  | succ k ih =>
    intro d hd
    simp only [skip_digits, List.mem_append, List.mem_singleton] at hd
    rcases hd with hd | hd
    · exact ih _ d hd
    · rw [hd, and_0x7f_eq_mod]
      exact Nat.mod_lt _ (by norm_num)

theorem skip_digits_fold (k s pend : Nat) :
    (skip_digits k s).foldl (fun a d => (a <<< 7) ||| d) pend
      = pend * 128 ^ k + s % 128 ^ k := by
  induction k generalizing s pend with
  | zero => simp [skip_digits, Nat.mod_one]
  | succ k ih =>
    simp only [skip_digits, List.foldl_append, List.foldl_cons, List.foldl_nil]
    rw [ih (s >>> 7) pend]
    rw [d7_step _ _ (by rw [and_0x7f_eq_mod]; exact Nat.mod_lt _ (by norm_num))]
    rw [and_0x7f_eq_mod]
    have h7 : s >>> 7 = s / 128 := by
      have h := Nat.shiftRight_eq_div_pow s 7
      norm_num at h
      simpa using h
    rw [h7]
    have h2 : (128 : Nat) ^ (k + 1) = 128 * 128 ^ k := by ring
    rw [h2, Nat.mod_mul]
    ring

/-- The skip-byte scan over base-128 digits followed by either the block
end or a change byte: at most 8 digits are consumed and their base-128
value accumulates onto the pending partial sum, the single possible
flush happening exactly at the eighth byte. -/
theorem get_skips_go_digits (ds : List Nat) :
    ∀ (rest : List Nat) (j skips pend : Nat), (∀ d ∈ ds, d < 128) → j + ds.length ≤ 8 →
      (rest = [] ∨ ∃ b tl, rest = b :: tl ∧ 128 ≤ b ∧ b < 256) →
      get_skips_go (ds ++ rest) j skips pend
        = (j + ds.length, skips + ds.foldl (fun a d => (a <<< 7) ||| d) pend) := by
  induction ds with
  | nil =>
    intro rest j skips pend _ _ hrest
    rcases hrest with hrest | ⟨b, tl, hrest, hb1, hb2⟩
    · subst hrest
      simp [get_skips_go]
    · subst hrest
      simp only [List.nil_append, get_skips_go]
      rw [if_pos (by rw [and_0x80_of_ge b hb1 hb2]; decide)]
      simp
  | cons d ds ih =>
    intro rest j skips pend hlt hj hrest
    have hd : d < 128 := hlt d (by simp)
    have hds : ∀ x ∈ ds, x < 128 := fun x hx => hlt x (by simp [hx])
    simp only [List.cons_append, get_skips_go]
    rw [if_neg (by rw [and_0x80_of_lt d hd]; simp)]
    by_cases hf : (j + 1) &&& 0b111 == 0
    · have hj8 : j + 1 = 8 := by
        have h1 : (j + 1) &&& 0b111 = (j + 1) % 8 := by
          have h := Nat.and_pow_two_sub_one_eq_mod (j + 1) 3
          norm_num at h
          simpa using h
        simp only [beq_iff_eq] at hf
        omega
      have hds0 : ds = [] := by
        have := List.length_eq_zero.mp (show ds.length = 0 by simp at hj; omega)
        exact this
      subst hds0
      rw [if_pos hf]
      rcases hrest with hrest | ⟨b, tl, hrest, hb1, hb2⟩
      · subst hrest
        simp [get_skips_go]
      · subst hrest
        simp only [List.nil_append, get_skips_go]
        rw [if_pos (by rw [and_0x80_of_ge b hb1 hb2]; decide)]
        simp
    · rw [if_neg hf]
      simp only [List.append_eq]
      rw [ih rest (j + 1) skips ((pend <<< 7) ||| d) hds (by simp at hj ⊢; omega) hrest]
      simp only [List.length_cons, List.foldl_cons, Prod.mk.injEq]
      exact ⟨by omega, trivial⟩

/-- The skip-byte scan over trailing zero bytes with no pending partial
sum accumulates nothing. -/
theorem get_skips_go_zeros (n : Nat) : ∀ (j skips : Nat),
    get_skips_go (List.replicate n 0) j skips 0 = (j + n, skips) := by
  induction n with
  | zero => intro j skips; simp [get_skips_go]
  | succ n ih =>
    intro j skips
    simp only [List.replicate_succ, get_skips_go]
    rw [if_neg (by decide)]
    have hz : ((0 : Nat) <<< 7) ||| 0 = 0 := by decide
    by_cases hf : (j + 1) &&& 0b111 == 0
    · rw [if_pos hf, hz]
      rw [ih (j + 1) (skips + 0)]
      simp only [Prod.mk.injEq]
      exact ⟨by omega, by omega⟩
    · rw [if_neg hf, hz]
      rw [ih (j + 1) skips]
      simp only [Prod.mk.injEq]
      exact ⟨by omega, trivial⟩

/-! Correctness of bit_length and the skip encoding. -/

theorem bit_length_go_zero (f : Nat) : bit_length_go f 0 = 0 := by
  cases f with
  | zero => rfl
  | succ f => simp [bit_length_go]

theorem bit_length_go_bounds (f : Nat) : ∀ n, n < 2 ^ f →
    n < 2 ^ bit_length_go f n ∧ (1 ≤ n → 2 ^ (bit_length_go f n - 1) ≤ n) := by
  induction f with
  | zero =>
    intro n hn
    have h0 : n = 0 := by simpa using hn
    subst h0
    simp [bit_length_go_zero]
  | succ f ih =>
    intro n hn
    by_cases h0 : n = 0
    · subst h0; simp [bit_length_go_zero]
    · simp only [bit_length_go, if_neg h0]
      have hdiv : n / 2 < 2 ^ f := by
        rw [pow_succ] at hn
        omega
      obtain ⟨h1, h2⟩ := ih (n / 2) hdiv
      constructor
      · rw [pow_succ]
        omega
      · intro _
        by_cases hd0 : n / 2 = 0
        · have hn1 : n = 1 := by omega
          rw [hd0, bit_length_go_zero]
          omega
        · have hL1 : 1 ≤ bit_length_go f (n / 2) := by
            by_contra hL
            have hL0 : bit_length_go f (n / 2) = 0 := by omega
            rw [hL0] at h1
            simp at h1
            omega
          have h2' := h2 (by omega)
          have hsplit : 2 ^ bit_length_go f (n / 2)
              = 2 * 2 ^ (bit_length_go f (n / 2) - 1) := by
            conv_lhs => rw [show bit_length_go f (n / 2) = (bit_length_go f (n / 2) - 1) + 1 by omega]
            rw [pow_succ]
            ring
          simp only [Nat.add_sub_cancel]
          omega

theorem bit_length_le (n k : Nat) (h1 : 1 ≤ n) (h2 : n < 2 ^ k) (h3 : k ≤ 64) :
    bit_length n ≤ k := by
  obtain ⟨_, hlow⟩ := bit_length_go_bounds 64 n
    (lt_of_lt_of_le h2 (Nat.pow_le_pow_right (by norm_num) h3))
  have hlow' := hlow h1
  have heq : bit_length n = bit_length_go 64 n := rfl
  rw [heq]
  by_contra hges
  have hk : k ≤ bit_length_go 64 n - 1 := by omega
  have hpw : (2 : Nat) ^ k ≤ 2 ^ (bit_length_go 64 n - 1) := Nat.pow_le_pow_right (by norm_num) hk
  omega

theorem bit_length_pos (n : Nat) (h1 : 1 ≤ n) (h2 : n < 2 ^ 64) : 1 ≤ bit_length n := by
  obtain ⟨hup, _⟩ := bit_length_go_bounds 64 n h2
  by_contra h
  have h0 : bit_length n = 0 := by omega
  unfold bit_length at h0
  rw [h0] at hup
  simp at hup
  omega

theorem skip_enc_length_le (s : Nat) (h1 : 1 ≤ s) (h2 : s < 2 ^ 56) :
    (skip_enc s).length ≤ 8 := by
  unfold skip_enc
  rw [skip_digits_length]
  have hbl := bit_length_le s 56 h1 h2 (by norm_num)
  omega

theorem skip_enc_val_lt (s : Nat) (h1 : 1 ≤ s) (h2 : s < 2 ^ 56) :
    s < 128 ^ (skip_enc s).length := by
  unfold skip_enc
  rw [skip_digits_length]
  have hup : s < 2 ^ bit_length s :=
    (bit_length_go_bounds 64 s (lt_trans h2 (by norm_num))).1
  have h7 : (128 : Nat) ^ ((bit_length s - 1) / 7 + 1)
      = 2 ^ (7 * ((bit_length s - 1) / 7 + 1)) := by
    rw [show (128 : Nat) = 2 ^ 7 by norm_num, ← pow_mul]
  rw [h7]
  have hge : bit_length s ≤ 7 * ((bit_length s - 1) / 7 + 1) := by omega
  exact lt_of_lt_of_le hup (Nat.pow_le_pow_right (by norm_num) hge)

theorem skip_enc_fold (s : Nat) (h1 : 1 ≤ s) (h2 : s < 2 ^ 56) :
    (skip_enc s).foldl (fun a d => (a <<< 7) ||| d) 0 = s := by
  have hv := skip_enc_val_lt s h1 h2
  unfold skip_enc at hv ⊢
  rw [skip_digits_fold]
  rw [skip_digits_length] at hv
  rw [Nat.mod_eq_of_lt hv]
  ring

theorem skip_enc_digits_lt (s : Nat) : ∀ d ∈ skip_enc s, d < 128 := by
  unfold skip_enc
  exact skip_digits_lt _ s

/-! Characterizations of get_skips on suffixes of known shape. -/

theorem get_skips_at (blk ds rest : List Nat) (o : Nat)
    (hdrop : blk.drop o = ds ++ rest) (hlt : ∀ d ∈ ds, d < 128) (hle : ds.length ≤ 8)
    (hrest : rest = [] ∨ ∃ b tl, rest = b :: tl ∧ 128 ≤ b ∧ b < 256) :
    get_skips blk o = (ds.length, ds.foldl (fun a d => (a <<< 7) ||| d) 0) := by
  unfold get_skips
  rw [hdrop, get_skips_go_digits ds rest 0 0 0 hlt (by omega) hrest]
  simp

theorem get_skips_stopper (blk : List Nat) (o : Nat) (rest : List Nat)
    (hdrop : blk.drop o = rest)
    (hrest : rest = [] ∨ ∃ b tl, rest = b :: tl ∧ 128 ≤ b ∧ b < 256) :
    get_skips blk o = (0, 0) := by
  have h := get_skips_at blk [] rest o (by simpa using hdrop) (by simp) (by simp) hrest
  simpa using h

theorem get_skips_zeros (blk : List Nat) (o n : Nat)
    (hdrop : blk.drop o = List.replicate n 0) :
    get_skips blk o = (n, 0) := by
  unfold get_skips
  rw [hdrop, get_skips_go_zeros n 0 0]
  simp

theorem get_skips_skip_enc (blk : List Nat) (o s : Nat) (rest : List Nat)
    (hs1 : 1 ≤ s) (hs2 : s < 2 ^ 56) (hdrop : blk.drop o = skip_enc s ++ rest)
    (hrest : rest = [] ∨ ∃ b tl, rest = b :: tl ∧ 128 ≤ b ∧ b < 256) :
    get_skips blk o = ((skip_enc s).length, s) := by
  rw [get_skips_at blk (skip_enc s) rest o hdrop (skip_enc_digits_lt s)
    (skip_enc_length_le s hs1 hs2) hrest]
  rw [skip_enc_fold s hs1 hs2]

theorem getD_of_drop (blk : List Nat) (o b : Nat) (rest : List Nat)
    (h : blk.drop o = b :: rest) : blk.getD o 0 = b := by
  have h2 : blk[o]? = some b := by
    have h3 := List.getElem?_drop blk o 0
    rw [h] at h3
    simpa using h3.symm
  simp [List.getD_eq_getElem?_getD, h2]

/-! Step facts of the block iterator on suffixes of known shape. -/

theorem next_index_eq (blk : List Nat) (i : WaveformHistoryIndex) (o c : Nat) :
    next_index blk ⟨i, o, c⟩
      = if o + (get_skips blk o).1 ≥ BLOCK_SIZE then none
        else if c < (blk.getD (o + (get_skips blk o).1) 0 &&& 0x7F) + 1 then
          some (⟨i.timestamp_index + (get_skips blk o).2, i.value_index⟩,
            ⟨⟨i.timestamp_index + (get_skips blk o).2 + 1, i.value_index + 1⟩,
             o + (get_skips blk o).1, c + 1⟩)
        else next_index_go blk BLOCK_SIZE
          ⟨i.timestamp_index + (get_skips blk o).2, i.value_index⟩
          (o + (get_skips blk o).1 + 1) 0 := rfl

theorem drop_lt_length (blk : List Nat) (o b : Nat) (rest : List Nat)
    (h : blk.drop o = b :: rest) : o < blk.length := by
  by_contra hge
  have h0 : blk.drop o = [] := List.drop_eq_nil_of_le (by omega)
  rw [h0] at h
  exact List.noConfusion h

/-- Stepping the iterator at a change byte with changes still to
consume emits the current index and advances the consumed count. -/
theorem next_index_change_byte (blk : List Nat) (t v o c b : Nat) (rest : List Nat)
    (hdrop : blk.drop o = b :: rest) (hb1 : 128 ≤ b) (hb2 : b < 256)
    (hlen : blk.length = BLOCK_SIZE) (hc : c < (b &&& 0x7F) + 1) :
    next_index blk ⟨⟨t, v⟩, o, c⟩
      = some (⟨t, v⟩, ⟨⟨t + 1, v + 1⟩, o, c + 1⟩) := by
  have hsk : get_skips blk o = (0, 0) :=
    get_skips_stopper blk o (b :: rest) hdrop (Or.inr ⟨b, rest, rfl, hb1, hb2⟩)
  have ho : o < BLOCK_SIZE := by
    have := drop_lt_length blk o b rest hdrop
    omega
  rw [next_index_eq, hsk]
  simp only [Nat.add_zero]
  rw [getD_of_drop blk o b rest hdrop]
  rw [if_neg (by omega), if_pos hc]

/-- Stepping the iterator at a change byte whose changes are all
consumed moves to the next byte with a cleared count. -/
theorem next_index_change_done (blk : List Nat) (i : WaveformHistoryIndex) (o c b : Nat)
    (rest : List Nat) (hdrop : blk.drop o = b :: rest) (hb1 : 128 ≤ b) (hb2 : b < 256)
    (hlen : blk.length = BLOCK_SIZE) (hc : ¬ c < (b &&& 0x7F) + 1) :
    next_index blk ⟨i, o, c⟩ = next_index blk ⟨i, o + 1, 0⟩ := by
  have hsk : get_skips blk o = (0, 0) :=
    get_skips_stopper blk o (b :: rest) hdrop (Or.inr ⟨b, rest, rfl, hb1, hb2⟩)
  rw [next_index_eq, hsk]
  simp only [Nat.add_zero]
  rw [getD_of_drop blk o b rest hdrop]
  rw [if_neg (by
    have := drop_lt_length blk o b rest hdrop
    omega)]
  rw [if_neg hc]
  show next_index_go blk BLOCK_SIZE ⟨i.timestamp_index, i.value_index⟩ (o + 1) 0
    = next_index_go blk (BLOCK_SIZE + 1) i (o + 1) 0
  rw [next_index_go_congr blk BLOCK_SIZE (BLOCK_SIZE + 1) ⟨i.timestamp_index, i.value_index⟩
    (o + 1) 0 (by omega) (by omega)]

/-- Stepping the iterator at a skip encoding advances the timestamp by
the skip count and the offset past the skip bytes. -/
theorem next_index_skip (blk : List Nat) (i : WaveformHistoryIndex) (o c s : Nat)
    (rest : List Nat) (hs1 : 1 ≤ s) (hs2 : s < 2 ^ 56)
    (hdrop : blk.drop o = skip_enc s ++ rest)
    (hrest : rest = [] ∨ ∃ b tl, rest = b :: tl ∧ 128 ≤ b ∧ b < 256) :
    next_index blk ⟨i, o, c⟩
      = next_index blk ⟨⟨i.timestamp_index + s, i.value_index⟩, o + (skip_enc s).length, c⟩ := by
  have hsk : get_skips blk o = ((skip_enc s).length, s) :=
    get_skips_skip_enc blk o s rest hs1 hs2 hdrop hrest
  have hdrop2 : blk.drop (o + (skip_enc s).length) = rest := by
    rw [← List.drop_drop, hdrop, List.drop_left]
  have hsk2 : get_skips blk (o + (skip_enc s).length) = (0, 0) :=
    get_skips_stopper blk _ rest hdrop2 hrest
  rw [next_index_eq blk i o c, next_index_eq blk ⟨i.timestamp_index + s, i.value_index⟩ _ c,
    hsk, hsk2]
  simp only [Nat.add_zero]

theorem block_iter_next_congr (blk : List Nat) (s1 s2 : BlockIterState)
    (h : next_index blk s1 = next_index blk s2) :
    block_iter_list blk s1 = block_iter_list blk s2 := by
  rw [block_iter_list_unfold, block_iter_list_unfold, h]

/-- Draining one change byte: with m changes left of the byte under the
cursor, the iterator emits m consecutive index pairs and then continues
past the byte. -/
theorem block_iter_change_byte (blk : List Nat) (hlen : blk.length = BLOCK_SIZE) :
    ∀ (m t v o c b : Nat) (rest : List Nat), blk.drop o = b :: rest → 128 ≤ b → b < 256 →
      c + m = (b &&& 0x7F) + 1 →
      block_iter_list blk ⟨⟨t, v⟩, o, c⟩
        = (List.range m).map (fun i => ⟨t + i, v + i⟩)
          ++ block_iter_list blk ⟨⟨t + m, v + m⟩, o + 1, 0⟩ := by
  intro m
  induction m with
  | zero =>
    intro t v o c b rest hdrop hb1 hb2 hcm
    simp only [List.range_zero, List.map_nil, List.nil_append, Nat.add_zero]
    exact block_iter_next_congr blk _ _
      (next_index_change_done blk ⟨t, v⟩ o c b rest hdrop hb1 hb2 hlen (by omega))
  | succ m ih =>
    intro t v o c b rest hdrop hb1 hb2 hcm
    rw [block_iter_list_unfold]
    rw [next_index_change_byte blk t v o c b rest hdrop hb1 hb2 hlen (by omega)]
    show (⟨t, v⟩ : WaveformHistoryIndex) :: block_iter_list blk ⟨⟨t + 1, v + 1⟩, o, c + 1⟩ = _
    rw [ih (t + 1) (v + 1) o (c + 1) b rest hdrop hb1 hb2 (by omega)]
    rw [List.range_succ_eq_map]
    simp only [List.map_cons, List.map_map, List.cons_append]
    have hmap : (List.range m).map ((fun i => (⟨t + i, v + i⟩ : WaveformHistoryIndex)) ∘ Nat.succ)
        = (List.range m).map (fun i => (⟨t + 1 + i, v + 1 + i⟩ : WaveformHistoryIndex)) := by
      apply List.map_congr_left
      intro i _
      simp only [Function.comp]
      congr 1 <;> omega
    rw [hmap]
    have hidx : (⟨t + (m + 1), v + (m + 1)⟩ : WaveformHistoryIndex)
        = ⟨t + 1 + m, v + 1 + m⟩ := by congr 1 <;> omega
    rw [hidx]
    simp

theorem change_run_bytes_length (c : Nat) :
    (change_run_bytes c).length = (c - 1) / 128 + 1 := by
  simp [change_run_bytes]

/-- Draining one full change run: the iterator emits the c consecutive
index pairs of the run and then continues past its bytes. -/
theorem block_iter_change_run (blk : List Nat) (hlen : blk.length = BLOCK_SIZE) :
    ∀ (q t v o c : Nat) (rest : List Nat), (c - 1) / 128 = q → 1 ≤ c →
      blk.drop o = change_run_bytes c ++ rest →
      block_iter_list blk ⟨⟨t, v⟩, o, 0⟩
        = (List.range c).map (fun i => ⟨t + i, v + i⟩)
          ++ block_iter_list blk ⟨⟨t + c, v + c⟩, o + (change_run_bytes c).length, 0⟩ := by
  intro q
  induction q with
  | zero =>
    intro t v o c rest hq hc hdrop
    have hcb : change_run_bytes c = [128 + (c - 1) % 128] := by
      unfold change_run_bytes
      rw [hq]
      simp
    have hmod : (c - 1) % 128 = c - 1 := by omega
    have hand : (128 + (c - 1) % 128) &&& 0x7F = c - 1 := by
      rw [and_0x7f_eq_mod, hmod]
      omega
    rw [hcb] at hdrop
    have hstep := block_iter_change_byte blk hlen c t v o 0 (128 + (c - 1) % 128) rest
      (by simpa using hdrop) (by omega) (by omega) (by rw [hand]; omega)
    rw [hstep, hcb]
    simp
  | succ q ih =>
    intro t v o c rest hq hc hdrop
    have hc129 : 129 ≤ c := by omega
    have hsplit : change_run_bytes c = 255 :: change_run_bytes (c - 128) := by
      unfold change_run_bytes
      have h1 : (c - 1) / 128 = (c - 128 - 1) / 128 + 1 := by omega
      have h2 : (c - 1) % 128 = (c - 128 - 1) % 128 := by omega
      rw [h1, h2, List.replicate_succ]
      simp
    rw [hsplit] at hdrop
    have hstep := block_iter_change_byte blk hlen 128 t v o 0 255
      (change_run_bytes (c - 128) ++ rest) (by simpa using hdrop) (by omega) (by omega)
      (by decide)
    rw [hstep]
    have hdrop2 : blk.drop (o + 1) = change_run_bytes (c - 128) ++ rest := by
      rw [← List.drop_drop, hdrop]
      simp
    rw [ih (t + 128) (v + 128) (o + 1) (c - 128) rest (by omega) (by omega) hdrop2]
    have hcsum : c = 128 + (c - 128) := by omega
    conv_rhs => rw [hcsum]
    rw [List.range_add]
    simp only [List.map_append, List.map_map, List.append_assoc]
    congr 1
    have hmap : (List.range (c - 128)).map
          ((fun i => (⟨t + i, v + i⟩ : WaveformHistoryIndex)) ∘ (fun x => 128 + x))
        = (List.range (c - 128)).map
          (fun i => (⟨t + 128 + i, v + 128 + i⟩ : WaveformHistoryIndex)) := by
      apply List.map_congr_left
      intro i _
      simp only [Function.comp]
      congr 1 <;> omega
    rw [hmap]
    have hidx : (⟨t + 128 + (c - 128), v + 128 + (c - 128)⟩ : WaveformHistoryIndex)
        = ⟨t + c, v + c⟩ := by congr 1 <;> omega
    have hlen2 : o + 1 + (change_run_bytes (c - 128)).length
        = o + (change_run_bytes c).length := by
      rw [change_run_bytes_length, change_run_bytes_length]
      omega
    rw [hidx, hlen2, ← hcsum]

/-- The iterator stops on the zero padding at the end of a block. -/
theorem block_iter_zeros (blk : List Nat) (i : WaveformHistoryIndex) (o : Nat)
    (hdrop : blk.drop o = List.replicate (BLOCK_SIZE - o) 0) :
    block_iter_list blk ⟨i, o, 0⟩ = [] := by
  rw [block_iter_list_unfold]
  have hsk := get_skips_zeros blk o (BLOCK_SIZE - o) hdrop
  rw [next_index_eq, hsk]
  rw [if_pos (by simp; omega)]

theorem runs_enc_nil : runs_enc [] = [] := rfl

theorem runs_enc_cons (g : Nat × Nat) (rest : List (Nat × Nat)) :
    runs_enc (g :: rest)
      = ((if g.1 = 0 then [] else skip_enc g.1) ++ change_run_bytes g.2) ++ runs_enc rest := by
  simp [runs_enc]

theorem change_run_bytes_head (c : Nat) :
    ∃ b tl, change_run_bytes c = b :: tl ∧ 128 ≤ b ∧ b < 256 := by
  unfold change_run_bytes
  have hm : (c - 1) % 128 < 128 := Nat.mod_lt _ (by norm_num)
  cases hq : (c - 1) / 128 with
  | zero =>
    exact ⟨128 + (c - 1) % 128, [], by simp, by omega, by omega⟩
  | succ q =>
    exact ⟨255, List.replicate q 255 ++ [128 + (c - 1) % 128],
      by rw [List.replicate_succ]; simp, by omega, by omega⟩

/-- Decoding a block suffix holding the token bytes of a group list
followed by zero padding yields exactly the pairs of the groups. -/
theorem block_iter_runs (blk : List Nat) (hlen : blk.length = BLOCK_SIZE) :
    ∀ (gs : List (Nat × Nat)) (t v o : Nat),
      blk.drop o = runs_enc gs ++ List.replicate (BLOCK_SIZE - o - (runs_enc gs).length) 0 →
      o + (runs_enc gs).length ≤ BLOCK_SIZE →
      (∀ g ∈ gs, 1 ≤ g.2 ∧ g.1 < 2 ^ 56) →
      block_iter_list blk ⟨⟨t, v⟩, o, 0⟩ = runs_list t v gs := by
  intro gs
  induction gs with
  | nil =>
    intro t v o hdrop hcap hwf
    rw [runs_enc_nil] at hdrop
    simp only [List.nil_append, List.length_nil, Nat.sub_zero] at hdrop
    rw [block_iter_zeros blk ⟨t, v⟩ o hdrop]
    rfl
  | cons g rest ih =>
    intro t v o hdrop hcap hwf
    obtain ⟨hg2, hg1⟩ := hwf g (by simp)
    obtain ⟨hb, htl, hcrb, hb1, hb2⟩ := change_run_bytes_head g.2
    rw [runs_enc_cons] at hdrop hcap
    by_cases hs0 : g.1 = 0
    · rw [if_pos hs0] at hdrop hcap
      simp only [List.nil_append] at hdrop hcap
      rw [List.append_assoc] at hdrop
      have hrun := block_iter_change_run blk hlen ((g.2 - 1) / 128) t v o g.2
        (runs_enc rest ++ List.replicate
          (BLOCK_SIZE - o - ((change_run_bytes g.2).length + (runs_enc rest).length)) 0)
        rfl hg2 (by rw [hdrop]; simp)
      rw [hrun]
      have hdrop2 : blk.drop (o + (change_run_bytes g.2).length)
          = runs_enc rest ++ List.replicate
            (BLOCK_SIZE - (o + (change_run_bytes g.2).length) - (runs_enc rest).length) 0 := by
        rw [← List.drop_drop, hdrop, List.drop_left]
        congr 2
        simp at hcap ⊢
        omega
      rw [ih (t + g.2) (v + g.2) (o + (change_run_bytes g.2).length) hdrop2
        (by simp at hcap ⊢; omega) (fun g hg => hwf g (by simp [hg]))]
      have hruns : runs_list t v (g :: rest)
          = (List.range g.2).map (fun i => ⟨t + g.1 + i, v + i⟩)
            ++ runs_list (t + g.1 + g.2) (v + g.2) rest := rfl
      rw [hruns, hs0]
      simp
    · rw [if_neg hs0] at hdrop hcap
      have hs1 : 1 ≤ g.1 := by omega
      simp only [List.append_assoc] at hdrop hcap
      set C := BLOCK_SIZE - o - (skip_enc g.1 ++ (change_run_bytes g.2 ++ runs_enc rest)).length
        with hC
      have hskip := next_index_skip blk ⟨t, v⟩ o 0 g.1
        (change_run_bytes g.2 ++ (runs_enc rest ++ List.replicate C 0)) hs1 hg1
        (by exact hdrop)
        (Or.inr ⟨hb, htl ++ (runs_enc rest ++ List.replicate C 0), by rw [hcrb]; simp, hb1, hb2⟩)
      rw [block_iter_next_congr blk _ _ hskip]
      show block_iter_list blk ⟨⟨t + g.1, v⟩, o + (skip_enc g.1).length, 0⟩
        = runs_list t v (g :: rest)
      have hdropk : blk.drop (o + (skip_enc g.1).length)
          = change_run_bytes g.2 ++ (runs_enc rest ++ List.replicate C 0) := by
        rw [← List.drop_drop, hdrop]
        rw [show skip_enc g.1 ++ (change_run_bytes g.2 ++ (runs_enc rest ++ List.replicate C 0))
          = skip_enc g.1 ++ (change_run_bytes g.2 ++ (runs_enc rest ++ List.replicate C 0))
          from rfl]
        rw [List.drop_left]
      have hrun := block_iter_change_run blk hlen ((g.2 - 1) / 128) (t + g.1) v
        (o + (skip_enc g.1).length) g.2 (runs_enc rest ++ List.replicate C 0) rfl hg2 hdropk
      rw [hrun]
      have hdrop2 : blk.drop (o + (skip_enc g.1).length + (change_run_bytes g.2).length)
          = runs_enc rest ++ List.replicate
            (BLOCK_SIZE - (o + (skip_enc g.1).length + (change_run_bytes g.2).length)
              - (runs_enc rest).length) 0 := by
        rw [← List.drop_drop, hdropk, List.drop_left]
        congr 2
        rw [hC]
        simp at hcap ⊢
        omega
      rw [ih (t + g.1 + g.2) (v + g.2)
        (o + (skip_enc g.1).length + (change_run_bytes g.2).length) hdrop2
        (by simp at hcap ⊢; omega) (fun g hg => hwf g (by simp [hg]))]
      rfl

theorem encode_block_length (e : BlockSpec) (hcap : (runs_enc e.gs).length ≤ 496) :
    (encode_block e).length = BLOCK_SIZE := by
  unfold encode_block BLOCK_SIZE
  simp [beBytes_length]
  omega

/-- Decoding the byte image of a block specification through the block
iterator yields exactly the pairs of the specification. -/
theorem block_iter_encode (e : BlockSpec) (ht : e.t0 < 2 ^ 64) (hv : e.v0 < 2 ^ 64)
    (hcap : (runs_enc e.gs).length ≤ 496)
    (hwf : ∀ g ∈ e.gs, 1 ≤ g.2 ∧ g.1 < 2 ^ 56) :
    block_iter_list (encode_block e) (block_init_state (encode_block e))
      = runs_list e.t0 e.v0 e.gs := by
  have hlen : (encode_block e).length = BLOCK_SIZE := encode_block_length e hcap
  have ht0 : get_timestamp_index (encode_block e) = e.t0 := by
    unfold get_timestamp_index encode_block
    rw [List.append_assoc, List.append_assoc]
    rw [List.take_left' (by rw [beBytes_length])]
    rw [beVal_beBytes]
    exact Nat.mod_eq_of_lt (by simpa using ht)
  have hv0 : get_value_index (encode_block e) = e.v0 := by
    unfold get_value_index encode_block
    rw [List.append_assoc, List.append_assoc]
    rw [List.drop_left' (by rw [beBytes_length])]
    rw [List.take_left' (by rw [beBytes_length])]
    rw [beVal_beBytes]
    exact Nat.mod_eq_of_lt (by simpa using hv)
  have hdrop : (encode_block e).drop 16
      = runs_enc e.gs ++ List.replicate
        (BLOCK_SIZE - 16 - (runs_enc e.gs).length) 0 := by
    unfold encode_block
    rw [List.append_assoc (beBytes 8 e.t0 ++ beBytes 8 e.v0)]
    rw [List.drop_left' (by simp [beBytes_length])]
  unfold block_init_state get_index
  rw [ht0, hv0]
  exact block_iter_runs (encode_block e) hlen e.gs e.t0 e.v0 16 hdrop
    (by unfold BLOCK_SIZE; omega) hwf

/-- C7: a 512-byte block whose token stream after the 16-byte header
(t0, v0) is 0x7F 0x7F 0xFF 0xFF, remaining bytes zero, decodes to
exactly 256 index pairs with consecutive timestamps starting at
t0 + 127 * 128 + 127 and consecutive value indices starting at v0: the
two skip bytes accumulate 127 * 128 + 127 through the 7-bit shifts of
the skip accumulator and each 0xFF byte contributes 128 changes. -/
theorem c7_s6_block_decode (t0 v0 : Nat) (ht : t0 < 2 ^ 64) (hv : v0 < 2 ^ 64) :
    block_iter_list
        (beBytes 8 t0 ++ beBytes 8 v0 ++ ([0x7F, 0x7F, 0xFF, 0xFF] ++ List.replicate 492 0))
        (block_init_state
          (beBytes 8 t0 ++ beBytes 8 v0 ++ ([0x7F, 0x7F, 0xFF, 0xFF] ++ List.replicate 492 0)))
      = (List.range 256).map (fun i => ⟨t0 + 127 * 128 + 127 + i, v0 + i⟩) := by
  have htok : runs_enc [(16383, 128), (0, 128)] = [0x7F, 0x7F, 0xFF, 0xFF] := by decide
  have henc : beBytes 8 t0 ++ beBytes 8 v0 ++ ([0x7F, 0x7F, 0xFF, 0xFF] ++ List.replicate 492 0)
      = encode_block ⟨t0, v0, [(16383, 128), (0, 128)]⟩ := by
    unfold encode_block
    rw [htok]
    simp [BLOCK_SIZE]
  rw [henc]
  have hcap : (runs_enc [(16383, 128), (0, 128)]).length ≤ 496 := by decide
  have hwf : ∀ g ∈ [((16383 : Nat), (128 : Nat)), (0, 128)], 1 ≤ g.2 ∧ g.1 < 2 ^ 56 := by
    decide
  rw [block_iter_encode ⟨t0, v0, [(16383, 128), (0, 128)]⟩ ht hv hcap hwf]
  rw [show (List.range 256).map
      (fun i => (⟨t0 + 127 * 128 + 127 + i, v0 + i⟩ : WaveformHistoryIndex))
      = (List.range (128 + 128)).map (fun i => ⟨t0 + 127 * 128 + 127 + i, v0 + i⟩) from rfl]
  rw [List.range_add]
  simp only [List.map_append, List.map_map]
  have hruns : runs_list t0 v0 [(16383, 128), (0, 128)]
      = (List.range 128).map (fun i => ⟨t0 + 16383 + i, v0 + i⟩)
        ++ ((List.range 128).map (fun i => ⟨t0 + 16383 + 128 + 0 + i, v0 + 128 + i⟩) ++ []) := by
    simp [runs_list]
  rw [hruns]
  simp only [List.append_nil]
  congr 1

/-- Witness for C7 at t0 = 0, v0 = 0. -/
theorem c7_s6_block_decode_witness :
    (0 : Nat) < 2 ^ 64 ∧
    block_iter_list
        (beBytes 8 0 ++ beBytes 8 0 ++ ([0x7F, 0x7F, 0xFF, 0xFF] ++ List.replicate 492 0))
        (block_init_state
          (beBytes 8 0 ++ beBytes 8 0 ++ ([0x7F, 0x7F, 0xFF, 0xFF] ++ List.replicate 492 0)))
      = (List.range 256).map (fun i => ⟨0 + 127 * 128 + 127 + i, 0 + i⟩) :=
  ⟨by decide, c7_s6_block_decode 0 0 (by decide) (by decide)⟩

/-- C3: the spec requires a query below the first block header to
return the first index for modes After and Closest; the code instead
returns none for every mode, because the block-level search is always
run with mode Before and already returns none.  Concrete run: one
change at timestamp 5, query timestamp 3. -/
theorem c3_below_first_header_all_none (mode : WaveformSearchMode) :
    (build_history [5]).search_timestamp_index 3 mode = .ok none := by
  cases mode <;> decide

/-- C4: get_real slices a single byte instead of eight, so the
conversion to an 8-byte array fails on every input; no call returns a
value. -/
theorem c4_get_real_always_fails (s : WaveformSignalReal) (i : Nat) :
    s.get_real i = none := by
  unfold WaveformSignalReal.get_real
  have h1 : i * 8 + 1 - i * 8 = 1 := by omega
  rw [h1]
  have h2 : ((s.vectors.drop (i * 8)).take 1).length ≤ 1 := by
    rw [List.length_take]
    omega
  rw [if_neg (by omega)]

/-- C10: searching a history that has never received a change fails for
every timestamp and mode: the block count is zero and the source
underflows on get_block_count() - 1, modelled as the error value. -/
theorem c10_empty_history_search_fails (t : Nat) (mode : WaveformSearchMode) :
    WaveformHistory.new.search_timestamp_index t mode = .error () := by
  unfold WaveformHistory.search_timestamp_index WaveformHistory.search_timestamp_block_index
  simp [WaveformHistory.new, WaveformHistory.get_block_count]

/-! Positional writes at the frontier of the block byte list. -/

theorem set_frontier (P Q : List Nat) (x y : Nat) :
    (P ++ (y :: Q)).set P.length x = P ++ (x :: Q) := by
  rw [List.set_append_right _ _ (Nat.le_refl _)]
  simp

theorem getD_at (P Q : List Nat) (b : Nat) :
    (P ++ (b :: Q)).getD P.length 0 = b := by
  have h : (P ++ (b :: Q))[P.length]? = some b := by
    rw [List.getElem?_append_right (Nat.le_refl _)]
    simp
  simp [List.getD_eq_getElem?_getD, h]

theorem write_skip_bytes_frontier :
    ∀ (k : Nat) (P Q : List Nat) (s : Nat),
      write_skip_bytes (P ++ (List.replicate k 0 ++ Q)) P.length k s
        = P ++ (skip_digits k s ++ Q) := by
  intro k
  induction k with
  | zero => intro P Q s; simp [write_skip_bytes, skip_digits]
  | succ k ih =>
    intro P Q s
    show write_skip_bytes ((P ++ (List.replicate (k + 1) 0 ++ Q)).set (P.length + k)
      (s &&& 127)) P.length k (s >>> 7) = _
    have hre : List.replicate (k + 1) 0 = List.replicate k 0 ++ [(0 : Nat)] :=
      List.replicate_succ' ..
    have hset : (P ++ (List.replicate (k + 1) 0 ++ Q)).set (P.length + k) (s &&& 127)
        = P ++ (List.replicate k 0 ++ ((s &&& 127) :: Q)) := by
      rw [hre]
      rw [show P ++ ((List.replicate k 0 ++ [(0 : Nat)]) ++ Q)
        = (P ++ List.replicate k 0) ++ ((0 : Nat) :: Q) by simp]
      rw [show P.length + k = (P ++ List.replicate k 0).length by simp]
      rw [set_frontier]
      simp
    rw [hset]
    rw [ih P ((s &&& 127) :: Q) (s >>> 7)]
    rw [show skip_digits (k + 1) s ++ Q = skip_digits k (s >>> 7) ++ ((s &&& 127) :: Q)
      by simp [skip_digits]]

theorem set_range_frontier :
    ∀ (ws : List Nat) (P R Q : List Nat), R.length = ws.length →
      set_range (P ++ (R ++ Q)) P.length ws = P ++ (ws ++ Q) := by
  intro ws
  induction ws with
  | nil =>
    intro P R Q hlen
    have hR : R = [] := List.length_eq_zero.mp (by simp [hlen])
    subst hR
    simp [set_range]
  | cons w ws ih =>
    intro P R Q hlen
    cases R with
    | nil => simp at hlen
    | cons r R =>
      show set_range ((P ++ ((r :: R) ++ Q)).set P.length w) (P.length + 1) ws = _
      rw [show P ++ ((r :: R) ++ Q) = P ++ (r :: (R ++ Q)) by simp]
      rw [set_frontier]
      rw [show P ++ (w :: (R ++ Q)) = (P ++ [w]) ++ (R ++ Q) by simp]
      rw [show P.length + 1 = (P ++ [w]).length by simp]
      rw [ih (P ++ [w]) R Q (by simpa using hlen)]
      simp

/-! Encoder-side facts about the token stream and the group lists. -/

theorem runs_enc_append (a b : List (Nat × Nat)) :
    runs_enc (a ++ b) = runs_enc a ++ runs_enc b := by
  simp [runs_enc]

theorem runs_enc_singleton (s c : Nat) :
    runs_enc [(s, c)] = (if s = 0 then [] else skip_enc s) ++ change_run_bytes c := by
  simp [runs_enc]

theorem skip_enc_length (s : Nat) :
    (skip_enc s).length = (bit_length s - 1) / 7 + 1 := skip_digits_length _ _

theorem change_run_bytes_getLastD (c : Nat) :
    (change_run_bytes c).getLastD 0 = 128 + (c - 1) % 128 := by
  unfold change_run_bytes
  exact List.getLastD_concat ..

theorem runs_enc_concat_getLastD (gs : List (Nat × Nat)) (s c : Nat) :
    (runs_enc (gs ++ [(s, c)])).getLastD 0 = 128 + (c - 1) % 128 := by
  rw [runs_enc_append, runs_enc_singleton]
  unfold change_run_bytes
  simp only [← List.append_assoc]
  exact List.getLastD_concat ..

theorem change_run_bytes_succ_small (c : Nat) (hc : 1 ≤ c) (hr : (c - 1) % 128 < 127) :
    change_run_bytes (c + 1)
      = (change_run_bytes c).dropLast ++ [128 + (c - 1) % 128 + 1] := by
  unfold change_run_bytes
  rw [List.dropLast_concat]
  have h1 : (c + 1 - 1) / 128 = (c - 1) / 128 := by omega
  have h2 : (c + 1 - 1) % 128 = (c - 1) % 128 + 1 := by omega
  rw [h1, h2]
  simp [Nat.add_assoc]

theorem change_run_bytes_succ_full (c : Nat) (hc : 1 ≤ c) (hr : (c - 1) % 128 = 127) :
    change_run_bytes (c + 1) = change_run_bytes c ++ [128] := by
  unfold change_run_bytes
  have h1 : (c + 1 - 1) / 128 = (c - 1) / 128 + 1 := by omega
  have h2 : (c + 1 - 1) % 128 = 0 := by omega
  rw [h1, h2, List.replicate_succ', hr]

theorem bump_last_concat (gs : List (Nat × Nat)) (s c : Nat) :
    bump_last (gs ++ [(s, c)]) = gs ++ [(s, c + 1)] := by
  unfold bump_last
  rw [List.dropLast_concat, List.getLastD_concat]

theorem runs_adv_t_append (a b : List (Nat × Nat)) :
    runs_adv_t (a ++ b) = runs_adv_t a + runs_adv_t b := by
  simp [runs_adv_t]

theorem runs_count_append (a b : List (Nat × Nat)) :
    runs_count (a ++ b) = runs_count a + runs_count b := by
  simp [runs_count]

theorem runs_adv_t_singleton (s c : Nat) : runs_adv_t [(s, c)] = s + c := by
  simp [runs_adv_t]

theorem runs_adv_t_cons (g : Nat × Nat) (l : List (Nat × Nat)) :
    runs_adv_t (g :: l) = g.1 + g.2 + runs_adv_t l := by
  simp [runs_adv_t]

theorem runs_count_cons (g : Nat × Nat) (l : List (Nat × Nat)) :
    runs_count (g :: l) = g.2 + runs_count l := by
  simp [runs_count]

theorem runs_count_singleton (s c : Nat) : runs_count [(s, c)] = c := by
  simp [runs_count]

theorem runs_list_append (gs1 gs2 : List (Nat × Nat)) : ∀ (t v : Nat),
    runs_list t v (gs1 ++ gs2)
      = runs_list t v gs1 ++ runs_list (t + runs_adv_t gs1) (v + runs_count gs1) gs2 := by
  induction gs1 with
  | nil => intro t v; simp [runs_list, runs_adv_t, runs_count]
  | cons g gs1 ih =>
    intro t v
    show (List.range g.2).map (fun i => (⟨t + g.1 + i, v + i⟩ : WaveformHistoryIndex))
        ++ runs_list (t + g.1 + g.2) (v + g.2) (gs1 ++ gs2)
      = ((List.range g.2).map (fun i => (⟨t + g.1 + i, v + i⟩ : WaveformHistoryIndex))
          ++ runs_list (t + g.1 + g.2) (v + g.2) gs1)
        ++ runs_list (t + runs_adv_t (g :: gs1)) (v + runs_count (g :: gs1)) gs2
    rw [ih (t + g.1 + g.2) (v + g.2)]
    rw [runs_adv_t_cons, runs_count_cons, List.append_assoc]
    have h1 : t + (g.1 + g.2 + runs_adv_t gs1) = t + g.1 + g.2 + runs_adv_t gs1 := by omega
    have h2 : v + (g.2 + runs_count gs1) = v + g.2 + runs_count gs1 := by omega
    rw [h1, h2]

theorem runs_list_single_succ (t v s c : Nat) :
    runs_list t v [(s, c + 1)] = runs_list t v [(s, c)] ++ [⟨t + s + c, v + c⟩] := by
  show (List.range (c + 1)).map (fun i => (⟨t + s + i, v + i⟩ : WaveformHistoryIndex))
        ++ ([] : List WaveformHistoryIndex)
      = ((List.range c).map (fun i => (⟨t + s + i, v + i⟩ : WaveformHistoryIndex))
          ++ ([] : List WaveformHistoryIndex)) ++ [⟨t + s + c, v + c⟩]
  rw [List.range_succ]
  simp

theorem runs_pairs_concat (B : List BlockSpec) (e : BlockSpec) :
    runs_pairs (B ++ [e]) = runs_pairs B ++ runs_list e.t0 e.v0 e.gs := by
  simp [runs_pairs]

theorem replace_last_concat (B : List BlockSpec) (e e2 : BlockSpec) :
    replace_last (B ++ [e]) e2 = B ++ [e2] := by
  unfold replace_last
  rw [List.dropLast_concat]

theorem flatten_encode_length (B : List BlockSpec) (hwf : ∀ e ∈ B, block_wf e) :
    ((B.map encode_block).flatten).length = B.length * BLOCK_SIZE := by
  induction B with
  | nil => simp
  | cons e B ih =>
    simp only [List.map_cons, List.flatten_cons, List.length_append, List.length_cons]
    rw [ih (fun e he => hwf e (by simp [he]))]
    rw [encode_block_length e (hwf e (by simp)).2.2.2.2.1]
    ring

theorem runs_enc_single_change : runs_enc [(0, 1)] = [128] := rfl

/-- insert_block appends the byte image of a fresh one-change block. -/
theorem insert_block_eq (h : WaveformHistory) (t v n : Nat)
    (hlen : h.blocks.length = n * BLOCK_SIZE)
    (hbi : (h.block_index + 1).toNat = n) :
    h.insert_block t v =
      { h with blocks := h.blocks ++ encode_block ⟨t, v, [(0, 1)]⟩, block_index := h.block_index + 1, block_offset := 17 } := by
  unfold WaveformHistory.insert_block
  have hbase : (h.block_index + 1).toNat * BLOCK_SIZE = h.blocks.length := by
    rw [hbi, hlen]
  have hsplit : List.replicate BLOCK_SIZE (0 : Nat)
      = List.replicate 8 (0 : Nat)
        ++ (List.replicate 8 (0 : Nat) ++ ((0 : Nat) :: List.replicate 495 (0 : Nat))) := by
    rw [show ((0 : Nat) :: List.replicate 495 (0 : Nat)) = List.replicate 496 (0 : Nat)
      from (List.replicate_succ 0 495).symm]
    rw [← List.replicate_add, ← List.replicate_add]
    rfl
  have hb1 : set_range (h.blocks ++ List.replicate BLOCK_SIZE 0)
        ((h.block_index + 1).toNat * BLOCK_SIZE) (beBytes 8 t)
      = h.blocks ++ (beBytes 8 t
          ++ (List.replicate 8 (0 : Nat) ++ ((0 : Nat) :: List.replicate 495 (0 : Nat)))) := by
    rw [hbase, hsplit]
    exact set_range_frontier (beBytes 8 t) h.blocks (List.replicate 8 0) _
      (by simp [beBytes_length])
  have hb2 : set_range (h.blocks ++ (beBytes 8 t
        ++ (List.replicate 8 (0 : Nat) ++ ((0 : Nat) :: List.replicate 495 (0 : Nat)))))
        ((h.block_index + 1).toNat * BLOCK_SIZE + 8) (beBytes 8 v)
      = h.blocks ++ (beBytes 8 t ++ (beBytes 8 v
          ++ ((0 : Nat) :: List.replicate 495 (0 : Nat)))) := by
    rw [hbase]
    rw [show h.blocks ++ (beBytes 8 t
        ++ (List.replicate 8 (0 : Nat) ++ ((0 : Nat) :: List.replicate 495 (0 : Nat))))
      = (h.blocks ++ beBytes 8 t)
        ++ (List.replicate 8 (0 : Nat) ++ ((0 : Nat) :: List.replicate 495 (0 : Nat)))
      by simp]
    rw [show h.blocks.length + 8 = (h.blocks ++ beBytes 8 t).length
      by simp [beBytes_length]]
    rw [set_range_frontier (beBytes 8 v) (h.blocks ++ beBytes 8 t) (List.replicate 8 0) _
      (by simp [beBytes_length])]
    simp
  have hb3 : (h.blocks ++ (beBytes 8 t ++ (beBytes 8 v
        ++ ((0 : Nat) :: List.replicate 495 (0 : Nat))))).set
        ((h.block_index + 1).toNat * BLOCK_SIZE + 16) 128
      = h.blocks ++ encode_block ⟨t, v, [(0, 1)]⟩ := by
    rw [hbase]
    rw [show h.blocks ++ (beBytes 8 t ++ (beBytes 8 v
        ++ ((0 : Nat) :: List.replicate 495 (0 : Nat))))
      = (h.blocks ++ beBytes 8 t ++ beBytes 8 v)
        ++ ((0 : Nat) :: List.replicate 495 (0 : Nat)) by simp]
    rw [show h.blocks.length + 16 = (h.blocks ++ beBytes 8 t ++ beBytes 8 v).length
      by simp [beBytes_length]]
    rw [set_frontier]
    unfold encode_block
    rw [runs_enc_single_change]
    simp [BLOCK_SIZE]
  dsimp only
  rw [hb1, hb2, hb3]

/-! Decompositions of the token stream around its last byte. -/

theorem runs_enc_concat_decomp (gs2 : List (Nat × Nat)) (sl cl : Nat) :
    runs_enc (gs2 ++ [(sl, cl)])
      = (runs_enc gs2 ++ ((if sl = 0 then [] else skip_enc sl)
          ++ List.replicate ((cl - 1) / 128) 255)) ++ [128 + (cl - 1) % 128] := by
  rw [runs_enc_append, runs_enc_singleton]
  unfold change_run_bytes
  simp

theorem runs_enc_concat_bump_small (gs2 : List (Nat × Nat)) (sl cl : Nat)
    (hc : 1 ≤ cl) (hr : (cl - 1) % 128 < 127) :
    runs_enc (gs2 ++ [(sl, cl + 1)])
      = (runs_enc gs2 ++ ((if sl = 0 then [] else skip_enc sl)
          ++ List.replicate ((cl - 1) / 128) 255)) ++ [128 + (cl - 1) % 128 + 1] := by
  rw [runs_enc_append, runs_enc_singleton]
  rw [change_run_bytes_succ_small cl hc hr]
  unfold change_run_bytes
  rw [List.dropLast_concat]
  simp

theorem runs_enc_concat_bump_full (gs2 : List (Nat × Nat)) (sl cl : Nat)
    (hc : 1 ≤ cl) (hr : (cl - 1) % 128 = 127) :
    runs_enc (gs2 ++ [(sl, cl + 1)])
      = runs_enc (gs2 ++ [(sl, cl)]) ++ [128] := by
  rw [runs_enc_append, runs_enc_singleton, runs_enc_append, runs_enc_singleton]
  rw [change_run_bytes_succ_full cl hc hr]
  simp

/-! The four outcomes of insert_change_block on a history in invariant
shape. -/

theorem insert_change_block_skip_eq (h : WaveformHistory) (pre : List Nat) (e : BlockSpec)
    (n sk : Nat)
    (hblocks : h.blocks = pre ++ encode_block e)
    (hpre : pre.length = n * BLOCK_SIZE)
    (hbi : h.block_index = Int.ofNat n)
    (hoff : h.block_offset = 16 + (runs_enc e.gs).length)
    (hsk : 0 < sk)
    (hroom : ¬ (BLOCK_SIZE - h.block_offset < (bit_length sk - 1) / 7 + 1 + 1)) :
    h.insert_change_block (sk + 1)
      = (true, { h with blocks := pre ++ encode_block ⟨e.t0, e.v0, e.gs ++ [(sk, 1)]⟩, block_offset := h.block_offset + (skip_enc sk).length + 1 }) := by
  unfold WaveformHistory.insert_change_block
  dsimp only
  rw [Nat.add_sub_cancel]
  rw [if_pos hsk, if_neg hroom]
  rw [hbi, show (Int.ofNat n).toNat = n from rfl]
  set L := (runs_enc e.gs).length with hL
  set sb := (bit_length sk - 1) / 7 + 1 with hsb
  have hsbe : (skip_enc sk).length = sb := skip_enc_length sk
  have hLcap : L + sb + 1 ≤ 496 := by
    rw [hoff] at hroom
    unfold BLOCK_SIZE at hroom
    omega
  have hz : List.replicate (BLOCK_SIZE - 16 - L) (0 : Nat)
      = List.replicate sb (0 : Nat)
        ++ ((0 : Nat) :: List.replicate (BLOCK_SIZE - 16 - (L + sb + 1)) (0 : Nat)) := by
    rw [show ((0 : Nat) :: List.replicate (BLOCK_SIZE - 16 - (L + sb + 1)) (0 : Nat))
      = List.replicate (BLOCK_SIZE - 16 - (L + sb + 1) + 1) (0 : Nat)
      from (List.replicate_succ 0 _).symm]
    rw [← List.replicate_add]
    congr 1
    unfold BLOCK_SIZE
    omega
  have hP0 : h.blocks = (pre ++ (beBytes 8 e.t0 ++ (beBytes 8 e.v0 ++ runs_enc e.gs)))
      ++ (List.replicate sb (0 : Nat)
        ++ ((0 : Nat) :: List.replicate (BLOCK_SIZE - 16 - (L + sb + 1)) (0 : Nat))) := by
    rw [hblocks]
    unfold encode_block
    rw [← hL, hz]
    simp
  have hbase : n * BLOCK_SIZE + h.block_offset
      = (pre ++ (beBytes 8 e.t0 ++ (beBytes 8 e.v0 ++ runs_enc e.gs))).length := by
    simp [beBytes_length, hpre, hoff, ← hL]
    omega
  have hw : write_skip_bytes h.blocks (n * BLOCK_SIZE + h.block_offset) sb sk
      = (pre ++ (beBytes 8 e.t0 ++ (beBytes 8 e.v0 ++ runs_enc e.gs)))
        ++ (skip_enc sk
          ++ ((0 : Nat) :: List.replicate (BLOCK_SIZE - 16 - (L + sb + 1)) (0 : Nat))) := by
    rw [hP0, hbase]
    rw [write_skip_bytes_frontier]
    rw [show skip_digits sb sk = skip_enc sk from rfl]
  rw [hw]
  have hset : ((pre ++ (beBytes 8 e.t0 ++ (beBytes 8 e.v0 ++ runs_enc e.gs)))
        ++ (skip_enc sk
          ++ ((0 : Nat) :: List.replicate (BLOCK_SIZE - 16 - (L + sb + 1)) (0 : Nat)))).set
        (n * BLOCK_SIZE + (h.block_offset + sb)) 128
      = pre ++ encode_block ⟨e.t0, e.v0, e.gs ++ [(sk, 1)]⟩ := by
    rw [show (pre ++ (beBytes 8 e.t0 ++ (beBytes 8 e.v0 ++ runs_enc e.gs)))
        ++ (skip_enc sk
          ++ ((0 : Nat) :: List.replicate (BLOCK_SIZE - 16 - (L + sb + 1)) (0 : Nat)))
      = (pre ++ (beBytes 8 e.t0 ++ (beBytes 8 e.v0 ++ runs_enc e.gs)) ++ skip_enc sk)
        ++ ((0 : Nat) :: List.replicate (BLOCK_SIZE - 16 - (L + sb + 1)) (0 : Nat))
      by simp]
    rw [show n * BLOCK_SIZE + (h.block_offset + sb)
      = (pre ++ (beBytes 8 e.t0 ++ (beBytes 8 e.v0 ++ runs_enc e.gs)) ++ skip_enc sk).length
      by simp [beBytes_length, hpre, hoff, ← hL, hsbe]; omega]
    rw [set_frontier]
    unfold encode_block
    have hre : runs_enc (e.gs ++ [(sk, 1)]) = runs_enc e.gs ++ (skip_enc sk ++ [128]) := by
      rw [runs_enc_append, runs_enc_singleton]
      rw [if_neg (by omega)]
      rw [show change_run_bytes 1 = [128] from rfl]
    rw [hre]
    have hlen2 : (runs_enc e.gs ++ (skip_enc sk ++ [128])).length = L + sb + 1 := by
      simp [← hL, hsbe]
      omega
    rw [hlen2]
    simp
  rw [hset, hsbe]

theorem insert_change_block_fail_skip_eq (h : WaveformHistory) (sk : Nat) (hsk : 0 < sk)
    (hroom : BLOCK_SIZE - h.block_offset < (bit_length sk - 1) / 7 + 1 + 1) :
    h.insert_change_block (sk + 1) = (false, h) := by
  unfold WaveformHistory.insert_change_block
  dsimp only
  rw [Nat.add_sub_cancel]
  rw [if_pos hsk, if_pos hroom]

theorem insert_change_block_bump_small_eq (h : WaveformHistory) (pre : List Nat)
    (e : BlockSpec) (gs2 : List (Nat × Nat)) (sl cl n : Nat)
    (hblocks : h.blocks = pre ++ encode_block e)
    (hpre : pre.length = n * BLOCK_SIZE)
    (hbi : h.block_index = Int.ofNat n)
    (hoff : h.block_offset = 16 + (runs_enc e.gs).length)
    (hgs : e.gs = gs2 ++ [(sl, cl)])
    (hc : 1 ≤ cl) (hr : (cl - 1) % 128 < 127) :
    h.insert_change_block 1
      = (true, { h with blocks := pre ++ encode_block ⟨e.t0, e.v0, bump_last e.gs⟩ }) := by
  unfold WaveformHistory.insert_change_block
  dsimp only
  rw [if_neg (by decide : ¬ ((1 : Nat) - 1 > 0))]
  rw [hbi, show (Int.ofNat n).toNat = n from rfl]
  set L := (runs_enc e.gs).length with hL
  set D := runs_enc gs2 ++ ((if sl = 0 then [] else skip_enc sl)
    ++ List.replicate ((cl - 1) / 128) 255) with hD
  have hdec : runs_enc e.gs = D ++ [128 + (cl - 1) % 128] := by
    rw [hgs, runs_enc_concat_decomp]
  have hDlen : D.length + 1 = L := by
    rw [hL, hdec]
    simp
  have hblocks2 : h.blocks = (pre ++ (beBytes 8 e.t0 ++ (beBytes 8 e.v0 ++ D)))
      ++ ((128 + (cl - 1) % 128) :: List.replicate (BLOCK_SIZE - 16 - L) 0) := by
    rw [hblocks]
    unfold encode_block
    rw [← hL, hdec]
    simp
  have hidx1 : n * BLOCK_SIZE + h.block_offset - 1
      = (pre ++ (beBytes 8 e.t0 ++ (beBytes 8 e.v0 ++ D))).length := by
    simp [beBytes_length, hpre, hoff, ← hL]
    omega
  rw [hblocks2, hidx1, getD_at]
  rw [if_pos (by omega : 128 + (cl - 1) % 128 < 255)]
  rw [set_frontier]
  have henc2 : pre ++ encode_block ⟨e.t0, e.v0, bump_last e.gs⟩
      = (pre ++ (beBytes 8 e.t0 ++ (beBytes 8 e.v0 ++ D)))
        ++ ((128 + (cl - 1) % 128 + 1) :: List.replicate (BLOCK_SIZE - 16 - L) 0) := by
    unfold encode_block
    rw [show (⟨e.t0, e.v0, bump_last e.gs⟩ : BlockSpec).gs = bump_last e.gs from rfl]
    rw [hgs, bump_last_concat]
    rw [runs_enc_concat_bump_small gs2 sl cl hc hr]
    have hcount : BLOCK_SIZE - 16 - ((runs_enc gs2 ++ ((if sl = 0 then [] else skip_enc sl)
        ++ List.replicate ((cl - 1) / 128) 255)) ++ [128 + (cl - 1) % 128 + 1]).length
        = BLOCK_SIZE - 16 - L := by
      have hlen3 : ((runs_enc gs2 ++ ((if sl = 0 then [] else skip_enc sl)
          ++ List.replicate ((cl - 1) / 128) 255)) ++ [128 + (cl - 1) % 128 + 1]).length
          = D.length + 1 := by
        simp [hD]
        omega
      omega
    rw [hcount, ← hD]
    simp
  rw [henc2]

theorem insert_change_block_bump_full_eq (h : WaveformHistory) (pre : List Nat)
    (e : BlockSpec) (gs2 : List (Nat × Nat)) (sl cl n : Nat)
    (hblocks : h.blocks = pre ++ encode_block e)
    (hpre : pre.length = n * BLOCK_SIZE)
    (hbi : h.block_index = Int.ofNat n)
    (hoff : h.block_offset = 16 + (runs_enc e.gs).length)
    (hgs : e.gs = gs2 ++ [(sl, cl)])
    (hc : 1 ≤ cl) (hr : (cl - 1) % 128 = 127)
    (hoffroom : h.block_offset < BLOCK_SIZE) :
    h.insert_change_block 1
      = (true, { h with blocks := pre ++ encode_block ⟨e.t0, e.v0, bump_last e.gs⟩, block_offset := h.block_offset + 1 }) := by
  unfold WaveformHistory.insert_change_block
  dsimp only
  rw [if_neg (by decide : ¬ ((1 : Nat) - 1 > 0))]
  rw [hbi, show (Int.ofNat n).toNat = n from rfl]
  set L := (runs_enc e.gs).length with hL
  set D := runs_enc gs2 ++ ((if sl = 0 then [] else skip_enc sl)
    ++ List.replicate ((cl - 1) / 128) 255) with hD
  have hdec : runs_enc e.gs = D ++ [128 + (cl - 1) % 128] := by
    rw [hgs, runs_enc_concat_decomp]
  have hDlen : D.length + 1 = L := by
    rw [hL, hdec]
    simp
  have hblocks2 : h.blocks = (pre ++ (beBytes 8 e.t0 ++ (beBytes 8 e.v0 ++ D)))
      ++ ((128 + (cl - 1) % 128) :: List.replicate (BLOCK_SIZE - 16 - L) 0) := by
    rw [hblocks]
    unfold encode_block
    rw [← hL, hdec]
    simp
  have hidx1 : n * BLOCK_SIZE + h.block_offset - 1
      = (pre ++ (beBytes 8 e.t0 ++ (beBytes 8 e.v0 ++ D))).length := by
    simp [beBytes_length, hpre, hoff, ← hL]
    omega
  have hgetD : h.blocks.getD (n * BLOCK_SIZE + h.block_offset - 1) 0
      = 128 + (cl - 1) % 128 := by
    rw [hblocks2, hidx1, getD_at]
  rw [hgetD, hr]
  rw [if_neg (by decide : ¬ ((128 : Nat) + 127 < 255))]
  rw [if_pos hoffroom]
  have hLlt : L < 496 := by
    rw [hoff] at hoffroom
    unfold BLOCK_SIZE at hoffroom
    omega
  have hblocks3 : h.blocks = (pre ++ (beBytes 8 e.t0 ++ (beBytes 8 e.v0 ++ runs_enc e.gs)))
      ++ ((0 : Nat) :: List.replicate (BLOCK_SIZE - 16 - (L + 1)) 0) := by
    rw [hblocks]
    unfold encode_block
    rw [← hL]
    rw [show List.replicate (BLOCK_SIZE - 16 - L) (0 : Nat)
      = (0 : Nat) :: List.replicate (BLOCK_SIZE - 16 - (L + 1)) (0 : Nat) by
      rw [show ((0 : Nat) :: List.replicate (BLOCK_SIZE - 16 - (L + 1)) (0 : Nat))
        = List.replicate (BLOCK_SIZE - 16 - (L + 1) + 1) (0 : Nat)
        from (List.replicate_succ 0 _).symm]
      congr 1
      unfold BLOCK_SIZE
      omega]
    simp
  have hidx2 : n * BLOCK_SIZE + h.block_offset
      = (pre ++ (beBytes 8 e.t0 ++ (beBytes 8 e.v0 ++ runs_enc e.gs))).length := by
    simp [beBytes_length, hpre, hoff, ← hL]
    omega
  rw [hblocks3, hidx2, set_frontier]
  have henc2 : pre ++ encode_block ⟨e.t0, e.v0, bump_last e.gs⟩
      = (pre ++ (beBytes 8 e.t0 ++ (beBytes 8 e.v0 ++ runs_enc e.gs)))
        ++ ((128 : Nat) :: List.replicate (BLOCK_SIZE - 16 - (L + 1)) 0) := by
    unfold encode_block
    rw [show (⟨e.t0, e.v0, bump_last e.gs⟩ : BlockSpec).gs = bump_last e.gs from rfl]
    rw [hgs, bump_last_concat]
    rw [runs_enc_concat_bump_full gs2 sl cl hc hr, ← hgs]
    have hcount : BLOCK_SIZE - 16 - (runs_enc e.gs ++ [128]).length
        = BLOCK_SIZE - 16 - (L + 1) := by
      have hlen3 : (runs_enc e.gs ++ [128]).length = L + 1 := by
        simp [← hL]
      omega
    rw [hcount]
    simp
  rw [henc2]

theorem insert_change_block_fail_bump_eq (h : WaveformHistory) (pre : List Nat)
    (e : BlockSpec) (gs2 : List (Nat × Nat)) (sl cl n : Nat)
    (hblocks : h.blocks = pre ++ encode_block e)
    (hpre : pre.length = n * BLOCK_SIZE)
    (hbi : h.block_index = Int.ofNat n)
    (hoff : h.block_offset = 16 + (runs_enc e.gs).length)
    (hgs : e.gs = gs2 ++ [(sl, cl)])
    (hc : 1 ≤ cl) (hr : (cl - 1) % 128 = 127)
    (hofffull : ¬ h.block_offset < BLOCK_SIZE) :
    h.insert_change_block 1 = (false, h) := by
  unfold WaveformHistory.insert_change_block
  dsimp only
  rw [if_neg (by decide : ¬ ((1 : Nat) - 1 > 0))]
  rw [hbi, show (Int.ofNat n).toNat = n from rfl]
  set L := (runs_enc e.gs).length with hL
  set D := runs_enc gs2 ++ ((if sl = 0 then [] else skip_enc sl)
    ++ List.replicate ((cl - 1) / 128) 255) with hD
  have hdec : runs_enc e.gs = D ++ [128 + (cl - 1) % 128] := by
    rw [hgs, runs_enc_concat_decomp]
  have hDlen : D.length + 1 = L := by
    rw [hL, hdec]
    simp
  have hblocks2 : h.blocks = (pre ++ (beBytes 8 e.t0 ++ (beBytes 8 e.v0 ++ D)))
      ++ ((128 + (cl - 1) % 128) :: List.replicate (BLOCK_SIZE - 16 - L) 0) := by
    rw [hblocks]
    unfold encode_block
    rw [← hL, hdec]
    simp
  have hidx1 : n * BLOCK_SIZE + h.block_offset - 1
      = (pre ++ (beBytes 8 e.t0 ++ (beBytes 8 e.v0 ++ D))).length := by
    simp [beBytes_length, hpre, hoff, ← hL]
    omega
  have hgetD : h.blocks.getD (n * BLOCK_SIZE + h.block_offset - 1) 0
      = 128 + (cl - 1) % 128 := by
    rw [hblocks2, hidx1, getD_at]
  rw [hgetD, hr]
  rw [if_neg (by decide : ¬ ((128 : Nat) + 127 < 255))]
  rw [if_neg hofffull]

theorem headD_concat_fst (gs2 : List (Nat × Nat)) (sl a b : Nat) (d : Nat × Nat) :
    ((gs2 ++ [(sl, a)]).headD d).1 = ((gs2 ++ [(sl, b)]).headD d).1 := by
  cases gs2 <;> simp

theorem runs_list_single_one (τ ν s : Nat) :
    runs_list τ ν [(s, 1)] = [⟨τ + s, ν⟩] := by
  simp only [runs_list]
  rw [show List.range 1 = [0] from rfl]
  simp

theorem runs_list_new_group (t0 v0 : Nat) (gs : List (Nat × Nat)) (sk : Nat) :
    runs_list t0 v0 (gs ++ [(sk, 1)])
      = runs_list t0 v0 gs
        ++ [⟨t0 + runs_adv_t gs + sk, v0 + runs_count gs⟩] := by
  rw [runs_list_append, runs_list_single_one]

theorem runs_list_bump (t0 v0 : Nat) (gs2 : List (Nat × Nat)) (sl cl : Nat) :
    runs_list t0 v0 (gs2 ++ [(sl, cl + 1)])
      = runs_list t0 v0 (gs2 ++ [(sl, cl)])
        ++ [⟨t0 + runs_adv_t (gs2 ++ [(sl, cl)]), v0 + runs_count (gs2 ++ [(sl, cl)])⟩] := by
  rw [runs_list_append, runs_list_append, runs_list_single_succ]
  rw [runs_adv_t_append, runs_count_append, runs_adv_t_singleton, runs_count_singleton]
  rw [List.append_assoc]
  have hp : (⟨t0 + runs_adv_t gs2 + sl + cl, v0 + runs_count gs2 + cl⟩ : WaveformHistoryIndex)
      = ⟨t0 + (runs_adv_t gs2 + (sl + cl)), v0 + (runs_count gs2 + cl)⟩ := by
    congr 1 <;> omega
  rw [hp]

/-- Appending a new block preserves the invariant, with the new change
opening the block. -/
theorem insert_block_step (h : WaveformHistory) (B : List BlockSpec) (v t : Nat)
    (P : List WaveformHistoryIndex)
    (hblocks : h.blocks = (B.map encode_block).flatten)
    (hidx : h.block_index = Int.ofNat B.length - 1)
    (hwf : ∀ e ∈ B, block_wf e)
    (hpairs : runs_pairs B = P)
    (h3 : t < 2 ^ 64) (hvt : v ≤ t) :
    hist_inv { h.insert_block t v with timestamp_index_last := Int.ofNat t }
      (B ++ [(⟨t, v, [(0, 1)]⟩ : BlockSpec)]) t (v + 1) (P ++ [⟨t, v⟩]) := by
  have hlen : h.blocks.length = B.length * BLOCK_SIZE := by
    rw [hblocks]
    exact flatten_encode_length B hwf
  have hbi : (h.block_index + 1).toNat = B.length := by
    rw [hidx, Int.ofNat_eq_natCast]
    omega
  rw [insert_block_eq h t v B.length hlen hbi]
  refine ⟨by simp, ?_, ?_, ?_, rfl, ?_, ?_, ?_, h3, by omega, ?_⟩
  · show h.blocks ++ encode_block (⟨t, v, [(0, 1)]⟩ : BlockSpec)
      = ((B ++ [(⟨t, v, [(0, 1)]⟩ : BlockSpec)]).map encode_block).flatten
    rw [hblocks]
    simp
  · show h.block_index + 1 = Int.ofNat ((B ++ [(⟨t, v, [(0, 1)]⟩ : BlockSpec)]).length - 1)
    rw [hidx, Int.ofNat_eq_natCast, Int.ofNat_eq_natCast]
    simp only [List.length_append, List.length_cons, List.length_nil]
    push_cast
    omega
  · show (17 : Nat)
      = 16 + (runs_enc ((B ++ [(⟨t, v, [(0, 1)]⟩ : BlockSpec)]).getLastD default).gs).length
    rw [List.getLastD_concat]
    rfl
  · intro e2 he2
    rcases List.mem_append.mp he2 with hm | hm
    · exact hwf e2 hm
    · simp only [List.mem_singleton] at hm
      subst hm
      refine ⟨h3, by show v < 2 ^ 64; omega, by simp, by simp, ?_, ?_⟩
      · rw [show ((⟨t, v, [(0, 1)]⟩ : BlockSpec) : BlockSpec).gs = [(0, 1)] from rfl,
          runs_enc_single_change]
        simp
      · intro g hg
        simp only [show ((⟨t, v, [(0, 1)]⟩ : BlockSpec) : BlockSpec).gs = [(0, 1)] from rfl,
          List.mem_singleton] at hg
        subst hg
        exact ⟨by omega, by norm_num⟩
  · show t + 1 = ((B ++ [(⟨t, v, [(0, 1)]⟩ : BlockSpec)]).getLastD default).t0
      + runs_adv_t ((B ++ [(⟨t, v, [(0, 1)]⟩ : BlockSpec)]).getLastD default).gs
    rw [List.getLastD_concat]
    simp [runs_adv_t]
  · show v + 1 = ((B ++ [(⟨t, v, [(0, 1)]⟩ : BlockSpec)]).getLastD default).v0
      + runs_count ((B ++ [(⟨t, v, [(0, 1)]⟩ : BlockSpec)]).getLastD default).gs
    rw [List.getLastD_concat]
    simp [runs_count]
  · rw [runs_pairs_concat, hpairs]
    congr 1

theorem headD_append_left (a b : List (Nat × Nat)) (d : Nat × Nat) (ha : a ≠ []) :
    (a ++ b).headD d = a.headD d := by
  cases a with
  | nil => exact absurd rfl ha
  | cons x xs => simp

/-- One add_change call preserves the invariant and mirrors spec_add. -/
theorem add_change_inv (h : WaveformHistory) (B : List BlockSpec) (tlast v : Nat)
    (P : List WaveformHistoryIndex) (t : Nat) (hinv : hist_inv h B tlast v P)
    (ht1 : tlast < t) (ht2 : t - tlast ≤ 2 ^ 56) (ht3 : t < 2 ^ 64) :
    hist_inv (h.add_change t v) (spec_add B tlast t v) t (v + 1) (P ++ [⟨t, v⟩]) := by
  obtain ⟨hne, hblocks, hidx, hoff, htl, hwf, htv, hvv, htlt, hvle, hpairs⟩ := hinv
  obtain ⟨B', e, rfl⟩ := (List.eq_nil_or_concat B).resolve_left hne
  simp only [List.concat_eq_append] at hne hblocks hidx hoff hwf htv hvv hpairs ⊢
  have hLast : (B' ++ [e]).getLastD default = e := List.getLastD_concat ..
  rw [hLast] at hoff htv hvv
  have hewf := hwf e (by simp)
  obtain ⟨het0, hev0, hegsne, heghead, hecap, hegroups⟩ := hewf
  obtain ⟨gs2, g, hgs⟩ := (List.eq_nil_or_concat e.gs).resolve_left hegsne
  simp only [List.concat_eq_append] at hgs
  obtain ⟨sl, cl⟩ := g
  have hcl : 1 ≤ cl := (hegroups (sl, cl) (by rw [hgs]; simp)).1
  have hpre : ((B'.map encode_block).flatten).length = B'.length * BLOCK_SIZE :=
    flatten_encode_length B' (fun x hx => hwf x (by simp [hx]))
  have hblocks' : h.blocks = (B'.map encode_block).flatten ++ encode_block e := by
    rw [hblocks]
    simp
  have hidx' : h.block_index = Int.ofNat B'.length := by
    rw [hidx]
    simp
  have hidx2 : h.block_index = Int.ofNat (B' ++ [e]).length - 1 := by
    rw [hidx']
    simp only [Int.ofNat_eq_natCast, List.length_append, List.length_cons, List.length_nil]
    push_cast
    omega
  have hvt : v ≤ t := by omega
  unfold WaveformHistory.add_change
  rw [htl, if_pos (show Int.ofNat tlast ≥ 0 from Int.natCast_nonneg tlast)]
  rw [show (Int.ofNat tlast).toNat = tlast from rfl]
  dsimp only
  unfold spec_add
  dsimp only
  rw [hLast]
  by_cases hsk : t - tlast - 1 > 0
  · obtain ⟨sk, hskeq⟩ : ∃ sk, t - tlast = sk + 1 := ⟨t - tlast - 1, by omega⟩
    rw [hskeq, Nat.add_sub_cancel]
    have hsk' : sk > 0 := by omega
    rw [if_pos hsk']
    by_cases hroom : BLOCK_SIZE - h.block_offset < (bit_length sk - 1) / 7 + 1 + 1
    · rw [insert_change_block_fail_skip_eq h sk hsk' hroom]
      dsimp only
      rw [if_neg Bool.false_ne_true]
      rw [if_pos (show BLOCK_SIZE - (16 + (runs_enc e.gs).length)
        < (skip_enc sk).length + 1 from by rw [skip_enc_length]; rw [hoff] at hroom
                                           exact hroom)]
      exact insert_block_step h (B' ++ [e]) v t P hblocks hidx2 hwf hpairs ht3 hvt
    · rw [insert_change_block_skip_eq h ((B'.map encode_block).flatten) e B'.length sk
        hblocks' hpre hidx' hoff hsk' hroom]
      dsimp only
      rw [if_pos rfl]
      rw [if_neg (show ¬ (BLOCK_SIZE - (16 + (runs_enc e.gs).length)
        < (skip_enc sk).length + 1) from by rw [skip_enc_length]; rw [hoff] at hroom
                                            exact hroom)]
      rw [replace_last_concat]
      refine ⟨by simp, ?_, ?_, ?_, rfl, ?_, ?_, ?_, ht3, by omega, ?_⟩
      · show (B'.map encode_block).flatten
            ++ encode_block ⟨e.t0, e.v0, e.gs ++ [(sk, 1)]⟩
          = ((B' ++ [(⟨e.t0, e.v0, e.gs ++ [(sk, 1)]⟩ : BlockSpec)]).map
              encode_block).flatten
        simp
      · show h.block_index
          = Int.ofNat ((B' ++ [(⟨e.t0, e.v0, e.gs ++ [(sk, 1)]⟩ : BlockSpec)]).length - 1)
        rw [hidx']
        simp
      · show h.block_offset + (skip_enc sk).length + 1
          = 16 + (runs_enc ((B' ++ [(⟨e.t0, e.v0, e.gs ++ [(sk, 1)]⟩ : BlockSpec)]).getLastD
              default).gs).length
        rw [List.getLastD_concat]
        show _ = 16 + (runs_enc (e.gs ++ [(sk, 1)])).length
        rw [runs_enc_append, runs_enc_singleton, if_neg (by omega : ¬ sk = 0)]
        rw [hoff, show change_run_bytes 1 = [128] from rfl]
        simp
        omega
      · intro e2 he2
        rcases List.mem_append.mp he2 with hm | hm
        · exact hwf e2 (List.mem_append.mpr (Or.inl hm))
        · simp only [List.mem_singleton] at hm
          subst hm
          refine ⟨het0, hev0, by simp, ?_, ?_, ?_⟩
          · show ((e.gs ++ [(sk, 1)]).headD (0, 0)).1 = 0
            rw [headD_append_left e.gs [(sk, 1)] (0, 0) hegsne]
            exact heghead
          · show (runs_enc (e.gs ++ [(sk, 1)])).length ≤ 496
            rw [runs_enc_append, runs_enc_singleton, if_neg (by omega : ¬ sk = 0)]
            rw [hoff] at hroom
            unfold BLOCK_SIZE at hroom
            simp [show change_run_bytes 1 = [128] from rfl, skip_enc_length]
            omega
          · intro g hg
            rcases List.mem_append.mp hg with hg | hg
            · exact hegroups g hg
            · simp only [List.mem_singleton] at hg
              subst hg
              exact ⟨by omega, by omega⟩
      · rw [List.getLastD_concat]
        show t + 1 = (⟨e.t0, e.v0, e.gs ++ [(sk, 1)]⟩ : BlockSpec).t0
          + runs_adv_t (e.gs ++ [(sk, 1)])
        rw [show (⟨e.t0, e.v0, e.gs ++ [(sk, 1)]⟩ : BlockSpec).t0 = e.t0 from rfl]
        rw [runs_adv_t_append, runs_adv_t_singleton]
        omega
      · rw [List.getLastD_concat]
        show v + 1 = (⟨e.t0, e.v0, e.gs ++ [(sk, 1)]⟩ : BlockSpec).v0
          + runs_count (e.gs ++ [(sk, 1)])
        rw [show (⟨e.t0, e.v0, e.gs ++ [(sk, 1)]⟩ : BlockSpec).v0 = e.v0 from rfl]
        rw [runs_count_append, runs_count_singleton]
        omega
      · rw [runs_pairs_concat]
        show runs_pairs B' ++ runs_list e.t0 e.v0 (e.gs ++ [(sk, 1)]) = P ++ [⟨t, v⟩]
        rw [runs_list_new_group, ← List.append_assoc]
        rw [show runs_pairs B' ++ runs_list e.t0 e.v0 e.gs = P from by
          rw [← runs_pairs_concat]; exact hpairs]
        have hp : (⟨e.t0 + runs_adv_t e.gs + sk, e.v0 + runs_count e.gs⟩
            : WaveformHistoryIndex) = ⟨t, v⟩ := by
          congr 1 <;> omega
        rw [hp]
  · rw [if_neg hsk]
    have ht1' : t - tlast = 1 := by omega
    rw [ht1']
    have hlastbyte : (runs_enc e.gs).getLastD 0 = 128 + (cl - 1) % 128 := by
      rw [hgs]
      exact runs_enc_concat_getLastD ..
    rw [hlastbyte]
    by_cases hr : (cl - 1) % 128 < 127
    · rw [insert_change_block_bump_small_eq h ((B'.map encode_block).flatten) e gs2 sl cl
        B'.length hblocks' hpre hidx' hoff hgs hcl hr]
      dsimp only
      rw [if_pos rfl]
      rw [if_pos (by omega : 128 + (cl - 1) % 128 < 255)]
      rw [replace_last_concat]
      refine ⟨by simp, ?_, ?_, ?_, rfl, ?_, ?_, ?_, ht3, by omega, ?_⟩
      · show (B'.map encode_block).flatten ++ encode_block ⟨e.t0, e.v0, bump_last e.gs⟩
          = ((B' ++ [(⟨e.t0, e.v0, bump_last e.gs⟩ : BlockSpec)]).map encode_block).flatten
        simp
      · show h.block_index
          = Int.ofNat ((B' ++ [(⟨e.t0, e.v0, bump_last e.gs⟩ : BlockSpec)]).length - 1)
        rw [hidx']
        simp
      · show h.block_offset
          = 16 + (runs_enc ((B' ++ [(⟨e.t0, e.v0, bump_last e.gs⟩ : BlockSpec)]).getLastD
              default).gs).length
        rw [List.getLastD_concat]
        show h.block_offset = 16 + (runs_enc (bump_last e.gs)).length
        rw [hgs, bump_last_concat, runs_enc_concat_bump_small gs2 sl cl hcl hr]
        rw [hoff, hgs, runs_enc_concat_decomp]
        simp
      · intro e2 he2
        rcases List.mem_append.mp he2 with hm | hm
        · exact hwf e2 (List.mem_append.mpr (Or.inl hm))
        · simp only [List.mem_singleton] at hm
          subst hm
          refine ⟨het0, hev0, ?_, ?_, ?_, ?_⟩
          · show bump_last e.gs ≠ []
            rw [hgs, bump_last_concat]
            simp
          · show ((bump_last e.gs).headD (0, 0)).1 = 0
            rw [hgs, bump_last_concat, headD_concat_fst gs2 sl (cl + 1) cl (0, 0), ← hgs]
            exact heghead
          · show (runs_enc (bump_last e.gs)).length ≤ 496
            rw [hgs, bump_last_concat, runs_enc_concat_bump_small gs2 sl cl hcl hr]
            have hc2 := hecap
            rw [hgs, runs_enc_concat_decomp] at hc2
            simp at hc2 ⊢
            omega
          · intro g hg
            rw [hgs, bump_last_concat] at hg
            rcases List.mem_append.mp hg with hg | hg
            · exact hegroups g (by rw [hgs]; exact List.mem_append.mpr (Or.inl hg))
            · simp only [List.mem_singleton] at hg
              subst hg
              have hold := hegroups (sl, cl) (by rw [hgs]; simp)
              exact ⟨by omega, hold.2⟩
      · rw [List.getLastD_concat]
        show t + 1 = (⟨e.t0, e.v0, bump_last e.gs⟩ : BlockSpec).t0
          + runs_adv_t (bump_last e.gs)
        rw [show (⟨e.t0, e.v0, bump_last e.gs⟩ : BlockSpec).t0 = e.t0 from rfl]
        rw [hgs, bump_last_concat, runs_adv_t_append, runs_adv_t_singleton]
        rw [hgs, runs_adv_t_append, runs_adv_t_singleton] at htv
        omega
      · rw [List.getLastD_concat]
        show v + 1 = (⟨e.t0, e.v0, bump_last e.gs⟩ : BlockSpec).v0
          + runs_count (bump_last e.gs)
        rw [show (⟨e.t0, e.v0, bump_last e.gs⟩ : BlockSpec).v0 = e.v0 from rfl]
        rw [hgs, bump_last_concat, runs_count_append, runs_count_singleton]
        rw [hgs, runs_count_append, runs_count_singleton] at hvv
        omega
      · rw [runs_pairs_concat]
        show runs_pairs B' ++ runs_list e.t0 e.v0 (bump_last e.gs) = P ++ [⟨t, v⟩]
        rw [hgs, bump_last_concat, runs_list_bump, ← List.append_assoc]
        rw [show runs_pairs B' ++ runs_list e.t0 e.v0 (gs2 ++ [(sl, cl)]) = P from by
          rw [← hgs, ← runs_pairs_concat]; exact hpairs]
        have hp : (⟨e.t0 + runs_adv_t (gs2 ++ [(sl, cl)]),
            e.v0 + runs_count (gs2 ++ [(sl, cl)])⟩ : WaveformHistoryIndex) = ⟨t, v⟩ := by
          rw [← hgs]
          congr 1 <;> omega
        rw [hp]
    · by_cases hoffroom : h.block_offset < BLOCK_SIZE
      · rw [insert_change_block_bump_full_eq h ((B'.map encode_block).flatten) e gs2 sl cl
          B'.length hblocks' hpre hidx' hoff hgs hcl (by omega) hoffroom]
        dsimp only
        rw [if_pos rfl]
        rw [if_neg (by omega : ¬ (128 + (cl - 1) % 128 < 255))]
        rw [if_pos (show 16 + (runs_enc e.gs).length < BLOCK_SIZE from by
          rw [← hoff]; exact hoffroom)]
        rw [replace_last_concat]
        refine ⟨by simp, ?_, ?_, ?_, rfl, ?_, ?_, ?_, ht3, by omega, ?_⟩
        · show (B'.map encode_block).flatten ++ encode_block ⟨e.t0, e.v0, bump_last e.gs⟩
            = ((B' ++ [(⟨e.t0, e.v0, bump_last e.gs⟩ : BlockSpec)]).map encode_block).flatten
          simp
        · show h.block_index
            = Int.ofNat ((B' ++ [(⟨e.t0, e.v0, bump_last e.gs⟩ : BlockSpec)]).length - 1)
          rw [hidx']
          simp
        · show h.block_offset + 1
            = 16 + (runs_enc ((B' ++ [(⟨e.t0, e.v0, bump_last e.gs⟩ : BlockSpec)]).getLastD
                default).gs).length
          rw [List.getLastD_concat]
          show h.block_offset + 1 = 16 + (runs_enc (bump_last e.gs)).length
          rw [hgs, bump_last_concat, runs_enc_concat_bump_full gs2 sl cl hcl (by omega),
            ← hgs, hoff]
          simp
          omega
        · intro e2 he2
          rcases List.mem_append.mp he2 with hm | hm
          · exact hwf e2 (List.mem_append.mpr (Or.inl hm))
          · simp only [List.mem_singleton] at hm
            subst hm
            refine ⟨het0, hev0, ?_, ?_, ?_, ?_⟩
            · show bump_last e.gs ≠ []
              rw [hgs, bump_last_concat]
              simp
            · show ((bump_last e.gs).headD (0, 0)).1 = 0
              rw [hgs, bump_last_concat, headD_concat_fst gs2 sl (cl + 1) cl (0, 0), ← hgs]
              exact heghead
            · show (runs_enc (bump_last e.gs)).length ≤ 496
              rw [hgs, bump_last_concat, runs_enc_concat_bump_full gs2 sl cl hcl (by omega),
                ← hgs]
              rw [hoff] at hoffroom
              unfold BLOCK_SIZE at hoffroom
              simp
              omega
            · intro g hg
              rw [hgs, bump_last_concat] at hg
              rcases List.mem_append.mp hg with hg | hg
              · exact hegroups g (by rw [hgs]; exact List.mem_append.mpr (Or.inl hg))
              · simp only [List.mem_singleton] at hg
                subst hg
                have hold := hegroups (sl, cl) (by rw [hgs]; simp)
                exact ⟨by omega, hold.2⟩
        · rw [List.getLastD_concat]
          show t + 1 = (⟨e.t0, e.v0, bump_last e.gs⟩ : BlockSpec).t0
            + runs_adv_t (bump_last e.gs)
          rw [show (⟨e.t0, e.v0, bump_last e.gs⟩ : BlockSpec).t0 = e.t0 from rfl]
          rw [hgs, bump_last_concat, runs_adv_t_append, runs_adv_t_singleton]
          rw [hgs, runs_adv_t_append, runs_adv_t_singleton] at htv
          omega
        · rw [List.getLastD_concat]
          show v + 1 = (⟨e.t0, e.v0, bump_last e.gs⟩ : BlockSpec).v0
            + runs_count (bump_last e.gs)
          rw [show (⟨e.t0, e.v0, bump_last e.gs⟩ : BlockSpec).v0 = e.v0 from rfl]
          rw [hgs, bump_last_concat, runs_count_append, runs_count_singleton]
          rw [hgs, runs_count_append, runs_count_singleton] at hvv
          omega
        · rw [runs_pairs_concat]
          show runs_pairs B' ++ runs_list e.t0 e.v0 (bump_last e.gs) = P ++ [⟨t, v⟩]
          rw [hgs, bump_last_concat, runs_list_bump, ← List.append_assoc]
          rw [show runs_pairs B' ++ runs_list e.t0 e.v0 (gs2 ++ [(sl, cl)]) = P from by
            rw [← hgs, ← runs_pairs_concat]; exact hpairs]
          have hp : (⟨e.t0 + runs_adv_t (gs2 ++ [(sl, cl)]),
              e.v0 + runs_count (gs2 ++ [(sl, cl)])⟩ : WaveformHistoryIndex) = ⟨t, v⟩ := by
            rw [← hgs]
            congr 1 <;> omega
          rw [hp]
      · rw [insert_change_block_fail_bump_eq h ((B'.map encode_block).flatten) e gs2 sl cl
          B'.length hblocks' hpre hidx' hoff hgs hcl (by omega) hoffroom]
        dsimp only
        rw [if_neg Bool.false_ne_true]
        rw [if_neg (by omega : ¬ (128 + (cl - 1) % 128 < 255))]
        rw [if_neg (show ¬ (16 + (runs_enc e.gs).length < BLOCK_SIZE) from by
          rw [← hoff]; exact hoffroom)]
        exact insert_block_step h (B' ++ [e]) v t P hblocks hidx2 hwf hpairs ht3 hvt

/-- The first add_change on a fresh history establishes the invariant. -/
theorem first_add_inv (t : Nat) (h3 : t < 2 ^ 64) :
    hist_inv (WaveformHistory.new.add_change t 0) [⟨t, 0, [(0, 1)]⟩] t 1 [⟨t, 0⟩] := by
  have hstep := insert_block_step WaveformHistory.new [] 0 t [] rfl (by decide) (by simp)
    rfl h3 (by omega)
  have hcode : WaveformHistory.new.add_change t 0
      = { WaveformHistory.new.insert_block t 0 with timestamp_index_last := Int.ofNat t } := by
    unfold WaveformHistory.add_change
    dsimp only
    rw [show WaveformHistory.new.timestamp_index_last = -1 from rfl]
    rw [if_neg (by decide : ¬ ((-1 : Int) ≥ 0))]
  rw [hcode]
  simpa using hstep

/-- Every valid sequence of further changes preserves the invariant and
is mirrored by spec_of_go. -/
theorem add_changes_inv : ∀ (ts : List Nat) (h : WaveformHistory) (B : List BlockSpec)
    (tlast v : Nat) (P : List WaveformHistoryIndex),
    hist_inv h B tlast v P → ts_ok tlast ts = true →
    hist_inv (add_changes h v ts) (spec_of_go tlast v B ts) (ts.getLastD tlast)
      (v + ts.length) (P ++ enum_pairs v ts) := by
  intro ts
  induction ts with
  | nil =>
    intro h B tlast v P hinv _
    simpa [add_changes, spec_of_go, enum_pairs] using hinv
  | cons t rest ih =>
    intro h B tlast v P hinv hok
    simp only [ts_ok, Bool.and_eq_true, decide_eq_true_eq] at hok
    obtain ⟨⟨⟨h1, h2⟩, h3⟩, hok2⟩ := hok
    have hstep := add_change_inv h B tlast v P t hinv h1 h2 (by omega)
    have hrec := ih (h.add_change t v) (spec_add B tlast t v) t (v + 1) (P ++ [⟨t, v⟩])
      hstep hok2
    show hist_inv (add_changes (h.add_change t v) (v + 1) rest)
      (spec_of_go t (v + 1) (spec_add B tlast t v) rest)
      ((t :: rest).getLastD tlast) (v + (t :: rest).length) (P ++ enum_pairs v (t :: rest))
    rw [List.getLastD_cons]
    rw [show v + (t :: rest).length = (v + 1) + rest.length by simp; omega]
    rw [show P ++ enum_pairs v (t :: rest) = (P ++ [⟨t, v⟩]) ++ enum_pairs (v + 1) rest by
      simp [enum_pairs]]
    exact hrec

theorem enum_foldl_eq_add_changes : ∀ (ts : List Nat) (i : Nat) (h : WaveformHistory),
    (List.enumFrom i ts).foldl (fun h p => h.add_change p.2 p.1) h = add_changes h i ts := by
  intro ts
  induction ts with
  | nil => intro i h; rfl
  | cons t rest ih =>
    intro i h
    show (List.enumFrom (i + 1) rest).foldl (fun h p => h.add_change p.2 p.1)
      (h.add_change t i) = _
    rw [ih (i + 1) (h.add_change t i)]
    rfl

theorem build_history_eq (ts : List Nat) :
    build_history ts = add_changes WaveformHistory.new 0 ts := by
  unfold build_history
  exact enum_foldl_eq_add_changes ts 0 WaveformHistory.new

theorem flatMap_congr_mem {α β : Type} (l : List α) (f g : α → List β)
    (h : ∀ a ∈ l, f a = g a) : l.flatMap f = l.flatMap g := by
  induction l with
  | nil => rfl
  | cons x xs ih =>
    simp only [List.flatMap_cons]
    rw [h x (by simp), ih (fun a ha => h a (by simp [ha]))]

/-- Iterating a history in invariant shape yields exactly the decoded
pairs of its block specifications. -/
theorem blocks_flatMap : ∀ (B : List BlockSpec) (bs : List Nat),
    bs = (B.map encode_block).flatten → (∀ e ∈ B, block_wf e) →
    (List.range B.length).flatMap
      (fun b => block_iter_list ((bs.drop (b * BLOCK_SIZE)).take BLOCK_SIZE)
        (block_init_state ((bs.drop (b * BLOCK_SIZE)).take BLOCK_SIZE)))
      = runs_pairs B := by
  intro B
  induction B with
  | nil =>
    intro bs _ _
    simp [runs_pairs]
  | cons e B ih =>
    intro bs hbs hwf
    obtain ⟨het0, hev0, hegsne, heghead, hecap, hegroups⟩ := hwf e (by simp)
    have helen : (encode_block e).length = BLOCK_SIZE := encode_block_length e hecap
    have hbs2 : bs = encode_block e ++ (B.map encode_block).flatten := by
      rw [hbs]
      simp
    show (List.range (B.length + 1)).flatMap _ = _
    rw [List.range_succ_eq_map]
    rw [List.flatMap_cons, List.flatMap_map]
    have hfirst : (bs.drop (0 * BLOCK_SIZE)).take BLOCK_SIZE = encode_block e := by
      rw [hbs2]
      simp only [Nat.zero_mul, List.drop_zero]
      rw [List.take_left' helen]
    rw [hfirst]
    have hdec : block_iter_list (encode_block e) (block_init_state (encode_block e))
        = runs_list e.t0 e.v0 e.gs :=
      block_iter_encode e het0 hev0 hecap hegroups
    rw [hdec]
    have htail : ∀ b : Nat, (bs.drop (Nat.succ b * BLOCK_SIZE)).take BLOCK_SIZE
        = (((B.map encode_block).flatten.drop (b * BLOCK_SIZE)).take BLOCK_SIZE) := by
      intro b
      rw [hbs2]
      rw [show Nat.succ b * BLOCK_SIZE = (encode_block e).length + b * BLOCK_SIZE by
        rw [helen, Nat.succ_mul]; ring]
      rw [show (encode_block e ++ (B.map encode_block).flatten).drop
          ((encode_block e).length + b * BLOCK_SIZE)
        = ((encode_block e ++ (B.map encode_block).flatten).drop
            (encode_block e).length).drop (b * BLOCK_SIZE) by
        rw [List.drop_drop]]
      rw [List.drop_left]
    rw [show runs_pairs (e :: B) = runs_list e.t0 e.v0 e.gs ++ runs_pairs B from by
      simp [runs_pairs]]
    congr 1
    rw [← ih ((B.map encode_block).flatten) rfl (fun x hx => hwf x (by simp [hx]))]
    apply flatMap_congr_mem
    intro b _
    rw [htail b]

theorem into_iter_of_inv (h : WaveformHistory) (B : List BlockSpec)
    (hblocks : h.blocks = (B.map encode_block).flatten) (hwf : ∀ e ∈ B, block_wf e) :
    h.into_iter_list = runs_pairs B := by
  unfold WaveformHistory.into_iter_list
  have hcount : h.get_block_count = B.length := by
    unfold WaveformHistory.get_block_count
    rw [hblocks, flatten_encode_length B hwf]
    unfold BLOCK_SIZE
    omega
  rw [hcount]
  have hget : ∀ b : Nat, h.get_block b = ((h.blocks.drop (b * BLOCK_SIZE)).take BLOCK_SIZE) :=
    fun b => rfl
  exact blocks_flatMap B h.blocks hblocks hwf

theorem enum_pairs_enumFrom : ∀ (ts : List Nat) (v : Nat),
    enum_pairs v ts = (List.enumFrom v ts).map (fun p => (⟨p.2, p.1⟩ : WaveformHistoryIndex)) := by
  intro ts
  induction ts with
  | nil => intro v; rfl
  | cons t rest ih =>
    intro v
    show (⟨t, v⟩ : WaveformHistoryIndex) :: enum_pairs (v + 1) rest = _
    rw [show List.enumFrom v (t :: rest) = (v, t) :: List.enumFrom (v + 1) rest from rfl]
    rw [List.map_cons, ih (v + 1)]

/-- Iterate of a valid built history equals the appended pairs. -/
theorem build_then_iterate (ts : List Nat) (hts : ts_valid ts = true) :
    (build_history ts).into_iter_list = enum_pairs 0 ts := by
  cases ts with
  | nil => rfl
  | cons t rest =>
    simp only [ts_valid, Bool.and_eq_true, decide_eq_true_eq] at hts
    obtain ⟨h3, hok⟩ := hts
    rw [build_history_eq]
    show (add_changes (WaveformHistory.new.add_change t 0) 1 rest).into_iter_list = _
    have hinv := add_changes_inv rest (WaveformHistory.new.add_change t 0)
      [⟨t, 0, [(0, 1)]⟩] t 1 [⟨t, 0⟩] (first_add_inv t (by omega)) hok
    rw [into_iter_of_inv _ _ hinv.blocks_eq hinv.wf, hinv.pairs_eq]
    simp [enum_pairs]

/-- C1 (amended): for a non-empty strictly increasing timestamp
sequence whose values stay below 2 to the 63 and whose consecutive gaps
are at most 2 to the 56, building a history with add_change(t_i, i) and
iterating it yields exactly the pairs (t_i, i) in order.  The amendment
restricts the gaps: the claim as stated fails for a gap above 2 to the
56, because the writer emits base-128 digits of the whole skip while
the reader flushes the partial sum into the running total after every
eight skip bytes, so a ninth digit is added to a sum already holding
the top digits instead of shifting them further (c1_counterexample).
The remaining bounds confine the sequence to where the source neither
panics nor wraps: below 2 to the 63 the isize timestamp register never
goes negative, and a non-empty sequence is needed because the source's
into_iter panics slicing block 0 of a change-free history. -/
theorem c1_append_then_iterate (ts : List Nat) (hts : ts_valid ts = true)
    (hne : ts ≠ []) :
    (build_history ts).into_iter_list
      = ts.enum.map (fun p => (⟨p.2, p.1⟩ : WaveformHistoryIndex)) := by
  rw [show ts.enum = List.enumFrom 0 ts from rfl, ← enum_pairs_enumFrom]
  exact build_then_iterate ts hts

/-- Witness for C1 at ts = [3, 5, 6]. -/
theorem c1_append_then_iterate_witness :
    (ts_valid [3, 5, 6] = true ∧ ([3, 5, 6] : List Nat) ≠ []) ∧
    (build_history [3, 5, 6]).into_iter_list
      = [3, 5, 6].enum.map (fun p => (⟨p.2, p.1⟩ : WaveformHistoryIndex)) :=
  ⟨⟨by decide, by decide⟩, c1_append_then_iterate [3, 5, 6] (by decide) (by decide)⟩

/-- C1 counterexample: the timestamps 0 and 2 ^ 56 + 1 are strictly
increasing, yet iterating the built history does not return the second
pair at 2 ^ 56 + 1; the decoded timestamp is 2 ^ 49 + 1, because the
reader flushes the first eight skip bytes into the running total and
then adds the ninth digit to it without a further shift. -/
theorem c1_counterexample :
    (0 : Nat) < 2 ^ 56 + 1 ∧
    (build_history [0, 2 ^ 56 + 1]).into_iter_list
      ≠ [⟨0, 0⟩, ⟨2 ^ 56 + 1, 1⟩] ∧
    (build_history [0, 2 ^ 56 + 1]).into_iter_list = [⟨0, 0⟩, ⟨2 ^ 49 + 1, 1⟩] := by
  refine ⟨by norm_num, by decide, by decide⟩

/-! Header and ordering facts used by the search theorems. -/

theorem encode_block_t0 (e : BlockSpec) (ht : e.t0 < 2 ^ 64) :
    get_timestamp_index (encode_block e) = e.t0 := by
  unfold get_timestamp_index encode_block
  rw [List.append_assoc, List.append_assoc]
  rw [List.take_left' (by rw [beBytes_length])]
  rw [beVal_beBytes]
  exact Nat.mod_eq_of_lt (by simpa using ht)

theorem get_block_of_blocks : ∀ (B : List BlockSpec) (bs : List Nat) (i : Nat),
    bs = (B.map encode_block).flatten → (∀ e ∈ B, block_wf e) → i < B.length →
    (bs.drop (i * BLOCK_SIZE)).take BLOCK_SIZE = encode_block (B.getD i default) := by
  intro B
  induction B with
  | nil => intro bs i _ _ hi; simp at hi
  | cons e B ih =>
    intro bs i hbs hwf hi
    have helen : (encode_block e).length = BLOCK_SIZE :=
      encode_block_length e (hwf e (by simp)).2.2.2.2.1
    have hbs2 : bs = encode_block e ++ (B.map encode_block).flatten := by
      rw [hbs]
      simp
    cases i with
    | zero =>
      rw [hbs2]
      simp only [Nat.zero_mul, List.drop_zero]
      rw [List.take_left' helen]
      rfl
    | succ i =>
      have hdrop : bs.drop (Nat.succ i * BLOCK_SIZE)
          = ((B.map encode_block).flatten).drop (i * BLOCK_SIZE) := by
        rw [hbs2]
        rw [show Nat.succ i * BLOCK_SIZE = (encode_block e).length + i * BLOCK_SIZE by
          rw [helen, Nat.succ_mul]; ring]
        rw [show (encode_block e ++ (B.map encode_block).flatten).drop
            ((encode_block e).length + i * BLOCK_SIZE)
          = ((encode_block e ++ (B.map encode_block).flatten).drop
              (encode_block e).length).drop (i * BLOCK_SIZE) by rw [List.drop_drop]]
        rw [List.drop_left]
      rw [hdrop]
      rw [ih ((B.map encode_block).flatten) i rfl (fun x hx => hwf x (by simp [hx]))
        (by simpa using hi)]
      rfl

theorem runs_list_lower : ∀ (gs : List (Nat × Nat)) (t0 v0 : Nat),
    ∀ p ∈ runs_list t0 v0 gs, t0 ≤ p.timestamp_index := by
  intro gs
  induction gs with
  | nil => intro t0 v0 p hp; simp [runs_list] at hp
  | cons g gs ih =>
    intro t0 v0 p hp
    rw [show runs_list t0 v0 (g :: gs)
      = (List.range g.2).map (fun i => ⟨t0 + g.1 + i, v0 + i⟩)
        ++ runs_list (t0 + g.1 + g.2) (v0 + g.2) gs from rfl] at hp
    rcases List.mem_append.mp hp with hm | hm
    · obtain ⟨i, _, hi⟩ := List.mem_map.mp hm
      rw [← hi]
      show t0 ≤ t0 + g.1 + i
      omega
    · have := ih (t0 + g.1 + g.2) (v0 + g.2) p hm
      omega

theorem runs_list_head_eq (e : BlockSpec) (hwf : block_wf e) :
    ∃ tl, runs_list e.t0 e.v0 e.gs = (⟨e.t0, e.v0⟩ : WaveformHistoryIndex) :: tl := by
  obtain ⟨_, _, hne, hhead, _, hgroups⟩ := hwf
  cases hgs : e.gs with
  | nil => exact absurd hgs hne
  | cons g rest =>
    have hc : 1 ≤ g.2 := (hgroups g (by rw [hgs]; simp)).1
    have hg1 : g.1 = 0 := by
      rw [hgs] at hhead
      simpa using hhead
    have hsplit : runs_list e.t0 e.v0 (g :: rest)
        = (List.range g.2).map (fun i => ⟨e.t0 + g.1 + i, e.v0 + i⟩)
          ++ runs_list (e.t0 + g.1 + g.2) (e.v0 + g.2) rest := rfl
    rw [hsplit, show g.2 = g.2 - 1 + 1 by omega, List.range_succ_eq_map]
    rw [List.map_cons, List.cons_append]
    refine ⟨(List.range (g.2 - 1)).map
      ((fun i => (⟨e.t0 + g.1 + i, e.v0 + i⟩ : WaveformHistoryIndex)) ∘ Nat.succ)
      ++ runs_list (e.t0 + g.1 + (g.2 - 1 + 1)) (e.v0 + (g.2 - 1 + 1)) rest, ?_⟩
    congr 1
    · rw [hg1]
      simp
    · rw [List.map_map]

theorem enum_pairs_lower : ∀ (ts : List Nat) (tlast v : Nat), ts_ok tlast ts = true →
    ∀ p ∈ enum_pairs v ts, tlast < p.timestamp_index := by
  intro ts
  induction ts with
  | nil => intro tlast v _ p hp; simp [enum_pairs] at hp
  | cons t rest ih =>
    intro tlast v hok p hp
    simp only [ts_ok, Bool.and_eq_true, decide_eq_true_eq] at hok
    obtain ⟨⟨⟨h1, _⟩, _⟩, hok2⟩ := hok
    rw [show enum_pairs v (t :: rest) = ⟨t, v⟩ :: enum_pairs (v + 1) rest from rfl] at hp
    rcases List.mem_cons.mp hp with hm | hm
    · rw [hm]
      exact h1
    · have := ih t (v + 1) hok2 p hm
      omega

theorem enum_pairs_pairwise : ∀ (ts : List Nat) (tlast v : Nat), ts_ok tlast ts = true →
    List.Pairwise (fun a b : WaveformHistoryIndex =>
      a.timestamp_index < b.timestamp_index) (enum_pairs v ts) := by
  intro ts
  induction ts with
  | nil => intro tlast v _; simp [enum_pairs]
  | cons t rest ih =>
    intro tlast v hok
    simp only [ts_ok, Bool.and_eq_true, decide_eq_true_eq] at hok
    obtain ⟨⟨⟨h1, _⟩, _⟩, hok2⟩ := hok
    rw [show enum_pairs v (t :: rest) = ⟨t, v⟩ :: enum_pairs (v + 1) rest from rfl]
    refine List.pairwise_cons.mpr ⟨?_, ih t (v + 1) hok2⟩
    intro p hp
    exact enum_pairs_lower rest t (v + 1) hok2 p hp

theorem runs_pairs_append (a b : List BlockSpec) :
    runs_pairs (a ++ b) = runs_pairs a ++ runs_pairs b := by
  simp [runs_pairs]

/-- Three-way decomposition of the decoded pairs around block i. -/
theorem runs_pairs_split (B : List BlockSpec) (i : Nat) (hi : i < B.length) :
    runs_pairs B = runs_pairs (B.take i)
      ++ (runs_list (B.getD i default).t0 (B.getD i default).v0 (B.getD i default).gs
        ++ runs_pairs (B.drop (i + 1))) := by
  conv_lhs => rw [show B = B.take i ++ B.drop i from (List.take_append_drop i B).symm]
  rw [runs_pairs_append]
  congr 1
  rw [List.drop_eq_getElem_cons hi]
  rw [show runs_pairs (B[i] :: B.drop (i + 1))
    = runs_list B[i].t0 B[i].v0 B[i].gs ++ runs_pairs (B.drop (i + 1)) from by
    simp only [runs_pairs, List.map_cons, List.flatten_cons]]
  have hgd : B.getD i default = B[i] := by
    rw [List.getD_eq_getElem?_getD, List.getElem?_eq_getElem hi]
    rfl
  rw [hgd]

/-- The Before-mode binary search over block headers returns the last
block whose header is at or below t. -/
theorem search_block_go_before (h : WaveformHistory) (t n : Nat)
    (hdrm : ∀ i j : Nat, i < j → j < n →
      get_timestamp_index (h.get_block i) < get_timestamp_index (h.get_block j)) :
    ∀ (fuel start end_ : Nat), end_ < n → start ≤ end_ + 1 → end_ + 1 - start < fuel →
      (∀ i, i < start → get_timestamp_index (h.get_block i) ≤ t) →
      (start = 0 → get_timestamp_index (h.get_block 0) ≤ t) →
      (∀ j, end_ < j → j < n → t < get_timestamp_index (h.get_block j)) →
      ∃ m, search_block_go h t .Before fuel start end_ = .ok (some m) ∧ m < n ∧
        get_timestamp_index (h.get_block m) ≤ t ∧
        (∀ j, m < j → j < n → t < get_timestamp_index (h.get_block j)) := by
  intro fuel
  induction fuel with
  | zero =>
    intro start end_ _ _ h3 _ _ _
    omega
  | succ fuel ih =>
    intro start end_ hend hse hfuel hbelow h0 habove
    simp only [search_block_go]
    by_cases hle : start ≤ end_
    · rw [if_pos hle]
      have hmid_ge : start ≤ (start + end_) / 2 := by omega
      have hmid_le : (start + end_) / 2 ≤ end_ := by omega
      by_cases hlt : t < get_timestamp_index (h.get_block ((start + end_) / 2))
      · rw [if_pos hlt]
        have hmid0 : ¬ (start + end_) / 2 = 0 := by
          intro hz
          have hs0 : start = 0 := by omega
          have := h0 hs0
          rw [hz] at hlt
          omega
        rw [if_neg hmid0]
        obtain ⟨m, hres, hm1, hm2, hm3⟩ := ih start ((start + end_) / 2 - 1)
          (by omega) (by omega) (by omega) hbelow h0
          (by
            intro j hj hjn
            rcases Nat.lt_or_ge ((start + end_) / 2) j with hc | hc
            · have := hdrm ((start + end_) / 2) j hc hjn
              omega
            · have hjeq : j = (start + end_) / 2 := by omega
              rw [hjeq]
              exact hlt)
        exact ⟨m, hres, hm1, hm2, hm3⟩
      · rw [if_neg hlt]
        by_cases hgt : t > get_timestamp_index (h.get_block ((start + end_) / 2))
        · rw [if_pos hgt]
          obtain ⟨m, hres, hm1, hm2, hm3⟩ := ih ((start + end_) / 2 + 1) end_
            hend (by omega) (by omega)
            (by
              intro i hi
              rcases Nat.lt_or_ge i ((start + end_) / 2) with hc | hc
              · have := hdrm i ((start + end_) / 2) hc (by omega)
                omega
              · have hieq : i = (start + end_) / 2 := by omega
                rw [hieq]
                omega)
            (by intro hz; omega) habove
          exact ⟨m, hres, hm1, hm2, hm3⟩
        · rw [if_neg hgt]
          refine ⟨(start + end_) / 2, rfl, by omega, by omega, ?_⟩
          intro j hj hjn
          have := hdrm ((start + end_) / 2) j hj hjn
          omega
    · rw [if_neg hle]
      refine ⟨end_, rfl, hend, hbelow end_ (by omega), habove⟩

/-- search_timestamp_block_index with mode Before on a sorted non-empty
history returns the last block whose header is at or below t. -/
theorem search_block_index_before (h : WaveformHistory) (t n : Nat)
    (hn : h.get_block_count = n) (hn1 : 1 ≤ n)
    (hdrm : ∀ i j : Nat, i < j → j < n →
      get_timestamp_index (h.get_block i) < get_timestamp_index (h.get_block j))
    (h0 : get_timestamp_index (h.get_block 0) ≤ t) :
    ∃ m, h.search_timestamp_block_index t .Before = .ok (some m) ∧ m < n ∧
      get_timestamp_index (h.get_block m) ≤ t ∧
      (∀ j, m < j → j < n → t < get_timestamp_index (h.get_block j)) := by
  unfold WaveformHistory.search_timestamp_block_index
  rw [hn]
  rw [if_neg (by omega : ¬ n = 0)]
  dsimp only
  rw [if_neg (Nat.not_lt.mpr h0)]
  by_cases hbig : get_timestamp_index (h.get_block (n - 1)) + MAX_BLOCK_CHANGES < t
  · rw [if_pos hbig]
    refine ⟨n - 1, rfl, by omega, by omega, ?_⟩
    intro j hj hjn
    omega
  · rw [if_neg hbig]
    exact search_block_go_before h t n hdrm (n + 1) 0 (n - 1) (by omega) (by omega)
      (by omega) (fun i hi => absurd hi (by omega)) (fun _ => h0)
      (fun j hj hjn => by omega)

/-- The seek loop agrees with the reference walk of the decoded item
list, both in its result and in the items remaining afterwards. -/
theorem seek_index_spec (blk : List Nat) (t : Nat) :
    ∀ (n : Nat) (s : BlockIterState) (last : Option WaveformHistoryIndex),
      iter_measure s ≤ n →
      (seek_index_go blk t BLOCK_FUEL s last).1
          = (seek_res t (block_iter_list blk s) last).1
        ∧ block_iter_list blk (seek_index_go blk t BLOCK_FUEL s last).2
          = (seek_res t (block_iter_list blk s) last).2 := by
  intro n
  induction n with
  | zero =>
    intro s last hm
    cases hni : next_index blk s with
    | none =>
      have hl : block_iter_list blk s = [] := by
        rw [block_iter_list_unfold, hni]
      rw [seek_index_go_unfold, hni, hl]
      exact ⟨rfl, rfl⟩
    | some p =>
      have hmf := next_index_some_facts blk s p.1 p.2 (by rw [hni])
      omega
  | succ n ih =>
    intro s last hm
    cases hni : next_index blk s with
    | none =>
      have hl : block_iter_list blk s = [] := by
        rw [block_iter_list_unfold, hni]
      rw [seek_index_go_unfold, hni, hl]
      exact ⟨rfl, rfl⟩
    | some p =>
      have hmf := next_index_some_facts blk s p.1 p.2 (by rw [hni])
      have hl : block_iter_list blk s = p.1 :: block_iter_list blk p.2 := by
        rw [block_iter_list_unfold, hni]
      rw [seek_index_go_unfold, hni, hl]
      dsimp only
      by_cases hgt : p.1.timestamp_index > t
      · rw [if_pos hgt]
        show last = (seek_res t (p.1 :: block_iter_list blk p.2) last).1 ∧ _
        rw [show seek_res t (p.1 :: block_iter_list blk p.2) last
          = (last, p.1 :: block_iter_list blk p.2) from by
          simp only [seek_res]; rw [if_pos hgt]]
        exact ⟨rfl, hl⟩
      · rw [if_neg hgt]
        by_cases heq : p.1.timestamp_index = t
        · rw [if_pos heq]
          rw [show seek_res t (p.1 :: block_iter_list blk p.2) last
            = (some p.1, block_iter_list blk p.2) from by
            simp only [seek_res]; rw [if_neg hgt, if_pos heq]]
          exact ⟨rfl, rfl⟩
        · rw [if_neg heq]
          rw [show seek_res t (p.1 :: block_iter_list blk p.2) last
            = seek_res t (block_iter_list blk p.2) (some p.1) from by
            simp only [seek_res]; rw [if_neg hgt, if_neg heq]]
          exact ih p.2 (some p.1) (by omega)

theorem seek_res_exact : ∀ (A : List WaveformHistoryIndex) (ib : WaveformHistoryIndex)
    (R : List WaveformHistoryIndex) (t : Nat) (last : Option WaveformHistoryIndex),
    (∀ p ∈ A, p.timestamp_index < t) → ib.timestamp_index = t →
    seek_res t (A ++ (ib :: R)) last = (some ib, R) := by
  intro A
  induction A with
  | nil =>
    intro ib R t last _ hib
    show seek_res t (ib :: R) last = _
    simp only [seek_res]
    rw [if_neg (by omega : ¬ ib.timestamp_index > t), if_pos hib]
  | cons a A ih =>
    intro ib R t last hA hib
    have ha : a.timestamp_index < t := hA a (by simp)
    show seek_res t (a :: (A ++ (ib :: R))) last = _
    simp only [seek_res]
    rw [if_neg (by omega : ¬ a.timestamp_index > t),
      if_neg (by omega : ¬ a.timestamp_index = t)]
    exact ih ib R t (some a) (fun p hp => hA p (by simp [hp])) hib

theorem seek_res_no_exact : ∀ (A : List WaveformHistoryIndex) (ib : WaveformHistoryIndex)
    (R : List WaveformHistoryIndex) (t : Nat) (last : Option WaveformHistoryIndex),
    (∀ p ∈ A, p.timestamp_index < t) → ib.timestamp_index < t →
    (R = [] ∨ ∃ q R2, R = q :: R2 ∧ t < q.timestamp_index) →
    seek_res t ((A ++ [ib]) ++ R) last = (some ib, R) := by
  intro A
  induction A with
  | nil =>
    intro ib R t last _ hib hR
    show seek_res t (ib :: R) last = _
    simp only [seek_res]
    rw [if_neg (by omega : ¬ ib.timestamp_index > t),
      if_neg (by omega : ¬ ib.timestamp_index = t)]
    rcases hR with hR | ⟨q, R2, hR, hq⟩
    · subst hR
      rfl
    · subst hR
      simp only [seek_res]
      rw [if_pos hq]
  | cons a A ih =>
    intro ib R t last hA hib hR
    have ha : a.timestamp_index < t := hA a (by simp)
    show seek_res t (a :: ((A ++ [ib]) ++ R)) last = _
    simp only [seek_res]
    rw [if_neg (by omega : ¬ a.timestamp_index > t),
      if_neg (by omega : ¬ a.timestamp_index = t)]
    exact ih ib R t (some a) (fun p hp => hA p (by simp [hp])) hib hR

theorem find?_eq_some_of_split {α : Type} (p : α → Bool) :
    ∀ (l1 : List α) (x : α) (l2 : List α), (∀ y ∈ l1, p y = false) → p x = true →
      (l1 ++ x :: l2).find? p = some x := by
  intro l1
  induction l1 with
  | nil =>
    intro x l2 _ hx
    simp [List.find?, hx]
  | cons a l1 ih =>
    intro x l2 h1 hx
    rw [List.cons_append, List.find?_cons_of_neg _ (by simp [h1 a (by simp)])]
    exact ih x l2 (fun y hy => h1 y (by simp [hy])) hx

theorem dropWhile_head_false {α : Type} (p : α → Bool) :
    ∀ (l : List α) (q : α), (l.dropWhile p).head? = some q → p q = false := by
  intro l
  induction l with
  | nil => intro q hq; simp [List.dropWhile] at hq
  | cons x xs ih =>
    intro q hq
    rw [List.dropWhile_cons] at hq
    by_cases hx : p x
    · rw [if_pos hx] at hq
      exact ih q hq
    · rw [if_neg hx] at hq
      simp at hq
      rw [← hq]
      simpa using hx

theorem mem_runs_pairs_drop (B : List BlockSpec) (k j : Nat) (hkj : k ≤ j)
    (hj : j < B.length) (x : WaveformHistoryIndex)
    (hx : x ∈ runs_list (B.getD j default).t0 (B.getD j default).v0 (B.getD j default).gs) :
    x ∈ runs_pairs (B.drop k) := by
  unfold runs_pairs
  rw [List.mem_flatten]
  refine ⟨runs_list (B.getD j default).t0 (B.getD j default).v0 (B.getD j default).gs,
    ?_, hx⟩
  rw [List.mem_map]
  refine ⟨B.getD j default, ?_, rfl⟩
  have hmem : (B.drop k)[j - k]? = some (B.getD j default) := by
    rw [List.getElem?_drop]
    rw [show k + (j - k) = j by omega]
    rw [List.getElem?_eq_getElem hj]
    rw [List.getD_eq_getElem?_getD, List.getElem?_eq_getElem hj]
    rfl
  exact List.getElem?_mem hmem

theorem mem_runs_pairs_elim (B : List BlockSpec) (x : WaveformHistoryIndex)
    (hx : x ∈ runs_pairs B) :
    ∃ j, j < B.length ∧
      x ∈ runs_list (B.getD j default).t0 (B.getD j default).v0 (B.getD j default).gs := by
  unfold runs_pairs at hx
  rw [List.mem_flatten] at hx
  obtain ⟨lx, hlx, hxl⟩ := hx
  rw [List.mem_map] at hlx
  obtain ⟨e, he, hel⟩ := hlx
  obtain ⟨j, hj, hej⟩ := List.getElem_of_mem he
  refine ⟨j, hj, ?_⟩
  have hgd : B.getD j default = e := by
    rw [List.getD_eq_getElem?_getD, List.getElem?_eq_getElem hj]
    exact hej
  rw [hgd, hel]
  exact hxl

/-- The search of a history in invariant shape with sorted pairs whose
first pair is at or before t agrees with the brute-force scan for every
mode. -/
theorem search_matches_brute_inv (H : WaveformHistory) (B : List BlockSpec)
    (tlast v : Nat) (P : List WaveformHistoryIndex)
    (hinv : hist_inv H B tlast v P)
    (hPw : List.Pairwise (fun a b : WaveformHistoryIndex =>
      a.timestamp_index < b.timestamp_index) P)
    (t : Nat) (hlo : ∀ hd, P.head? = some hd → hd.timestamp_index ≤ t)
    (mode : WaveformSearchMode) :
    H.search_timestamp_index t mode = .ok (brute_search P t mode) := by
  obtain ⟨hne, hblocks, hidx, hoff, htl, hwf, htv, hvv, htlt, hvle, hpairs⟩ := hinv
  have hn1 : 1 ≤ B.length := List.length_pos.mpr hne
  have hwfi : ∀ i, i < B.length → block_wf (B.getD i default) := by
    intro i hi
    have hgd : B.getD i default = B[i] := by
      rw [List.getD_eq_getElem?_getD, List.getElem?_eq_getElem hi]
      rfl
    rw [hgd]
    exact hwf _ (List.getElem_mem hi)
  have hget : ∀ i, i < B.length → H.get_block i = encode_block (B.getD i default) := by
    intro i hi
    show (H.blocks.drop (i * BLOCK_SIZE)).take BLOCK_SIZE = _
    exact get_block_of_blocks B H.blocks i hblocks hwf hi
  have hdr_eq : ∀ i, i < B.length →
      get_timestamp_index (H.get_block i) = (B.getD i default).t0 := by
    intro i hi
    rw [hget i hi]
    exact encode_block_t0 _ (hwfi i hi).1
  have hPw' : List.Pairwise (fun a b : WaveformHistoryIndex =>
      a.timestamp_index < b.timestamp_index) (runs_pairs B) := by
    rw [hpairs]
    exact hPw
  have hcount : H.get_block_count = B.length := by
    unfold WaveformHistory.get_block_count
    rw [hblocks, flatten_encode_length B hwf]
    unfold BLOCK_SIZE
    omega
  have hdrm : ∀ i j : Nat, i < j → j < B.length →
      get_timestamp_index (H.get_block i) < get_timestamp_index (H.get_block j) := by
    intro i j hij hj
    rw [hdr_eq i (by omega), hdr_eq j hj]
    obtain ⟨tli, hsegi⟩ := runs_list_head_eq (B.getD i default) (hwfi i (by omega))
    obtain ⟨tlj, hsegj⟩ := runs_list_head_eq (B.getD j default) (hwfi j hj)
    have hPw2 := hPw'
    rw [runs_pairs_split B i (by omega)] at hPw2
    have hinner := (List.pairwise_append.mp hPw2).2.1
    have hcr := (List.pairwise_append.mp hinner).2.2
    exact hcr _ (by rw [hsegi]; exact List.mem_cons_self _ _)
      _ (mem_runs_pairs_drop B (i + 1) j (by omega) hj _
        (by rw [hsegj]; exact List.mem_cons_self _ _))
  obtain ⟨tl0, hseg0⟩ := runs_list_head_eq (B.getD 0 default) (hwfi 0 (by omega))
  have hP0 : P = (⟨(B.getD 0 default).t0, (B.getD 0 default).v0⟩ : WaveformHistoryIndex)
      :: (tl0 ++ runs_pairs (B.drop 1)) := by
    rw [← hpairs, runs_pairs_split B 0 (by omega), hseg0]
    simp [runs_pairs]
  have h0le : get_timestamp_index (H.get_block 0) ≤ t := by
    rw [hdr_eq 0 (by omega)]
    exact hlo _ (by rw [hP0]; rfl)
  obtain ⟨m, hbs, hmn, hmle, hmabove⟩ :=
    search_block_index_before H t B.length hcount hn1 hdrm h0le
  have hwm := hwfi m hmn
  have hdecm : block_iter_list (H.get_block m) (block_init_state (H.get_block m))
      = runs_list (B.getD m default).t0 (B.getD m default).v0 (B.getD m default).gs := by
    rw [hget m hmn]
    exact block_iter_encode _ hwm.1 hwm.2.1 hwm.2.2.2.2.1 hwm.2.2.2.2.2
  have hPost : ∀ x ∈ runs_pairs (B.drop (m + 1)), t < x.timestamp_index := by
    intro x hx
    obtain ⟨j, hjlen, hxj⟩ := mem_runs_pairs_elim (B.drop (m + 1)) x hx
    have hgd : (B.drop (m + 1)).getD j default = B.getD (m + 1 + j) default := by
      rw [List.getD_eq_getElem?_getD, List.getD_eq_getElem?_getD, List.getElem?_drop]
    rw [hgd] at hxj
    have hjn : m + 1 + j < B.length := by
      rw [List.length_drop] at hjlen
      omega
    have hlow := runs_list_lower _ _ _ x hxj
    have habv := hmabove (m + 1 + j) (by omega) hjn
    rw [hdr_eq (m + 1 + j) hjn] at habv
    omega
  have hsm_pw : List.Pairwise (fun a b : WaveformHistoryIndex =>
      a.timestamp_index < b.timestamp_index)
      (runs_list (B.getD m default).t0 (B.getD m default).v0 (B.getD m default).gs) := by
    have hPw2 := hPw'
    rw [runs_pairs_split B m hmn] at hPw2
    exact (List.pairwise_append.mp ((List.pairwise_append.mp hPw2).2.1)).1
  have hPre : ∀ x ∈ runs_pairs (B.take m),
      ∀ y ∈ runs_list (B.getD m default).t0 (B.getD m default).v0 (B.getD m default).gs,
      x.timestamp_index < y.timestamp_index := by
    have hPw2 := hPw'
    rw [runs_pairs_split B m hmn] at hPw2
    have hcr := (List.pairwise_append.mp hPw2).2.2
    intro x hx y hy
    exact hcr x hx y (List.mem_append.mpr (Or.inl hy))
  obtain ⟨tlm, hsegm⟩ := runs_list_head_eq (B.getD m default) hwm
  have hAR : runs_list (B.getD m default).t0 (B.getD m default).v0 (B.getD m default).gs
      = (runs_list (B.getD m default).t0 (B.getD m default).v0
          (B.getD m default).gs).takeWhile (fun p => decide (p.timestamp_index ≤ t))
        ++ (runs_list (B.getD m default).t0 (B.getD m default).v0
          (B.getD m default).gs).dropWhile (fun p => decide (p.timestamp_index ≤ t)) :=
    (List.takeWhile_append_dropWhile ..).symm
  generalize hA : (runs_list (B.getD m default).t0 (B.getD m default).v0
    (B.getD m default).gs).takeWhile (fun p => decide (p.timestamp_index ≤ t)) = A at hAR
  generalize hR : (runs_list (B.getD m default).t0 (B.getD m default).v0
    (B.getD m default).gs).dropWhile (fun p => decide (p.timestamp_index ≤ t)) = R at hAR
  have hAle : ∀ p ∈ A, p.timestamp_index ≤ t := by
    intro p hp
    rw [← hA] at hp
    have := List.mem_takeWhile_imp hp
    simpa using this
  have hRhead : ∀ q, R.head? = some q → t < q.timestamp_index := by
    intro q hq
    rw [← hR] at hq
    have := dropWhile_head_false _ _ q hq
    simp at this
    omega
  have hRshape : R = [] ∨ ∃ q R2, R = q :: R2 ∧ t < q.timestamp_index := by
    cases hRc : R with
    | nil => exact Or.inl rfl
    | cons q R2 => exact Or.inr ⟨q, R2, rfl, hRhead q (by rw [hRc]; rfl)⟩
  have hAne : A ≠ [] := by
    rw [← hA, hsegm]
    rw [List.takeWhile_cons_of_pos (by
      simp only [decide_eq_true_eq]
      rw [hdr_eq m hmn] at hmle
      exact hmle)]
    simp
  obtain ⟨A2, ib, hA2⟩ := (List.eq_nil_or_concat A).resolve_left hAne
  simp only [List.concat_eq_append] at hA2
  have hApw : List.Pairwise (fun a b : WaveformHistoryIndex =>
      a.timestamp_index < b.timestamp_index) A := by
    have := hsm_pw
    rw [hAR] at this
    exact (List.pairwise_append.mp this).1
  have hA2lt : ∀ p ∈ A2, p.timestamp_index < ib.timestamp_index := by
    have := hApw
    rw [hA2] at this
    have hcr := (List.pairwise_append.mp this).2.2
    intro p hp
    exact hcr p hp ib (by simp)
  have hible : ib.timestamp_index ≤ t := hAle ib (by rw [hA2]; simp)
  have hibmem : ib ∈ runs_list (B.getD m default).t0 (B.getD m default).v0
      (B.getD m default).gs := by
    rw [hAR, hA2]
    simp
  have hPdec : P = (runs_pairs (B.take m) ++ A2)
      ++ (ib :: (R ++ runs_pairs (B.drop (m + 1)))) := by
    rw [← hpairs, runs_pairs_split B m hmn, hAR, hA2]
    simp
  -- the seek result
  have hseek := seek_index_spec (H.get_block m) t
    (iter_measure (block_init_state (H.get_block m)))
    (block_init_state (H.get_block m)) none (le_refl _)
  have hseekdef : seek_index (H.get_block m) (block_init_state (H.get_block m)) t
      = seek_index_go (H.get_block m) t BLOCK_FUEL
        (block_init_state (H.get_block m)) none := rfl
  unfold WaveformHistory.search_timestamp_index
  rw [hbs]
  dsimp only
  by_cases hexact : ib.timestamp_index = t
  · -- exact hit
    have hsr : seek_res t (runs_list (B.getD m default).t0 (B.getD m default).v0
        (B.getD m default).gs) none = (some ib, R) := by
      rw [hAR, hA2, List.append_assoc, List.singleton_append]
      exact seek_res_exact A2 ib R t none (fun p hp => by
        have := hA2lt p hp
        omega) hexact
    have hr1 : (seek_index (H.get_block m) (block_init_state (H.get_block m)) t).1
        = some ib := by
      rw [hseekdef, hseek.1, hdecm, hsr]
    rw [hr1]
    dsimp only
    rw [if_pos hexact]
    have hfind : P.find? (fun p => p.timestamp_index == t) = some ib := by
      rw [hPdec]
      apply find?_eq_some_of_split
      · intro y hy
        rcases List.mem_append.mp hy with hy | hy
        · have := hPre y hy ib hibmem
          simp only [beq_eq_false_iff_ne]
          omega
        · have := hA2lt y hy
          simp only [beq_eq_false_iff_ne]
          omega
      · simp [hexact]
    unfold brute_search
    rw [hfind]
  · -- no exact hit
    have hiblt : ib.timestamp_index < t := by omega
    have hsr : seek_res t (runs_list (B.getD m default).t0 (B.getD m default).v0
        (B.getD m default).gs) none = (some ib, R) := by
      rw [hAR, hA2]
      exact seek_res_no_exact A2 ib R t none (fun p hp => by
        have := hA2lt p hp
        omega) hiblt hRshape
    have hr1 : (seek_index (H.get_block m) (block_init_state (H.get_block m)) t).1
        = some ib := by
      rw [hseekdef, hseek.1, hdecm, hsr]
    have hr2 : block_iter_list (H.get_block m)
        (seek_index (H.get_block m) (block_init_state (H.get_block m)) t).2 = R := by
      rw [hseekdef, hseek.2, hdecm, hsr]
    rw [hr1]
    dsimp only
    rw [if_neg hexact]
    -- all of P differs from t
    have hfind : P.find? (fun p => p.timestamp_index == t) = none := by
      rw [List.find?_eq_none]
      intro x hx
      rw [hPdec] at hx
      simp only [beq_iff_eq]
      rcases List.mem_append.mp hx with hx | hx
      · rcases List.mem_append.mp hx with hx | hx
        · have := hPre x hx ib hibmem
          omega
        · have := hA2lt x hx
          omega
      · rcases List.mem_cons.mp hx with hx | hx
        · rw [hx]
          omega
        · rcases List.mem_append.mp hx with hx | hx
          · -- x ∈ R: first of R exceeds t and R is sorted
            have hRpw : List.Pairwise (fun a b : WaveformHistoryIndex =>
                a.timestamp_index < b.timestamp_index) R := by
              have := hsm_pw
              rw [hAR] at this
              exact (List.pairwise_append.mp this).2.1
            cases hRc : R with
            | nil => rw [hRc] at hx; simp at hx
            | cons q R2 =>
              have hq := hRhead q (by rw [hRc]; rfl)
              rw [hRc] at hx
              rcases List.mem_cons.mp hx with hx | hx
              · rw [hx]; omega
              · have := hRpw
                rw [hRc] at this
                have hqx := (List.pairwise_cons.mp this).1 x hx
                omega
          · have := hPost x hx
            omega
    -- the filters
    have hfl : P.filter (fun p => decide (p.timestamp_index < t))
        = (runs_pairs (B.take m) ++ A2) ++ [ib] := by
      rw [hPdec]
      rw [List.filter_append]
      rw [List.filter_eq_self.mpr (by
        intro x hx
        simp only [decide_eq_true_eq]
        rcases List.mem_append.mp hx with hx | hx
        · have := hPre x hx ib hibmem
          omega
        · have := hA2lt x hx
          omega)]
      rw [show List.filter (fun p => decide (p.timestamp_index < t))
          (ib :: (R ++ runs_pairs (B.drop (m + 1)))) = [ib] from by
        rw [List.filter_cons_of_pos (by simp only [decide_eq_true_eq]; omega)]
        rw [List.filter_eq_nil_iff.mpr (by
          intro x hx
          simp only [decide_eq_true_eq, Nat.not_lt]
          rcases List.mem_append.mp hx with hx | hx
          · have hRpw : List.Pairwise (fun a b : WaveformHistoryIndex =>
                a.timestamp_index < b.timestamp_index) R := by
              have := hsm_pw
              rw [hAR] at this
              exact (List.pairwise_append.mp this).2.1
            cases hRc : R with
            | nil => rw [hRc] at hx; simp at hx
            | cons q R2 =>
              have hq := hRhead q (by rw [hRc]; rfl)
              rw [hRc] at hx
              rcases List.mem_cons.mp hx with hx | hx
              · rw [hx]; omega
              · have := hRpw
                rw [hRc] at this
                have hqx := (List.pairwise_cons.mp this).1 x hx
                omega
          · have := hPost x hx
            omega)]]
    have hflast : (P.filter (fun p => decide (p.timestamp_index < t))).getLast?
        = some ib := by
      rw [hfl]
      exact List.getLast?_concat _
    have hfg : P.filter (fun p => decide (p.timestamp_index > t))
        = R ++ runs_pairs (B.drop (m + 1)) := by
      rw [hPdec]
      rw [List.filter_append]
      rw [List.filter_eq_nil_iff.mpr (by
        intro x hx
        simp only [decide_eq_true_eq, Nat.not_lt]
        rcases List.mem_append.mp hx with hx | hx
        · have := hPre x hx ib hibmem
          omega
        · have := hA2lt x hx
          omega)]
      rw [List.filter_cons_of_neg (by simp only [decide_eq_true_eq]; omega)]
      rw [List.filter_eq_self.mpr (by
        intro x hx
        simp only [decide_eq_true_eq]
        rcases List.mem_append.mp hx with hx | hx
        · have hRpw : List.Pairwise (fun a b : WaveformHistoryIndex =>
              a.timestamp_index < b.timestamp_index) R := by
            have := hsm_pw
            rw [hAR] at this
            exact (List.pairwise_append.mp this).2.1
          cases hRc : R with
          | nil => rw [hRc] at hx; simp at hx
          | cons q R2 =>
            have hq := hRhead q (by rw [hRc]; rfl)
            rw [hRc] at hx
            rcases List.mem_cons.mp hx with hx | hx
            · rw [hx]; omega
            · have := hRpw
              rw [hRc] at this
              have hqx := (List.pairwise_cons.mp this).1 x hx
              omega
        · exact hPost x hx)]
      simp
    -- the code-side index_after equals the head of the gt-filter
    have hafter : (match next_index (H.get_block m)
          (seek_index (H.get_block m) (block_init_state (H.get_block m)) t).2 with
        | some ia => some ia.1
        | none =>
          if m + 1 < H.get_block_count then
            Option.map Prod.fst (next_index (H.get_block (m + 1))
              (block_init_state (H.get_block (m + 1))))
          else none)
        = (R ++ runs_pairs (B.drop (m + 1))).head? := by
      cases hni : next_index (H.get_block m)
          (seek_index (H.get_block m) (block_init_state (H.get_block m)) t).2 with
      | some ia =>
        have hr2' := hr2
        rw [block_iter_list_unfold, hni] at hr2'
        rw [← hr2']
        rfl
      | none =>
        have hr2' := hr2
        rw [block_iter_list_unfold, hni] at hr2'
        rw [← hr2']
        simp only [List.nil_append]
        rw [hcount]
        by_cases hm1 : m + 1 < B.length
        · rw [if_pos hm1]
          obtain ⟨tl1, hseg1⟩ := runs_list_head_eq (B.getD (m + 1) default)
            (hwfi (m + 1) hm1)
          have hdec1 : block_iter_list (H.get_block (m + 1))
              (block_init_state (H.get_block (m + 1)))
              = runs_list (B.getD (m + 1) default).t0 (B.getD (m + 1) default).v0
                (B.getD (m + 1) default).gs := by
            rw [hget (m + 1) hm1]
            exact block_iter_encode _ (hwfi (m + 1) hm1).1 (hwfi (m + 1) hm1).2.1
              (hwfi (m + 1) hm1).2.2.2.2.1 (hwfi (m + 1) hm1).2.2.2.2.2
          have hsplit1 : runs_pairs (B.drop (m + 1))
              = runs_list (B.getD (m + 1) default).t0 (B.getD (m + 1) default).v0
                  (B.getD (m + 1) default).gs ++ runs_pairs (B.drop (m + 2)) := by
            have := runs_pairs_split (B.drop (m + 1)) 0 (by rw [List.length_drop]; omega)
            rw [this]
            rw [show (B.drop (m + 1)).getD 0 default = B.getD (m + 1) default from by
              rw [List.getD_eq_getElem?_getD, List.getD_eq_getElem?_getD,
                List.getElem?_drop]]
            rw [show (B.drop (m + 1)).drop 1 = B.drop (m + 2) from by
              rw [List.drop_drop]]
            simp [runs_pairs]
          rw [hsplit1, hseg1]
          cases hni2 : next_index (H.get_block (m + 1))
              (block_init_state (H.get_block (m + 1))) with
          | none =>
            have := hdec1
            rw [block_iter_list_unfold, hni2, hseg1] at this
            exact absurd this (by simp)
          | some p1 =>
            have hd1 := hdec1
            rw [block_iter_list_unfold, hni2, hseg1] at hd1
            have hp1 : p1.1 = ⟨(B.getD (m + 1) default).t0, (B.getD (m + 1) default).v0⟩ := by
              have := List.head_eq_of_cons_eq hd1
              exact this
            rw [show Option.map Prod.fst (some p1) = some p1.1 from rfl, hp1]
            rfl
        · rw [if_neg hm1]
          have hdropnil : B.drop (m + 1) = [] := List.drop_eq_nil_of_le (by omega)
          rw [hdropnil]
          rfl
    -- now the mode dispatch
    unfold brute_search
    rw [hfind]
    cases mode with
    | Before =>
      dsimp only
      rw [hflast]
    | After =>
      dsimp only
      rw [hafter, hfg]
      cases (R ++ runs_pairs (B.drop (m + 1))).head? <;> rfl
    | Closest =>
      dsimp only
      rw [hafter, hflast, hfg]
      cases hh : (R ++ runs_pairs (B.drop (m + 1))).head? with
      | none => rfl
      | some a =>
        dsimp only
        by_cases hc : a.timestamp_index - t < t - ib.timestamp_index
        · rw [if_pos hc, if_neg (by omega)]
        · rw [if_neg hc, if_pos (by omega)]
    | Exact =>
      dsimp only

/-- C2 (amended): for a history built from a non-empty strictly
increasing timestamp sequence below 2 to the 63 whose gaps are at most
2 to the 56, and a query between the first and last appended
timestamps, search_timestamp_index agrees with the brute-force linear
scan for every mode: an exact hit wins for every mode, otherwise Before
takes the last pair below t, After the first above (none if absent),
Closest the nearer of the two with ties to the earlier, and Exact
nothing.  The amendment restricts the gaps exactly as in the append
claim: beyond 2 to the 56 the stored pairs themselves are corrupted by
the skip encoding mismatch, so the search cannot see the appended
timestamps (c2_counterexample).  The 63-bit bound keeps the run inside
the source's integer ranges: the isize timestamp register stays
nonnegative and the usize guard sum of the last block header and
MAX_BLOCK_CHANGES, which aborts or wraps for headers within
MAX_BLOCK_CHANGES of 2 to the 64, cannot overflow. -/
theorem c2_search_matches_brute (ts : List Nat) (hts : ts_valid ts = true)
    (hne : ts ≠ []) (t : Nat) (hlo : ts.headD 0 ≤ t) (hhi : t ≤ ts.getLastD 0)
    (mode : WaveformSearchMode) :
    (build_history ts).search_timestamp_index t mode
      = .ok (brute_search (enum_pairs 0 ts) t mode) := by
  cases ts with
  | nil => exact absurd rfl hne
  | cons t0 rest =>
    simp only [ts_valid, Bool.and_eq_true, decide_eq_true_eq] at hts
    obtain ⟨h3, hok⟩ := hts
    rw [build_history_eq]
    show (add_changes (WaveformHistory.new.add_change t0 0) 1 rest).search_timestamp_index
      t mode = _
    have hinv := add_changes_inv rest (WaveformHistory.new.add_change t0 0)
      [⟨t0, 0, [(0, 1)]⟩] t0 1 [⟨t0, 0⟩] (first_add_inv t0 (by omega)) hok
    have hPeq : ([(⟨t0, 0⟩ : WaveformHistoryIndex)]) ++ enum_pairs 1 rest
        = enum_pairs 0 (t0 :: rest) := by
      simp [enum_pairs]
    rw [← hPeq]
    apply search_matches_brute_inv _ _ _ _ _ hinv
    · rw [hPeq]
      rw [show enum_pairs 0 (t0 :: rest) = ⟨t0, 0⟩ :: enum_pairs 1 rest from rfl]
      exact List.pairwise_cons.mpr
        ⟨fun p hp => enum_pairs_lower rest t0 1 hok p hp,
          enum_pairs_pairwise rest t0 1 hok⟩
    · intro hd hhd
      simp only [List.singleton_append, List.head?_cons, Option.some.injEq] at hhd
      rw [← hhd]
      simpa using hlo

/-- Witness for C2 at ts = [3, 5, 6], t = 5, mode Exact. -/
theorem c2_search_matches_brute_witness :
    (ts_valid [3, 5, 6] = true ∧ ([3, 5, 6] : List Nat) ≠ []
      ∧ ([3, 5, 6] : List Nat).headD 0 ≤ 5 ∧ (5 : Nat) ≤ ([3, 5, 6] : List Nat).getLastD 0) ∧
    (build_history [3, 5, 6]).search_timestamp_index 5 .Exact
      = .ok (brute_search (enum_pairs 0 [3, 5, 6]) 5 .Exact) :=
  ⟨⟨by decide, by decide, by decide, by decide⟩,
    c2_search_matches_brute [3, 5, 6] (by decide) (by decide) 5 (by decide) (by decide)
      .Exact⟩

/-- C2 counterexample: on the strictly increasing appends 0 and
2 ^ 56 + 1 the query t = 2 ^ 56 + 1 lies between the first and last
appended timestamps and is present, so the brute-force scan finds it in
Exact mode, but the search returns none: the stored pair was corrupted
to 2 ^ 49 + 1 by the skip encoding mismatch. -/
theorem c2_counterexample :
    (build_history [0, 2 ^ 56 + 1]).search_timestamp_index (2 ^ 56 + 1) .Exact
        ≠ .ok (brute_search (enum_pairs 0 [0, 2 ^ 56 + 1]) (2 ^ 56 + 1) .Exact) ∧
    (build_history [0, 2 ^ 56 + 1]).search_timestamp_index (2 ^ 56 + 1) .Exact = .ok none ∧
    brute_search (enum_pairs 0 [0, 2 ^ 56 + 1]) (2 ^ 56 + 1) .Exact
      = some ⟨2 ^ 56 + 1, 1⟩ := by
  refine ⟨by decide, by decide, by decide⟩

/-! Bit-extraction arithmetic for the vector-signal round trip
(claim C6). -/

theorem shiftRight_and_one (x i : Nat) : (x >>> i) &&& 1 = x / 2 ^ i % 2 := by
  rw [Nat.shiftRight_eq_div_pow, Nat.and_one_is_mod]

theorem and_one_le (x : Nat) : x &&& 1 ≤ 1 := by
  rw [Nat.and_one_is_mod]
  omega

theorem bit_add_mul_low (a b k i : Nat) (hi : i < k) :
    ((a + b * 2 ^ k) >>> i) &&& 1 = (a >>> i) &&& 1 := by
  rw [shiftRight_and_one, shiftRight_and_one]
  obtain ⟨d, hd⟩ : ∃ d, k = i + (d + 1) := ⟨k - i - 1, by omega⟩
  subst hd
  rw [pow_add]
  rw [show a + b * (2 ^ i * 2 ^ (d + 1)) = a + b * 2 ^ (d + 1) * 2 ^ i by ring]
  rw [Nat.add_mul_div_right _ _ (by positivity)]
  rw [pow_succ]
  rw [show a / 2 ^ i + b * (2 ^ d * 2) = a / 2 ^ i + b * 2 ^ d * 2 by ring]
  rw [Nat.add_mul_mod_self_right]

theorem bit_add_mul_high (a b k i : Nat) (ha : a < 2 ^ k) :
    ((a + b * 2 ^ k) >>> (k + i)) &&& 1 = (b >>> i) &&& 1 := by
  rw [shiftRight_and_one, shiftRight_and_one]
  rw [pow_add, ← Nat.div_div_eq_div_mul]
  rw [Nat.add_mul_div_right _ _ (by positivity)]
  rw [Nat.div_eq_of_lt ha, Nat.zero_add]

theorem bit_mod_pow (x k i : Nat) (hi : i < k) :
    ((x % 2 ^ k) >>> i) &&& 1 = (x >>> i) &&& 1 := by
  conv_rhs => rw [← Nat.mod_add_div x (2 ^ k)]
  rw [show x % 2 ^ k + 2 ^ k * (x / 2 ^ k) = x % 2 ^ k + x / 2 ^ k * 2 ^ k by ring]
  rw [bit_add_mul_low _ _ _ _ hi]

theorem bit_zero_of_lt (x k i : Nat) (hx : x < 2 ^ k) (hk : k ≤ i) :
    (x >>> i) &&& 1 = 0 := by
  rw [shiftRight_and_one]
  rw [Nat.div_eq_of_lt (lt_of_lt_of_le hx (pow_le_pow_right (by norm_num) hk))]

theorem extract_or_high (x c sh bi m : Nat) (hx : x < 2 ^ sh) (hbi : bi + m ≤ sh) :
    ((x + c * 2 ^ sh) >>> bi) &&& (2 ^ m - 1) = (x >>> bi) &&& (2 ^ m - 1) := by
  rw [Nat.and_pow_two_sub_one_eq_mod, Nat.and_pow_two_sub_one_eq_mod,
    Nat.shiftRight_eq_div_pow, Nat.shiftRight_eq_div_pow]
  obtain ⟨d, hd⟩ : ∃ d, sh = bi + (m + d) := ⟨sh - bi - m, by omega⟩
  subst hd
  rw [pow_add]
  rw [show x + c * (2 ^ bi * 2 ^ (m + d)) = x + c * 2 ^ (m + d) * 2 ^ bi by ring]
  rw [Nat.add_mul_div_right _ _ (by positivity)]
  rw [pow_add]
  rw [show x / 2 ^ bi + c * (2 ^ m * 2 ^ d) = x / 2 ^ bi + c * 2 ^ d * 2 ^ m by ring]
  rw [Nat.add_mul_mod_self_right]

theorem extract_at_high (x c sh m : Nat) (hx : x < 2 ^ sh) (hc : c < 2 ^ m) :
    ((x + c * 2 ^ sh) >>> sh) &&& (2 ^ m - 1) = c := by
  rw [Nat.and_pow_two_sub_one_eq_mod, Nat.shiftRight_eq_div_pow]
  rw [Nat.add_mul_div_right _ _ (by positivity)]
  rw [Nat.div_eq_of_lt hx, Nat.zero_add, Nat.mod_eq_of_lt hc]

theorem wordsVal_bit (ws : List Nat) (h : ∀ x ∈ ws, x < 2 ^ 64) (i : Nat) :
    (wordsVal ws >>> i) &&& 1 = (ws.getD (i / 64) 0 >>> (i % 64)) &&& 1 := by
  induction ws generalizing i with
  | nil => simp [wordsVal]
  | cons w rest ih =>
    by_cases hi : i < 64
    · rw [Nat.div_eq_of_lt hi, Nat.mod_eq_of_lt hi]
      show ((w + wordsVal rest * 2 ^ 64) >>> i) &&& 1 = _
      rw [bit_add_mul_low _ _ _ _ hi]
      rfl
    · obtain ⟨j, hj⟩ : ∃ j, i = 64 + j := ⟨i - 64, by omega⟩
      subst hj
      show ((w + wordsVal rest * 2 ^ 64) >>> (64 + j)) &&& 1 = _
      rw [bit_add_mul_high _ _ _ _ (h w (by simp))]
      rw [ih (fun x hx => h x (by simp [hx])) j]
      have hdiv : (64 + j) / 64 = j / 64 + 1 := by omega
      have hmod : (64 + j) % 64 = j % 64 := by omega
      rw [hdiv, hmod, List.getD_cons_succ]

/-! getD juggling for set, take, drop and append. -/

theorem getD_set_ne (l : List Nat) (i j x d : Nat) (h : i ≠ j) :
    (l.set i x).getD j d = l.getD j d := by
  rw [List.getD_eq_getElem?_getD, List.getD_eq_getElem?_getD, List.getElem?_set_ne h]

theorem getD_set_eq (l : List Nat) (i x d : Nat) (h : i < l.length) :
    (l.set i x).getD i d = x := by
  have hsome : l[i]? = some (l.get ⟨i, h⟩) := by
    simp [List.getElem?_eq_getElem h]
  rw [List.getD_eq_getElem?_getD, List.getElem?_set_self', hsome]
  rfl

theorem getD_append_left (a b : List Nat) (i d : Nat) (h : i < a.length) :
    (a ++ b).getD i d = a.getD i d :=
  List.getD_append a b d i h

theorem getD_concat (l : List Nat) (x d : Nat) : (l ++ [x]).getD l.length d = x := by
  rw [List.getD_append_right _ _ _ _ (le_refl _)]
  simp

theorem getD_take (l : List Nat) (n i d : Nat) (h : i < n) :
    (l.take n).getD i d = l.getD i d := by
  rw [List.getD_eq_getElem?_getD, List.getD_eq_getElem?_getD, List.getElem?_take,
    if_pos h]

theorem getD_drop (l : List Nat) (n i d : Nat) :
    (l.drop n).getD i d = l.getD (n + i) d := by
  rw [List.getD_eq_getElem?_getD, List.getD_eq_getElem?_getD, List.getElem?_drop]

theorem getD_append_full_right (a b : List Nat) (j d : Nat) :
    (a ++ b).getD (a.length + j) d = b.getD j d := by
  rw [List.getD_append_right _ _ _ _ (by omega)]
  congr 1
  omega

/-! Characterizations of from_bits_four_state and of get_bit under the
representation invariant. -/

theorem ofNatPair_zero_eq (b : Nat) (hb : b ≤ 1) :
    Logic.ofNatPair b 0 = Logic.ofBit (Bit.ofUsize b) := by
  interval_cases b <;> decide

theorem ofNatPair_zero_zero : Logic.ofNatPair 0 0 = Logic.Zero := by decide

theorem from_bits4_eq (w v m : Nat) (hcap : w < 2 ^ 62) (hv : v < 2 ^ 32) :
    BitVector.from_bits_four_state w v m
      = ⟨1 * 2 ^ 62 + w, .word (v + m * 2 ^ 32)⟩ := by
  unfold BitVector.from_bits_four_state
  rw [or_tags_F w hcap]
  have hword : (v &&& HALF_WORD_MASK) ||| (m <<< HALF_WORD_BITS) = v + m * 2 ^ 32 := by
    have hadd := shiftLeft_or_eq_add m v 32 hv
    rw [HALF_WORD_MASK_eq, HALF_WORD_BITS_eq, Nat.and_pow_two_sub_one_eq_mod,
      Nat.mod_eq_of_lt hv, Nat.lor_comm, hadd]
    omega
  rw [hword]

theorem from_bits4_width (w v m : Nat) (hcap : w < 2 ^ 62) (hv : v < 2 ^ 32) :
    (BitVector.from_bits_four_state w v m).get_bit_width = w := by
  rw [from_bits4_eq w v m hcap hv]
  exact (size_fields 1 w hcap _).1

theorem from_bits4_get_bit (w v m i : Nat) (hcap : w < 2 ^ 62) (hv : v < 2 ^ 32)
    (hi : i < w) (hi32 : i < 32) :
    (BitVector.from_bits_four_state w v m).get_bit i
      = Logic.ofNatPair ((v >>> i) &&& 1) ((m >>> i) &&& 1) := by
  rw [from_bits4_eq w v m hcap hv]
  have hf := size_fields 1 w hcap (BVPayload.word (v + m * 2 ^ 32))
  have h4 : (BitVector.mk (1 * 2 ^ 62 + w) (.word (v + m * 2 ^ 32))).is_four_state = true := by
    rw [hf.2.1]; decide
  have hp : (BitVector.mk (1 * 2 ^ 62 + w) (.word (v + m * 2 ^ 32))).is_pointer = false := by
    rw [hf.2.2]; decide
  unfold BitVector.get_bit
  rw [hf.1, h4]
  rw [if_neg (by omega), if_pos rfl]
  unfold BitVector.get_bit_four_state_internal
  rw [hp]
  rw [if_neg (by simp)]
  dsimp only [BVPayload.asWord]
  rw [bit_add_mul_low v m 32 i hi32]
  rw [HALF_WORD_BITS_eq, Nat.add_comm i 32, bit_add_mul_high v m 32 i hv]

theorem bv_bounds_wf (bv : BitVector) (hwf : bv.wf) :
    bvVal bv < 2 ^ bv.get_bit_width ∧ bvMask bv < 2 ^ bv.get_bit_width := by
  obtain ⟨hw1, hcap, h4i, h4h, h2i, h2h⟩ := hwf
  by_cases hfs : bv.is_four_state = true
  · by_cases h64 : bv.get_bit_width * 2 ≤ 64
    · obtain ⟨hsz, hpw, hvlt, hmlt⟩ := h4i hfs h64
      have hptr : bv.is_pointer = false := by
        unfold BitVector.is_pointer
        rw [hsz, or_tags_F _ hcap, size_pointer 1 _ hcap]
        decide
      unfold bvVal bvMask
      rw [hptr, hfs]
      simp only [Bool.false_eq_true, if_false, if_true]
      exact ⟨hvlt, hmlt⟩
    · obtain ⟨hsz, hpw, hlen, hwlt, hvv, hmv⟩ := h4h hfs (by omega)
      have hptr : bv.is_pointer = true := by
        unfold BitVector.is_pointer
        rw [hsz, or_tags_PF _ hcap, size_pointer 3 _ hcap]
        decide
      unfold bvVal bvMask
      rw [hptr, hfs]
      simp only [if_true]
      exact ⟨hvv, hmv⟩
  · simp only [Bool.not_eq_true] at hfs
    by_cases h64 : bv.get_bit_width ≤ 64
    · obtain ⟨hsz, hpw, hlt⟩ := h2i hfs h64
      have hptr : bv.is_pointer = false := by
        unfold BitVector.is_pointer
        rw [hsz]
        rw [show bv.get_bit_width = 0 * 2 ^ 62 + bv.get_bit_width by ring,
          size_pointer 0 _ hcap]
        decide
      unfold bvVal bvMask
      rw [hptr, hfs]
      simp only [Bool.false_eq_true, if_false]
      exact ⟨hlt, by positivity⟩
    · obtain ⟨hsz, hpw, hlen, hwlt, hvv⟩ := h2h hfs (by omega)
      have hptr : bv.is_pointer = true := by
        unfold BitVector.is_pointer
        rw [hsz, or_tags_P _ hcap, size_pointer 2 _ hcap]
        decide
      unfold bvVal bvMask
      rw [hptr, hfs]
      simp only [Bool.false_eq_true, if_false, if_true]
      exact ⟨hvv, by positivity⟩

theorem get_bit_wf (bv : BitVector) (hwf : bv.wf) (i : Nat) (hi : i < bv.get_bit_width) :
    bv.get_bit i = Logic.ofNatPair ((bvVal bv >>> i) &&& 1) ((bvMask bv >>> i) &&& 1) := by
  obtain ⟨hw1, hcap, h4i, h4h, h2i, h2h⟩ := hwf
  unfold BitVector.get_bit
  rw [if_neg (by omega)]
  by_cases hfs : bv.is_four_state = true
  · rw [hfs, if_pos rfl]
    by_cases h64 : bv.get_bit_width * 2 ≤ 64
    · obtain ⟨hsz, hpw, hvlt, hmlt⟩ := h4i hfs h64
      have hptr : bv.is_pointer = false := by
        unfold BitVector.is_pointer
        rw [hsz, or_tags_F _ hcap, size_pointer 1 _ hcap]
        decide
      unfold BitVector.get_bit_four_state_internal
      rw [hptr, if_neg (by simp)]
      dsimp only
      have hval : bvVal bv = bv.payload.asWord &&& HALF_WORD_MASK := by
        unfold bvVal
        rw [hptr, hfs]
        simp only [Bool.false_eq_true, if_false, if_true]
      have hmask : bvMask bv = bv.payload.asWord >>> HALF_WORD_BITS := by
        unfold bvMask
        rw [hptr, hfs]
        simp only [Bool.false_eq_true, if_false, if_true]
      have hvlt32 : bv.payload.asWord &&& HALF_WORD_MASK < 2 ^ 32 := by
        rw [HALF_WORD_MASK_eq, Nat.and_pow_two_sub_one_eq_mod]
        omega
      have hdec : bv.payload.asWord
          = (bv.payload.asWord &&& HALF_WORD_MASK)
            + (bv.payload.asWord >>> HALF_WORD_BITS) * 2 ^ 32 := by
        rw [HALF_WORD_MASK_eq, HALF_WORD_BITS_eq, Nat.and_pow_two_sub_one_eq_mod,
          Nat.shiftRight_eq_div_pow]
        omega
      rw [hval, hmask]
      conv_lhs => rw [hdec]
      have hi32 : i < 32 := by omega
      rw [bit_add_mul_low _ _ 32 i hi32]
      rw [HALF_WORD_BITS_eq, Nat.add_comm i 32, bit_add_mul_high _ _ 32 i hvlt32]
    · obtain ⟨hsz, hpw, hlen, hwlt, hvv, hmv⟩ := h4h hfs (by omega)
      have hptr : bv.is_pointer = true := by
        unfold BitVector.is_pointer
        rw [hsz, or_tags_PF _ hcap, size_pointer 3 _ hcap]
        decide
      unfold BitVector.get_bit_four_state_internal
      rw [hptr, if_pos rfl]
      dsimp only
      have hval : bvVal bv
          = wordsVal (bv.payload.ptrWords.take ((bv.get_bit_width - 1) / 64 + 1)) := by
        unfold bvVal
        rw [hptr, hfs]
        simp only [if_true]
      have hmask : bvMask bv
          = wordsVal (bv.payload.ptrWords.drop ((bv.get_bit_width - 1) / 64 + 1)) := by
        unfold bvMask
        rw [hptr, hfs]
        simp only [if_true]
      have hgv : bv.get_vector_words_size = (bv.get_bit_width - 1) / 64 + 1 := by
        unfold BitVector.get_vector_words_size
        rw [hptr, if_pos rfl]
        rfl
      have hget : ∀ j, bv.payload.get j = bv.payload.ptrWords.getD j 0 := by
        intro j
        rw [hpw]
        rfl
      have hUS : USIZE_BITS = 64 := rfl
      have hidx : i / USIZE_BITS < (bv.get_bit_width - 1) / 64 + 1 := by
        rw [hUS]
        omega
      have htake_lt : ∀ x ∈ bv.payload.ptrWords.take ((bv.get_bit_width - 1) / 64 + 1),
          x < 2 ^ 64 := fun x hx => hwlt x (List.mem_of_mem_take hx)
      have hdrop_lt : ∀ x ∈ bv.payload.ptrWords.drop ((bv.get_bit_width - 1) / 64 + 1),
          x < 2 ^ 64 := fun x hx => hwlt x (List.mem_of_mem_drop hx)
      rw [hval, hmask, hgv, hget, hget]
      rw [wordsVal_bit _ htake_lt i, wordsVal_bit _ hdrop_lt i]
      rw [hUS]
      rw [getD_take _ _ _ _ (by omega)]
      rw [getD_drop]
      rw [Nat.add_comm ((bv.get_bit_width - 1) / 64 + 1) (i / 64)]
  · simp only [Bool.not_eq_true] at hfs
    rw [hfs, if_neg (by simp)]
    by_cases h64 : bv.get_bit_width ≤ 64
    · obtain ⟨hsz, hpw, hlt⟩ := h2i hfs h64
      have hptr : bv.is_pointer = false := by
        unfold BitVector.is_pointer
        rw [hsz]
        rw [show bv.get_bit_width = 0 * 2 ^ 62 + bv.get_bit_width by ring,
          size_pointer 0 _ hcap]
        decide
      unfold BitVector.get_bit_two_state_internal
      rw [hptr, if_neg (by simp)]
      have hval : bvVal bv = bv.payload.asWord := by
        unfold bvVal
        rw [hptr, hfs]
        simp only [Bool.false_eq_true, if_false]
      have hmask : bvMask bv = 0 := by
        unfold bvMask
        rw [hptr, hfs]
        simp only [Bool.false_eq_true, if_false]
      rw [hval, hmask]
      rw [show ((0 : Nat) >>> i) &&& 1 = 0 by simp]
      rw [ofNatPair_zero_eq _ (and_one_le _)]
    · obtain ⟨hsz, hpw, hlen, hwlt, hvv⟩ := h2h hfs (by omega)
      have hptr : bv.is_pointer = true := by
        unfold BitVector.is_pointer
        rw [hsz, or_tags_P _ hcap, size_pointer 2 _ hcap]
        decide
      unfold BitVector.get_bit_two_state_internal
      rw [hptr, if_pos rfl]
      dsimp only
      have hval : bvVal bv = wordsVal bv.payload.ptrWords := by
        unfold bvVal
        rw [hptr, hfs]
        simp only [Bool.false_eq_true, if_false, if_true]
      have hmask : bvMask bv = 0 := by
        unfold bvMask
        rw [hptr, hfs]
        simp only [Bool.false_eq_true, if_false, if_true]
      have hget : ∀ j, bv.payload.get j = bv.payload.ptrWords.getD j 0 := by
        intro j
        rw [hpw]
        rfl
      have hUS : USIZE_BITS = 64 := rfl
      rw [hval, hmask, hget]
      rw [wordsVal_bit _ hwlt i]
      rw [hUS]
      rw [show ((0 : Nat) >>> i) &&& 1 = 0 by simp]
      rw [ofNatPair_zero_eq _ (and_one_le _)]

/-! Bit-packed mode of the vector signal: shape of one update and the
layout invariant it maintains. -/

theorem combinedOf_facts (bits : Nat) (bv : BitVector) (h2 : bits / 2 + bits / 2 = bits) :
    combinedOf bits bv < 2 ^ bits ∧
    combinedOf bits bv &&& (2 ^ (bits / 2) - 1)
      = bv.to_bits_four_state_u8.1 &&& (2 ^ (bits / 2) - 1) ∧
    (combinedOf bits bv >>> (bits / 2)) &&& (2 ^ (bits / 2) - 1)
      = bv.to_bits_four_state_u8.2 &&& (2 ^ (bits / 2) - 1) := by
  unfold combinedOf
  dsimp only
  rw [Nat.one_shiftLeft]
  have ha : bv.to_bits_four_state_u8.1 &&& (2 ^ (bits / 2) - 1) < 2 ^ (bits / 2) := by
    rw [Nat.and_pow_two_sub_one_eq_mod]
    exact Nat.mod_lt _ (by positivity)
  have hbb : bv.to_bits_four_state_u8.2 &&& (2 ^ (bits / 2) - 1) < 2 ^ (bits / 2) := by
    rw [Nat.and_pow_two_sub_one_eq_mod]
    exact Nat.mod_lt _ (by positivity)
  have hor : bv.to_bits_four_state_u8.1 &&& (2 ^ (bits / 2) - 1)
        ||| ((bv.to_bits_four_state_u8.2 &&& (2 ^ (bits / 2) - 1)) <<< (bits / 2))
      = (bv.to_bits_four_state_u8.1 &&& (2 ^ (bits / 2) - 1))
        + (bv.to_bits_four_state_u8.2 &&& (2 ^ (bits / 2) - 1)) * 2 ^ (bits / 2) := by
    rw [Nat.lor_comm, shiftLeft_or_eq_add _ _ _ ha]
    ring
  rw [hor]
  refine ⟨?_, ?_, ?_⟩
  · calc (bv.to_bits_four_state_u8.1 &&& (2 ^ (bits / 2) - 1))
          + (bv.to_bits_four_state_u8.2 &&& (2 ^ (bits / 2) - 1)) * 2 ^ (bits / 2)
        < 2 ^ (bits / 2) + (bv.to_bits_four_state_u8.2 &&& (2 ^ (bits / 2) - 1)) * 2 ^ (bits / 2) := by
          omega
      _ = ((bv.to_bits_four_state_u8.2 &&& (2 ^ (bits / 2) - 1)) + 1) * 2 ^ (bits / 2) := by
          ring
      _ ≤ 2 ^ (bits / 2) * 2 ^ (bits / 2) := Nat.mul_le_mul_right _ (by omega)
      _ = 2 ^ bits := by rw [← pow_add, h2]
  · rw [Nat.and_pow_two_sub_one_eq_mod, Nat.add_mul_mod_self_right,
      Nat.mod_eq_of_lt ha, Nat.and_pow_two_sub_one_eq_mod]
  · rw [Nat.shiftRight_eq_div_pow, Nat.add_mul_div_right _ _ (by positivity),
      Nat.div_eq_of_lt ha, Nat.zero_add, Nat.and_pow_two_sub_one_eq_mod,
      Nat.mod_eq_of_lt hbb, Nat.and_pow_two_sub_one_eq_mod]

theorem update_bits_append (s : WaveformSignalVector) (bits t : Nat) (bv : BitVector)
    (hpack : s.packing = .Bits bits) (hbu : s.bits_unused = 0) :
    s.update t bv = { s with history := s.history.add_change t s.vector_index, vectors := s.vectors ++ [combinedOf bits bv], bits_unused := 8 - bits, vector_index := s.vector_index + 1 } := by
  unfold WaveformSignalVector.update
  rw [hpack]
  dsimp only
  rw [hbu]
  rfl

theorem update_bits_pack (s : WaveformSignalVector) (bits t : Nat) (bv : BitVector)
    (hpack : s.packing = .Bits bits)
    (hbu : s.bits_unused = 2 ∨ s.bits_unused = 4 ∨ s.bits_unused = 6) :
    s.update t bv = { s with history := s.history.add_change t s.vector_index, vectors := s.vectors.set (s.vectors.length - 1) (s.vectors.getD (s.vectors.length - 1) 0 ||| (combinedOf bits bv <<< (8 - s.bits_unused))), bits_unused := s.bits_unused - bits, vector_index := s.vector_index + 1 } := by
  unfold WaveformSignalVector.update
  rw [hpack]
  dsimp only
  rcases hbu with hbu | hbu | hbu <;> rw [hbu] <;> rfl

theorem bits_inv_step (w bits : Nat) (hb : bits = 2 ∨ bits = 4 ∨ bits = 8)
    (s : WaveformSignalVector) (cs : List Nat) (hinv : bits_inv w bits s cs)
    (t : Nat) (bv : BitVector) :
    bits_inv w bits (s.update t bv) (cs ++ [combinedOf bits bv]) := by
  obtain ⟨hw, hpack, hlen, hbu8, hbud, hlast, hext⟩ := hinv
  have hb1 : 2 ≤ bits ∧ bits ≤ 8 := by rcases hb with rfl | rfl | rfl <;> omega
  have h2 : bits / 2 + bits / 2 = bits := by rcases hb with rfl | rfl | rfl <;> decide
  obtain ⟨hclt, -, -⟩ := combinedOf_facts bits bv h2
  by_cases hbu : s.bits_unused = 0
  · have hA3 : 8 * (s.vectors.length + 1) = bits * (cs.length + 1) + (8 - bits) := by
      rcases hb with rfl | rfl | rfl <;> omega
    have hA1 : ∀ j, j < cs.length → j / (8 / bits) < s.vectors.length := by
      rcases hb with rfl | rfl | rfl <;> (intro j hj; omega)
    have hA2 : cs.length / (8 / bits) = s.vectors.length
        ∧ cs.length % (8 / bits) * bits = 0 := by
      rcases hb with rfl | rfl | rfl <;> omega
    have hdv : bits ∣ 8 - bits := by rcases hb with rfl | rfl | rfl <;> decide
    rw [update_bits_append s bits t bv hpack hbu]
    unfold bits_inv
    dsimp only
    refine ⟨hw, hpack, ?_, by omega, hdv, ?_, ?_⟩
    · rw [List.length_append, List.length_append]
      simpa using hA3
    · rw [List.length_append]
      have hidx : s.vectors.length + [combinedOf bits bv].length - 1 = s.vectors.length := by
        simp
      rw [hidx, getD_concat]
      have hexp : 8 - (8 - bits) = bits := by omega
      rw [hexp]
      exact hclt
    · intro j hj
      rw [List.length_append] at hj
      by_cases hjk : j < cs.length
      · rw [getD_append_left _ _ _ _ (hA1 j hjk), getD_append_left _ _ _ _ hjk]
        exact hext j hjk
      · have hjeq : j = cs.length := by
          simp at hj
          omega
        subst hjeq
        rw [hA2.1, hA2.2, getD_concat, getD_concat]
        rw [Nat.shiftRight_zero, Nat.and_pow_two_sub_one_eq_mod, Nat.mod_eq_of_lt hclt]
  · have hbu3 : s.bits_unused = 2 ∨ s.bits_unused = 4 ∨ s.bits_unused = 6 := by
      rcases hb with rfl | rfl | rfl <;> omega
    have hble : bits ≤ s.bits_unused := by rcases hb with rfl | rfl | rfl <;> omega
    have hL1 : 1 ≤ s.vectors.length := by
      rcases hb with rfl | rfl | rfl <;> omega
    have hP3 : 8 * s.vectors.length = bits * (cs.length + 1) + (s.bits_unused - bits) := by
      rcases hb with rfl | rfl | rfl <;> omega
    have hP1 : ∀ j, j < cs.length → j / (8 / bits) = s.vectors.length - 1 →
        j % (8 / bits) * bits + bits ≤ 8 - s.bits_unused := by
      rcases hb with rfl | rfl | rfl <;> (intro j hj hjb; omega)
    have hP2 : cs.length / (8 / bits) = s.vectors.length - 1
        ∧ cs.length % (8 / bits) * bits = 8 - s.bits_unused := by
      rcases hb with rfl | rfl | rfl <;> omega
    have hdv : bits ∣ s.bits_unused - bits := by
      rcases hb with rfl | rfl | rfl <;> omega
    have hor : s.vectors.getD (s.vectors.length - 1) 0
          ||| (combinedOf bits bv <<< (8 - s.bits_unused))
        = s.vectors.getD (s.vectors.length - 1) 0
          + combinedOf bits bv * 2 ^ (8 - s.bits_unused) := by
      rw [Nat.shiftLeft_eq, Nat.lor_comm,
        or_eq_add_of_dvd _ _ (8 - s.bits_unused) ⟨combinedOf bits bv, by ring⟩ hlast]
      ring
    rw [update_bits_pack s bits t bv hpack hbu3]
    unfold bits_inv
    dsimp only
    rw [hor]
    refine ⟨hw, hpack, ?_, by omega, hdv, ?_, ?_⟩
    · rw [List.length_set, List.length_append]
      simpa using hP3
    · rw [List.length_set]
      rw [getD_set_eq _ _ _ _ (by omega)]
      have h1 : (2 : Nat) ^ (8 - (s.bits_unused - bits))
          = 2 ^ bits * 2 ^ (8 - s.bits_unused) := by
        rw [← pow_add]
        congr 1
        omega
      rw [h1]
      calc s.vectors.getD (s.vectors.length - 1) 0
            + combinedOf bits bv * 2 ^ (8 - s.bits_unused)
          < 2 ^ (8 - s.bits_unused) + combinedOf bits bv * 2 ^ (8 - s.bits_unused) := by
            omega
        _ = (combinedOf bits bv + 1) * 2 ^ (8 - s.bits_unused) := by ring
        _ ≤ 2 ^ bits * 2 ^ (8 - s.bits_unused) := Nat.mul_le_mul_right _ (by omega)
    · intro j hj
      rw [List.length_append] at hj
      by_cases hjk : j < cs.length
      · by_cases hjb : j / (8 / bits) = s.vectors.length - 1
        · rw [hjb, getD_set_eq _ _ _ _ (by omega)]
          rw [getD_append_left _ _ _ _ hjk]
          rw [extract_or_high _ _ _ _ _ hlast (hP1 j hjk hjb)]
          have h := hext j hjk
          rw [hjb] at h
          exact h
        · rw [getD_set_ne _ _ _ _ _ (fun h => hjb h.symm)]
          rw [getD_append_left _ _ _ _ hjk]
          exact hext j hjk
      · have hjeq : j = cs.length := by
          simp at hj
          omega
        subst hjeq
        rw [hP2.1, hP2.2, getD_set_eq _ _ _ _ (by omega), getD_concat]
        exact extract_at_high _ _ _ _ hlast hclt

theorem bits_inv_init (w bits : Nat)
    (hpack : WaveformVectorPacking.ofWidth w = .Bits bits) :
    bits_inv w bits (WaveformSignalVector.new w) [] := by
  refine ⟨rfl, hpack, by simp [WaveformSignalVector.new],
    by simp [WaveformSignalVector.new], ⟨0, rfl⟩, ?_, ?_⟩
  · show ([] : List Nat).getD _ 0 < 2 ^ (8 - 0)
    simp
  · intro j hj
    simp at hj

theorem bits_fold (w bits : Nat) (hb : bits = 2 ∨ bits = 4 ∨ bits = 8)
    (us : List (Nat × BitVector)) :
    ∀ (s : WaveformSignalVector) (cs : List Nat), bits_inv w bits s cs →
      bits_inv w bits (us.foldl (fun s u => s.update u.1 u.2) s)
        (cs ++ us.map (fun u => combinedOf bits u.2)) := by
  induction us with
  | nil =>
    intro s cs h
    simpa using h
  | cons u rest ih =>
    intro s cs h
    simp only [List.foldl_cons, List.map_cons]
    have h1 := bits_inv_step w bits hb s cs h u.1 u.2
    have h2 := ih _ _ h1
    have hassoc : cs ++ [combinedOf bits u.2] ++ rest.map (fun u => combinedOf bits u.2)
        = cs ++ (combinedOf bits u.2 :: rest.map (fun u => combinedOf bits u.2)) := by
      simp
    rw [← hassoc]
    exact h2

theorem bits_get (w bits : Nat) (s : WaveformSignalVector) (cs : List Nat)
    (hinv : bits_inv w bits s cs) (j : Nat) (hj : j < cs.length)
    (h2 : bits / 2 + bits / 2 = bits) :
    s.get_bitvector j
      = BitVector.from_bits_four_state w (cs.getD j 0 &&& (2 ^ (bits / 2) - 1))
        ((cs.getD j 0 >>> (bits / 2)) &&& (2 ^ (bits / 2) - 1)) := by
  obtain ⟨hw, hpack, -, -, -, -, hext⟩ := hinv
  have hE := hext j hj
  unfold WaveformSignalVector.get_bitvector
  rw [hpack]
  dsimp only
  rw [Nat.one_shiftLeft]
  have hgw : s.get_width = w := hw
  rw [hgw]
  have hle : bits / 2 ≤ bits := by omega
  have hval : (s.vectors.getD (j / (8 / bits)) 0 >>> (j % (8 / bits) * bits))
        &&& (2 ^ (bits / 2) - 1)
      = cs.getD j 0 &&& (2 ^ (bits / 2) - 1) := by
    rw [← hE]
    rw [Nat.and_pow_two_sub_one_eq_mod, Nat.and_pow_two_sub_one_eq_mod,
      Nat.and_pow_two_sub_one_eq_mod,
      Nat.mod_mod_of_dvd _ (pow_dvd_pow 2 hle)]
  have hmask : (s.vectors.getD (j / (8 / bits)) 0 >>> (j % (8 / bits) * bits + bits / 2))
        &&& (2 ^ (bits / 2) - 1)
      = (cs.getD j 0 >>> (bits / 2)) &&& (2 ^ (bits / 2) - 1) := by
    rw [← hE]
    rw [Nat.shiftRight_add]
    generalize s.vectors.getD (j / (8 / bits)) 0 >>> (j % (8 / bits) * bits) = Y
    rw [Nat.and_pow_two_sub_one_eq_mod, Nat.and_pow_two_sub_one_eq_mod,
      Nat.and_pow_two_sub_one_eq_mod]
    rw [Nat.shiftRight_eq_div_pow, Nat.shiftRight_eq_div_pow]
    rw [show (2 : Nat) ^ bits = 2 ^ (bits / 2) * 2 ^ (bits / 2) by rw [← pow_add, h2]]
    rw [Nat.mod_mul_right_div_self]
    rw [Nat.mod_mod_of_dvd _ (dvd_refl _)]
  rw [hval, hmask]

theorem to_bits_u8_wf (bv : BitVector) (hwf : bv.wf) (h8 : bv.get_bit_width ≤ 8) :
    bv.to_bits_four_state_u8 = (bvVal bv % 256, bvMask bv % 256) := by
  obtain ⟨hw1, hcap, h4i, h4h, h2i, h2h⟩ := hwf
  by_cases hfs : bv.is_four_state = true
  · obtain ⟨hsz, hpw, hvlt, hmlt⟩ := h4i hfs (by omega)
    have hptr : bv.is_pointer = false := by
      unfold BitVector.is_pointer
      rw [hsz, or_tags_F _ hcap, size_pointer 1 _ hcap]
      decide
    unfold BitVector.to_bits_four_state_u8
    rw [hfs]
    simp only [Bool.not_true, Bool.false_eq_true, if_false]
    have hval : bvVal bv = bv.payload.asWord &&& HALF_WORD_MASK := by
      unfold bvVal
      rw [hptr, hfs]
      simp only [Bool.false_eq_true, if_false, if_true]
    have hmask : bvMask bv = bv.payload.asWord >>> HALF_WORD_BITS := by
      unfold bvMask
      rw [hptr, hfs]
      simp only [Bool.false_eq_true, if_false, if_true]
    rw [hval, hmask]
  · simp only [Bool.not_eq_true] at hfs
    obtain ⟨hsz, hpw, hlt⟩ := h2i hfs (by omega)
    have hptr : bv.is_pointer = false := by
      unfold BitVector.is_pointer
      rw [hsz]
      rw [show bv.get_bit_width = 0 * 2 ^ 62 + bv.get_bit_width by ring,
        size_pointer 0 _ hcap]
      decide
    unfold BitVector.to_bits_four_state_u8
    rw [hfs]
    simp only [Bool.not_false, if_true]
    unfold BitVector.to_bits_two_state_u8
    have hval : bvVal bv = bv.payload.asWord := by
      unfold bvVal
      rw [hptr, hfs]
      simp only [Bool.false_eq_true, if_false]
    have hmask : bvMask bv = 0 := by
      unfold bvMask
      rw [hptr, hfs]
      simp only [Bool.false_eq_true, if_false]
    rw [hval, hmask]

theorem bits_mode_recover (w bits : Nat) (bv : BitVector)
    (hb : bits = 2 ∨ bits = 4 ∨ bits = 8) (hw1 : 1 ≤ w) (hwb : w ≤ bits / 2)
    (hwf : bv.wf) (hbw : bv.get_bit_width ≤ w) :
    (BitVector.from_bits_four_state w
        (bv.to_bits_four_state_u8.1 &&& (2 ^ (bits / 2) - 1))
        (bv.to_bits_four_state_u8.2 &&& (2 ^ (bits / 2) - 1))).get_bit_width = w ∧
    BitVector.beq
      (BitVector.from_bits_four_state w
        (bv.to_bits_four_state_u8.1 &&& (2 ^ (bits / 2) - 1))
        (bv.to_bits_four_state_u8.2 &&& (2 ^ (bits / 2) - 1))) bv = true := by
  have hb2 : bits / 2 ≤ 4 := by rcases hb with rfl | rfl | rfl <;> decide
  have hb2le8 : bits / 2 ≤ 8 := by omega
  have hcap : w < 2 ^ 62 := by
    calc w ≤ 4 := by omega
      _ < 2 ^ 62 := by norm_num
  have hu8 := to_bits_u8_wf bv hwf (by omega)
  obtain ⟨hbVlt, hbMlt⟩ := bv_bounds_wf bv hwf
  have hAmod : bv.to_bits_four_state_u8.1 &&& (2 ^ (bits / 2) - 1)
      = bvVal bv % 2 ^ (bits / 2) := by
    rw [hu8]
    dsimp only
    rw [Nat.and_pow_two_sub_one_eq_mod,
      show (256 : Nat) = 2 ^ 8 by norm_num,
      Nat.mod_mod_of_dvd _ (pow_dvd_pow 2 hb2le8)]
  have hBmod : bv.to_bits_four_state_u8.2 &&& (2 ^ (bits / 2) - 1)
      = bvMask bv % 2 ^ (bits / 2) := by
    rw [hu8]
    dsimp only
    rw [Nat.and_pow_two_sub_one_eq_mod,
      show (256 : Nat) = 2 ^ 8 by norm_num,
      Nat.mod_mod_of_dvd _ (pow_dvd_pow 2 hb2le8)]
  have hAlt : bvVal bv % 2 ^ (bits / 2) < 2 ^ 32 := by
    have h1 : bvVal bv % 2 ^ (bits / 2) < 2 ^ (bits / 2) := Nat.mod_lt _ (by positivity)
    have h2 : (2 : Nat) ^ (bits / 2) ≤ 2 ^ 32 :=
      Nat.pow_le_pow_right (by norm_num) (by omega)
    omega
  rw [hAmod, hBmod]
  have hLw := from_bits4_width w (bvVal bv % 2 ^ (bits / 2)) (bvMask bv % 2 ^ (bits / 2))
    hcap hAlt
  refine ⟨hLw, ?_⟩
  have key : ∀ i, i < w →
      (BitVector.from_bits_four_state w (bvVal bv % 2 ^ (bits / 2))
        (bvMask bv % 2 ^ (bits / 2))).get_bit i = bv.get_bit i := by
    intro i hi
    rw [from_bits4_get_bit w _ _ i hcap hAlt hi (by omega)]
    rw [bit_mod_pow _ _ _ (by omega), bit_mod_pow _ _ _ (by omega)]
    by_cases hiw : i < bv.get_bit_width
    · rw [get_bit_wf bv ⟨by omega, by
        obtain ⟨-, hcap2, -⟩ := hwf
        exact hcap2, hwf.2.2⟩ i hiw]
    · rw [get_bit_out_of_range bv i (by omega)]
      rw [bit_zero_of_lt _ bv.get_bit_width _ hbVlt (by omega),
        bit_zero_of_lt _ bv.get_bit_width _ hbMlt (by omega)]
      exact ofNatPair_zero_zero
  unfold BitVector.beq
  by_cases hgt : (BitVector.from_bits_four_state w (bvVal bv % 2 ^ (bits / 2))
      (bvMask bv % 2 ^ (bits / 2))).get_bit_width > bv.get_bit_width
  · rw [if_pos hgt]
    dsimp only
    apply (beq_spec _ bv (by omega)).mpr
    intro i hi
    rw [hLw] at hi
    exact key i hi
  · rw [if_neg hgt]
    dsimp only
    rw [hLw] at hgt
    have hEq : bv.get_bit_width = w := by omega
    apply (beq_spec bv _ (by rw [hLw, hEq])).mpr
    intro i hi
    rw [hEq] at hi
    exact (key i hi).symm

/-! Byte-aligned mode of the vector signal. -/

theorem beBytes_zero (k : Nat) : beBytes k 0 = List.replicate k 0 := by
  induction k with
  | zero => rfl
  | succ k ih =>
    show beBytes k (0 >>> 8) ++ [0 &&& 0xff] = _
    rw [Nat.zero_shiftRight, ih, List.replicate_succ']
    norm_num

theorem beVal_replicate_zero (n : Nat) : beVal (List.replicate n 0) = 0 := by
  rw [← beBytes_zero, beVal_beBytes]
  simp

theorem to_be4_wf (bv : BitVector) (hwf : bv.wf) :
    bv.to_be_bytes_four_state
      = (beBytes ((bv.get_bit_width - 1) / 8 + 1) (bvVal bv),
         beBytes ((bv.get_bit_width - 1) / 8 + 1) (bvMask bv)) := by
  obtain ⟨hw1, hcap, h4i, h4h, h2i, h2h⟩ := hwf
  by_cases hfs : bv.is_four_state = true
  · by_cases h64 : bv.get_bit_width * 2 ≤ 64
    · obtain ⟨hsz, hpw, hvlt, hmlt⟩ := h4i hfs h64
      have hptr : bv.is_pointer = false := by
        unfold BitVector.is_pointer
        rw [hsz, or_tags_F _ hcap, size_pointer 1 _ hcap]
        decide
      unfold BitVector.to_be_bytes_four_state
      rw [hfs, hptr]
      simp only [Bool.not_true, Bool.false_eq_true, if_false]
      rw [fourStateUnfold_eq]
      have hval : bvVal bv = bv.payload.asWord &&& HALF_WORD_MASK := by
        unfold bvVal
        rw [hptr, hfs]
        simp only [Bool.false_eq_true, if_false, if_true]
      have hmask : bvMask bv = bv.payload.asWord >>> HALF_WORD_BITS := by
        unfold bvMask
        rw [hptr, hfs]
        simp only [Bool.false_eq_true, if_false, if_true]
      have hdec : bv.payload.asWord = bvVal bv + bvMask bv * 2 ^ 32 := by
        rw [hval, hmask, HALF_WORD_MASK_eq, HALF_WORD_BITS_eq,
          Nat.and_pow_two_sub_one_eq_mod, Nat.shiftRight_eq_div_pow]
        omega
      rw [Prod.mk.injEq]
      constructor
      · conv_lhs => rw [hdec]
        rw [beBytes_add_mul_two_pow _ _ _ _ (by omega)]
      · rw [hmask]
    · obtain ⟨hsz, hpw, hlen, hwlt, hvv, hmv⟩ := h4h hfs (by omega)
      have hptr : bv.is_pointer = true := by
        unfold BitVector.is_pointer
        rw [hsz, or_tags_PF _ hcap, size_pointer 3 _ hcap]
        decide
      unfold BitVector.to_be_bytes_four_state
      rw [hfs, hptr]
      simp only [Bool.not_true, Bool.false_eq_true, if_false, if_true]
      have hgv : bv.get_vector_words_size = (bv.get_bit_width - 1) / 64 + 1 := by
        unfold BitVector.get_vector_words_size
        rw [hptr, if_pos rfl]
        rfl
      have hval : bvVal bv
          = wordsVal (bv.payload.ptrWords.take ((bv.get_bit_width - 1) / 64 + 1)) := by
        unfold bvVal
        rw [hptr, hfs]
        simp only [if_true]
      have hmask : bvMask bv
          = wordsVal (bv.payload.ptrWords.drop ((bv.get_bit_width - 1) / 64 + 1)) := by
        unfold bvMask
        rw [hptr, hfs]
        simp only [if_true]
      have hdrop_lt : ∀ x ∈ bv.payload.ptrWords.drop ((bv.get_bit_width - 1) / 64 + 1),
          x < 2 ^ 64 := fun x hx => hwlt x (List.mem_of_mem_drop hx)
      have htklen : (bv.payload.ptrWords.take ((bv.get_bit_width - 1) / 64 + 1)).length
          = (bv.get_bit_width - 1) / 64 + 1 := by
        rw [List.length_take]
        omega
      have hsplit : wordsVal bv.payload.ptrWords
          = bvVal bv + bvMask bv * 2 ^ (64 * ((bv.get_bit_width - 1) / 64 + 1)) := by
        rw [hval, hmask]
        conv_lhs => rw [← List.take_append_drop ((bv.get_bit_width - 1) / 64 + 1)
          bv.payload.ptrWords]
        rw [wordsVal_append, htklen]
      rw [Prod.mk.injEq]
      constructor
      · rw [clone_usizes_eq_beBytes _ _ _ hwlt (by omega) (by omega)]
        rw [hsplit, beBytes_add_mul_two_pow _ _ _ _ (by omega)]
      · rw [hgv]
        rw [clone_usizes_eq_beBytes _ _ _ hdrop_lt (by omega) (by omega)]
        rw [hmask]
  · simp only [Bool.not_eq_true] at hfs
    by_cases h64 : bv.get_bit_width ≤ 64
    · obtain ⟨hsz, hpw, hlt⟩ := h2i hfs h64
      have hptr : bv.is_pointer = false := by
        unfold BitVector.is_pointer
        rw [hsz]
        rw [show bv.get_bit_width = 0 * 2 ^ 62 + bv.get_bit_width by ring,
          size_pointer 0 _ hcap]
        decide
      unfold BitVector.to_be_bytes_four_state
      rw [hfs]
      simp only [Bool.not_false, if_true]
      unfold BitVector.to_be_bytes_two_state
      rw [hptr]
      simp only [Bool.false_eq_true, if_false]
      have hval : bvVal bv = bv.payload.asWord := by
        unfold bvVal
        rw [hptr, hfs]
        simp only [Bool.false_eq_true, if_false]
      have hmask : bvMask bv = 0 := by
        unfold bvMask
        rw [hptr, hfs]
        simp only [Bool.false_eq_true, if_false]
      rw [hval, hmask, beBytes_zero]
    · obtain ⟨hsz, hpw, hlen, hwlt, hvv⟩ := h2h hfs (by omega)
      have hptr : bv.is_pointer = true := by
        unfold BitVector.is_pointer
        rw [hsz, or_tags_P _ hcap, size_pointer 2 _ hcap]
        decide
      unfold BitVector.to_be_bytes_four_state
      rw [hfs]
      simp only [Bool.not_false, if_true]
      unfold BitVector.to_be_bytes_two_state
      rw [hptr]
      simp only [if_true]
      have hval : bvVal bv = wordsVal bv.payload.ptrWords := by
        unfold bvVal
        rw [hptr, hfs]
        simp only [Bool.false_eq_true, if_false, if_true]
      have hmask : bvMask bv = 0 := by
        unfold bvMask
        rw [hptr, hfs]
        simp only [Bool.false_eq_true, if_false, if_true]
      rw [clone_usizes_eq_beBytes _ _ _ hwlt (by omega) (by omega)]
      rw [hval, hmask, beBytes_zero]

theorem from_be4_width (w : Nat) (V M : List Nat) (hcap : w < 2 ^ 62) :
    (BitVector.from_be_bytes_four_state w V M).get_bit_width = w := by
  by_cases h64 : w * 2 ≤ 64
  · rw [from_be4_inline w V M h64 hcap]
    rw [show w ||| FOUR_STATE_TAG = 1 * 2 ^ 62 + w from or_tags_F w hcap]
    exact (size_fields 1 w hcap _).1
  · rw [from_be4_heap w V M (by omega) hcap]
    rw [show w ||| POINTER_TAG ||| FOUR_STATE_TAG = 3 * 2 ^ 62 + w from or_tags_PF w hcap]
    exact (size_fields 3 w hcap _).1

theorem from_be4_get_bit (w : Nat) (V M : List Nat) (i : Nat) (hcap : w < 2 ^ 62)
    (hlenV : V.length = (w - 1) / 8 + 1) (hlenM : M.length = (w - 1) / 8 + 1)
    (hVb : allBytes V) (hMb : allBytes M) (hi : i < w) :
    (BitVector.from_be_bytes_four_state w V M).get_bit i
      = Logic.ofNatPair ((beVal V >>> i) &&& 1) ((beVal M >>> i) &&& 1) := by
  by_cases h64 : w * 2 ≤ 64
  · rw [from_be4_inline w V M h64 hcap]
    rw [fourStateFold_eq V M (by omega) (by omega) hVb hMb]
    rw [show w ||| FOUR_STATE_TAG = 1 * 2 ^ 62 + w from or_tags_F w hcap]
    have hf := size_fields 1 w hcap (BVPayload.word (beVal V + beVal M * 2 ^ 32))
    have h4 : (BitVector.mk (1 * 2 ^ 62 + w)
        (.word (beVal V + beVal M * 2 ^ 32))).is_four_state = true := by
      rw [hf.2.1]
      decide
    have hp : (BitVector.mk (1 * 2 ^ 62 + w)
        (.word (beVal V + beVal M * 2 ^ 32))).is_pointer = false := by
      rw [hf.2.2]
      decide
    have hVlt : beVal V < 2 ^ 32 := by
      have h1 := beVal_lt V hVb
      have h2 : (256 : Nat) ^ V.length ≤ 2 ^ 32 := by
        have h3 : V.length ≤ 4 := by omega
        calc (256 : Nat) ^ V.length ≤ 256 ^ 4 := Nat.pow_le_pow_right (by norm_num) h3
          _ = 2 ^ 32 := by norm_num
      omega
    unfold BitVector.get_bit
    rw [hf.1, h4]
    rw [if_neg (by omega), if_pos rfl]
    unfold BitVector.get_bit_four_state_internal
    rw [hp]
    rw [if_neg (by simp)]
    dsimp only [BVPayload.asWord]
    rw [bit_add_mul_low _ _ 32 i (by omega)]
    rw [HALF_WORD_BITS_eq, Nat.add_comm i 32, bit_add_mul_high _ _ 32 i hVlt]
  · rw [from_be4_heap w V M (by omega) hcap]
    rw [show w ||| POINTER_TAG ||| FOUR_STATE_TAG = 3 * 2 ^ 62 + w from or_tags_PF w hcap]
    have hf := size_fields 3 w hcap
      (BVPayload.ptr (clone_be_bytes_to_usizes (V.length + 1) V
        ++ clone_be_bytes_to_usizes (M.length + 1) M))
    have h4 : (BitVector.mk (3 * 2 ^ 62 + w) (.ptr (clone_be_bytes_to_usizes (V.length + 1) V
        ++ clone_be_bytes_to_usizes (M.length + 1) M))).is_four_state = true := by
      rw [hf.2.1]
      decide
    have hp : (BitVector.mk (3 * 2 ^ 62 + w) (.ptr (clone_be_bytes_to_usizes (V.length + 1) V
        ++ clone_be_bytes_to_usizes (M.length + 1) M))).is_pointer = true := by
      rw [hf.2.2]
      decide
    have hVwords := clone_be_words_lt (V.length + 1) V hVb
    have hMwords := clone_be_words_lt (M.length + 1) M hMb
    have hVlen : (clone_be_bytes_to_usizes (V.length + 1) V).length = (w - 1) / 64 + 1 := by
      rw [clone_be_length (V.length + 1) V (by omega) (by omega), hlenV]
      rw [Nat.add_sub_cancel, Nat.div_div_eq_div_mul]
    unfold BitVector.get_bit
    rw [hf.1, h4]
    rw [if_neg (by omega), if_pos rfl]
    unfold BitVector.get_bit_four_state_internal
    rw [hp]
    rw [if_pos rfl]
    dsimp only
    have hgv : (BitVector.mk (3 * 2 ^ 62 + w) (.ptr (clone_be_bytes_to_usizes (V.length + 1) V
        ++ clone_be_bytes_to_usizes (M.length + 1) M))).get_vector_words_size
        = (w - 1) / 64 + 1 := by
      unfold BitVector.get_vector_words_size
      rw [hp, if_pos rfl, hf.1]
      rfl
    rw [hgv]
    have hUS : USIZE_BITS = 64 := rfl
    rw [hUS]
    show Logic.ofNatPair
        (((clone_be_bytes_to_usizes (V.length + 1) V
          ++ clone_be_bytes_to_usizes (M.length + 1) M).getD (i / 64) 0 >>> (i % 64)) &&& 1)
        (((clone_be_bytes_to_usizes (V.length + 1) V
          ++ clone_be_bytes_to_usizes (M.length + 1) M).getD (i / 64 + ((w - 1) / 64 + 1)) 0
            >>> (i % 64)) &&& 1) = _
    have hidx : i / 64 < (clone_be_bytes_to_usizes (V.length + 1) V).length := by
      rw [hVlen]
      omega
    rw [getD_append_left _ _ _ _ hidx]
    rw [Nat.add_comm (i / 64) ((w - 1) / 64 + 1), ← hVlen, getD_append_full_right]
    rw [← wordsVal_bit _ hVwords i, ← wordsVal_bit _ hMwords i]
    rw [clone_be_wordsVal (V.length + 1) V hVb (by omega),
      clone_be_wordsVal (M.length + 1) M hMb (by omega)]

theorem bytes_chunk_parts (w : Nat) (bv : BitVector) (hwf : bv.wf) (hcap : w < 2 ^ 62)
    (hbw : bv.get_bit_width ≤ w) :
    (List.replicate ((w - 1) / 8 + 1 - ((bv.get_bit_width - 1) / 8 + 1)) 0
        ++ bv.to_be_bytes_four_state.1).length = (w - 1) / 8 + 1
    ∧ (List.replicate ((w - 1) / 8 + 1 - ((bv.get_bit_width - 1) / 8 + 1)) 0
        ++ bv.to_be_bytes_four_state.2).length = (w - 1) / 8 + 1
    ∧ allBytes (List.replicate ((w - 1) / 8 + 1 - ((bv.get_bit_width - 1) / 8 + 1)) 0
        ++ bv.to_be_bytes_four_state.1)
    ∧ allBytes (List.replicate ((w - 1) / 8 + 1 - ((bv.get_bit_width - 1) / 8 + 1)) 0
        ++ bv.to_be_bytes_four_state.2)
    ∧ beVal (List.replicate ((w - 1) / 8 + 1 - ((bv.get_bit_width - 1) / 8 + 1)) 0
        ++ bv.to_be_bytes_four_state.1) = bvVal bv
    ∧ beVal (List.replicate ((w - 1) / 8 + 1 - ((bv.get_bit_width - 1) / 8 + 1)) 0
        ++ bv.to_be_bytes_four_state.2) = bvMask bv := by
  have hw1 : 1 ≤ bv.get_bit_width := hwf.1
  have hble : (bv.get_bit_width - 1) / 8 + 1 ≤ (w - 1) / 8 + 1 := by omega
  obtain ⟨hbVlt, hbMlt⟩ := bv_bounds_wf bv hwf
  rw [to_be4_wf bv hwf]
  dsimp only
  have hrep : allBytes (List.replicate ((w - 1) / 8 + 1
      - ((bv.get_bit_width - 1) / 8 + 1)) (0 : Nat)) := by
    intro b hb
    rw [List.eq_of_mem_replicate hb]
    norm_num
  have hVlt256 : bvVal bv < 256 ^ ((bv.get_bit_width - 1) / 8 + 1) := by
    have h2 : (2 : Nat) ^ bv.get_bit_width ≤ 256 ^ ((bv.get_bit_width - 1) / 8 + 1) := by
      rw [show (256 : Nat) = 2 ^ 8 by norm_num, ← pow_mul]
      exact Nat.pow_le_pow_right (by norm_num) (by omega)
    omega
  have hMlt256 : bvMask bv < 256 ^ ((bv.get_bit_width - 1) / 8 + 1) := by
    have h2 : (2 : Nat) ^ bv.get_bit_width ≤ 256 ^ ((bv.get_bit_width - 1) / 8 + 1) := by
      rw [show (256 : Nat) = 2 ^ 8 by norm_num, ← pow_mul]
      exact Nat.pow_le_pow_right (by norm_num) (by omega)
    omega
  refine ⟨?_, ?_, ?_, ?_, ?_, ?_⟩
  · rw [List.length_append, List.length_replicate, beBytes_length]
    omega
  · rw [List.length_append, List.length_replicate, beBytes_length]
    omega
  · intro b hb
    rcases List.mem_append.mp hb with hb | hb
    · exact hrep b hb
    · exact beBytes_allBytes _ _ b hb
  · intro b hb
    rcases List.mem_append.mp hb with hb | hb
    · exact hrep b hb
    · exact beBytes_allBytes _ _ b hb
  · rw [beVal_append _ _ hrep (beBytes_allBytes _ _), beVal_replicate_zero,
      Nat.zero_mul, Nat.zero_add, beVal_beBytes, Nat.mod_eq_of_lt hVlt256]
  · rw [beVal_append _ _ hrep (beBytes_allBytes _ _), beVal_replicate_zero,
      Nat.zero_mul, Nat.zero_add, beVal_beBytes, Nat.mod_eq_of_lt hMlt256]

theorem bytes_mode_recover (w : Nat) (bv : BitVector) (hwf : bv.wf) (hcap : w < 2 ^ 62)
    (hbw : bv.get_bit_width ≤ w) :
    (BitVector.from_be_bytes_four_state w
        (List.replicate ((w - 1) / 8 + 1 - ((bv.get_bit_width - 1) / 8 + 1)) 0
          ++ bv.to_be_bytes_four_state.1)
        (List.replicate ((w - 1) / 8 + 1 - ((bv.get_bit_width - 1) / 8 + 1)) 0
          ++ bv.to_be_bytes_four_state.2)).get_bit_width = w
    ∧ BitVector.beq
        (BitVector.from_be_bytes_four_state w
          (List.replicate ((w - 1) / 8 + 1 - ((bv.get_bit_width - 1) / 8 + 1)) 0
            ++ bv.to_be_bytes_four_state.1)
          (List.replicate ((w - 1) / 8 + 1 - ((bv.get_bit_width - 1) / 8 + 1)) 0
            ++ bv.to_be_bytes_four_state.2)) bv = true := by
  obtain ⟨hlenV, hlenM, hVb, hMb, hbeV, hbeM⟩ := bytes_chunk_parts w bv hwf hcap hbw
  obtain ⟨hbVlt, hbMlt⟩ := bv_bounds_wf bv hwf
  have hLw := from_be4_width w
    (List.replicate ((w - 1) / 8 + 1 - ((bv.get_bit_width - 1) / 8 + 1)) 0
      ++ bv.to_be_bytes_four_state.1)
    (List.replicate ((w - 1) / 8 + 1 - ((bv.get_bit_width - 1) / 8 + 1)) 0
      ++ bv.to_be_bytes_four_state.2) hcap
  refine ⟨hLw, ?_⟩
  have key : ∀ i, i < w →
      (BitVector.from_be_bytes_four_state w
        (List.replicate ((w - 1) / 8 + 1 - ((bv.get_bit_width - 1) / 8 + 1)) 0
          ++ bv.to_be_bytes_four_state.1)
        (List.replicate ((w - 1) / 8 + 1 - ((bv.get_bit_width - 1) / 8 + 1)) 0
          ++ bv.to_be_bytes_four_state.2)).get_bit i = bv.get_bit i := by
    intro i hi
    rw [from_be4_get_bit w _ _ i hcap hlenV hlenM hVb hMb hi]
    rw [hbeV, hbeM]
    by_cases hiw : i < bv.get_bit_width
    · rw [get_bit_wf bv hwf i hiw]
    · rw [get_bit_out_of_range bv i (by omega)]
      rw [bit_zero_of_lt _ bv.get_bit_width _ hbVlt (by omega),
        bit_zero_of_lt _ bv.get_bit_width _ hbMlt (by omega)]
      exact ofNatPair_zero_zero
  unfold BitVector.beq
  by_cases hgt : (BitVector.from_be_bytes_four_state w
      (List.replicate ((w - 1) / 8 + 1 - ((bv.get_bit_width - 1) / 8 + 1)) 0
        ++ bv.to_be_bytes_four_state.1)
      (List.replicate ((w - 1) / 8 + 1 - ((bv.get_bit_width - 1) / 8 + 1)) 0
        ++ bv.to_be_bytes_four_state.2)).get_bit_width > bv.get_bit_width
  · rw [if_pos hgt]
    dsimp only
    apply (beq_spec _ bv (by omega)).mpr
    intro i hi
    rw [hLw] at hi
    exact key i hi
  · rw [if_neg hgt]
    dsimp only
    rw [hLw] at hgt
    have hEq : bv.get_bit_width = w := by omega
    apply (beq_spec bv _ (by rw [hLw, hEq])).mpr
    intro i hi
    rw [hEq] at hi
    exact (key i hi).symm

theorem getD_eq_get_of_lt (L : List (Nat × BitVector)) (i : Nat) (d0 : Nat × BitVector)
    (hi : i < L.length) : L.getD i d0 = L.get ⟨i, hi⟩ := by
  rw [List.getD_eq_getElem?_getD, List.getElem?_eq_getElem hi]
  rfl

theorem getD_mem_of_lt (L : List (Nat × BitVector)) (i : Nat) (d0 : Nat × BitVector)
    (hi : i < L.length) : L.getD i d0 ∈ L := by
  rw [getD_eq_get_of_lt L i d0 hi]
  exact List.get_mem L i hi

theorem getD_map_at (L : List (Nat × BitVector)) (f : Nat × BitVector → Nat) (i : Nat)
    (d0 : Nat × BitVector) (d : Nat) (hi : i < L.length) :
    (L.map f).getD i d = f (L.getD i d0) := by
  have hi' : i < (L.map f).length := by
    rw [List.length_map]
    exact hi
  rw [List.getD_eq_getElem?_getD, List.getElem?_eq_getElem hi']
  rw [getD_eq_get_of_lt L i d0 hi]
  simp

theorem flatten_drop_chunks (L : List (List Nat)) (n : Nat) (hL : ∀ c ∈ L, c.length = n)
    (i : Nat) : L.flatten.drop (n * i) = (L.drop i).flatten := by
  induction L generalizing i with
  | nil => simp
  | cons c rest ih =>
    cases i with
    | zero => simp
    | succ i =>
      simp only [List.flatten_cons, List.drop_succ_cons]
      rw [show n * (i + 1) = c.length + n * i by rw [hL c (by simp)]; ring]
      rw [List.drop_append]
      exact ih (fun c hc => hL c (by simp [hc])) i

theorem ofWidth_bytes (w : Nat) (h : 5 ≤ w) :
    WaveformVectorPacking.ofWidth w = .Bytes (((w - 1) / 8 + 1) * 2) := by
  obtain ⟨n, rfl⟩ : ∃ n, w = n + 5 := ⟨w - 5, by omega⟩
  rfl

theorem bytes_inv_init (w bytes : Nat)
    (hpack : WaveformVectorPacking.ofWidth w = .Bytes bytes) :
    bytes_inv w bytes (WaveformSignalVector.new w) [] :=
  ⟨rfl, hpack, rfl⟩

theorem bytes_inv_step (w bytes : Nat) (s : WaveformSignalVector)
    (us : List (Nat × BitVector)) (hinv : bytes_inv w bytes s us)
    (t : Nat) (bv : BitVector) :
    bytes_inv w bytes (s.update t bv) (us ++ [(t, bv)]) := by
  obtain ⟨hw, hpack, hvec⟩ := hinv
  unfold WaveformSignalVector.update
  rw [hpack]
  dsimp only
  refine ⟨hw, rfl, ?_⟩
  show s.vectors ++ _ ++ _ = _
  rw [hvec, List.map_append, List.flatten_append]
  simp [bytes_chunk, List.append_assoc]

theorem bytes_fold (w bytes : Nat) (us : List (Nat × BitVector)) :
    ∀ (s : WaveformSignalVector) (acc : List (Nat × BitVector)),
      bytes_inv w bytes s acc →
      bytes_inv w bytes (us.foldl (fun s u => s.update u.1 u.2) s) (acc ++ us) := by
  induction us with
  | nil =>
    intro s acc h
    simpa using h
  | cons u rest ih =>
    intro s acc h
    simp only [List.foldl_cons]
    have h1 := bytes_inv_step w bytes s acc h u.1 u.2
    have h2 := ih _ _ h1
    have hassoc : acc ++ [u] ++ rest = acc ++ (u :: rest) := by simp
    rw [hassoc] at h2
    exact h2

theorem bytes_get (w bytes : Nat) (s : WaveformSignalVector)
    (us : List (Nat × BitVector)) (hinv : bytes_inv w bytes s us)
    (d0 : Nat × BitVector)
    (hparts : ∀ u ∈ us,
      (List.replicate (bytes / 2 - ((u.2.get_bit_width - 1) / 8 + 1)) 0
        ++ u.2.to_be_bytes_four_state.1).length = bytes / 2
      ∧ (List.replicate (bytes / 2 - ((u.2.get_bit_width - 1) / 8 + 1)) 0
        ++ u.2.to_be_bytes_four_state.2).length = bytes / 2)
    (hb2 : bytes / 2 + bytes / 2 = bytes)
    (i : Nat) (hi : i < us.length) :
    s.get_bitvector i
      = BitVector.from_be_bytes_four_state w
          (List.replicate (bytes / 2 - (((us.getD i d0).2.get_bit_width - 1) / 8 + 1)) 0
            ++ (us.getD i d0).2.to_be_bytes_four_state.1)
          (List.replicate (bytes / 2 - (((us.getD i d0).2.get_bit_width - 1) / 8 + 1)) 0
            ++ (us.getD i d0).2.to_be_bytes_four_state.2) := by
  obtain ⟨hw, hpack, hvec⟩ := hinv
  have hchunklen : ∀ c ∈ us.map (fun u => bytes_chunk (bytes / 2) u.2), c.length = bytes := by
    intro c hc
    rw [List.mem_map] at hc
    obtain ⟨u, hu, rfl⟩ := hc
    unfold bytes_chunk
    rw [List.length_append, (hparts u hu).1, (hparts u hu).2]
    exact hb2
  have hdropi : us.drop i = us.getD i d0 :: us.drop (i + 1) := by
    rw [getD_eq_get_of_lt us i d0 hi]
    exact List.drop_eq_getElem_cons hi
  unfold WaveformSignalVector.get_bitvector
  rw [hpack]
  dsimp only
  have hgw : s.get_width = w := hw
  rw [hgw, hvec]
  have hdrop1 : ((us.map fun u => bytes_chunk (bytes / 2) u.2).flatten).drop (bytes * i)
      = bytes_chunk (bytes / 2) (us.getD i d0).2
        ++ ((us.drop (i + 1)).map fun u => bytes_chunk (bytes / 2) u.2).flatten := by
    rw [flatten_drop_chunks _ bytes hchunklen i, ← List.map_drop, hdropi]
    simp
  have hmem := getD_mem_of_lt us i d0 hi
  have hp1 := (hparts _ hmem).1
  have hp2 := (hparts _ hmem).2
  have htake1 : (((us.map fun u => bytes_chunk (bytes / 2) u.2).flatten).drop
        (bytes * i)).take (bytes / 2)
      = List.replicate (bytes / 2 - (((us.getD i d0).2.get_bit_width - 1) / 8 + 1)) 0
        ++ (us.getD i d0).2.to_be_bytes_four_state.1 := by
    rw [hdrop1]
    unfold bytes_chunk
    rw [List.append_assoc]
    exact List.take_left' hp1
  have htake2 : (((us.map fun u => bytes_chunk (bytes / 2) u.2).flatten).drop
        (bytes * i + bytes / 2)).take (bytes / 2)
      = List.replicate (bytes / 2 - (((us.getD i d0).2.get_bit_width - 1) / 8 + 1)) 0
        ++ (us.getD i d0).2.to_be_bytes_four_state.2 := by
    rw [← List.drop_drop, hdrop1]
    unfold bytes_chunk
    rw [List.append_assoc]
    rw [List.drop_left' hp1]
    exact List.take_left' hp2
  rw [htake1, htake2]

/-- C6 (amended): for a vector signal of width w of at least 1 that fits
the size-word tag, and a sequence of updates whose bit-vectors satisfy
the representation invariant and have bit width at most w, get_bitvector
at every index below the number of updates returns a vector of width w
that compares equal to the vector passed to that update, in both the
bit-packed mode of widths up to 4 and the byte-aligned mode of wider
signals.  The unamended claim over arbitrary BitVector values is refuted
by c6_counterexample: a vector carrying set payload bits above its
declared width stores those bits and compares unequal on readback. -/
theorem c6_get_bitvector_round_trip (w : Nat) (hw1 : 1 ≤ w) (hcap : w < 2 ^ 62)
    (updates : List (Nat × BitVector))
    (hwfs : ∀ u ∈ updates, BitVector.wf u.2 ∧ u.2.get_bit_width ≤ w)
    (i : Nat) (hi : i < updates.length) :
    ((signal_after w updates).get_bitvector i).get_bit_width = w
    ∧ BitVector.beq ((signal_after w updates).get_bitvector i)
        (updates.getD i (0, BitVector.from_bits_two_state 1 0)).2 = true := by
  have hmem := getD_mem_of_lt updates i (0, BitVector.from_bits_two_state 1 0) hi
  obtain ⟨hwfu, hbwu⟩ := hwfs _ hmem
  by_cases hw4 : w ≤ 4
  · obtain ⟨bits, hpk, hb, hwb⟩ :
        ∃ bits, WaveformVectorPacking.ofWidth w = .Bits bits
          ∧ (bits = 2 ∨ bits = 4 ∨ bits = 8) ∧ w ≤ bits / 2 := by
      interval_cases w
      · exact ⟨2, rfl, Or.inl rfl, by norm_num⟩
      · exact ⟨4, rfl, Or.inr (Or.inl rfl), by norm_num⟩
      · exact ⟨8, rfl, Or.inr (Or.inr rfl), by norm_num⟩
      · exact ⟨8, rfl, Or.inr (Or.inr rfl), by norm_num⟩
    have h2 : bits / 2 + bits / 2 = bits := by rcases hb with rfl | rfl | rfl <;> decide
    have hinv := bits_fold w bits hb updates (WaveformSignalVector.new w) []
      (bits_inv_init w bits hpk)
    rw [List.nil_append] at hinv
    have hlencs : i < (updates.map fun u => combinedOf bits u.2).length := by
      rw [List.length_map]
      exact hi
    have hget := bits_get w bits _ _ hinv i hlencs h2
    rw [getD_map_at updates _ i (0, BitVector.from_bits_two_state 1 0) 0 hi] at hget
    obtain ⟨-, hx1, hx2⟩ := combinedOf_facts bits
      (updates.getD i (0, BitVector.from_bits_two_state 1 0)).2 h2
    rw [hx1, hx2] at hget
    have hrec := bits_mode_recover w bits
      (updates.getD i (0, BitVector.from_bits_two_state 1 0)).2 hb hw1 hwb hwfu hbwu
    unfold signal_after
    rw [hget]
    exact hrec
  · have h5 : 5 ≤ w := by omega
    have hpk := ofWidth_bytes w h5
    have hinv := bytes_fold w (((w - 1) / 8 + 1) * 2) updates (WaveformSignalVector.new w) []
      (bytes_inv_init _ _ hpk)
    rw [List.nil_append] at hinv
    have hhalf : (((w - 1) / 8 + 1) * 2) / 2 = (w - 1) / 8 + 1 := by omega
    have hparts : ∀ u ∈ updates,
        (List.replicate ((((w - 1) / 8 + 1) * 2) / 2 - ((u.2.get_bit_width - 1) / 8 + 1)) 0
          ++ u.2.to_be_bytes_four_state.1).length = (((w - 1) / 8 + 1) * 2) / 2
        ∧ (List.replicate ((((w - 1) / 8 + 1) * 2) / 2 - ((u.2.get_bit_width - 1) / 8 + 1)) 0
          ++ u.2.to_be_bytes_four_state.2).length = (((w - 1) / 8 + 1) * 2) / 2 := by
      intro u hu
      obtain ⟨huwf, hubw⟩ := hwfs u hu
      obtain ⟨hl1, hl2, -, -, -, -⟩ := bytes_chunk_parts w u.2 huwf hcap hubw
      rw [hhalf]
      exact ⟨hl1, hl2⟩
    have hget := bytes_get w (((w - 1) / 8 + 1) * 2) _ _ hinv
      (0, BitVector.from_bits_two_state 1 0) hparts (by omega) i hi
    rw [hhalf] at hget
    have hrec := bytes_mode_recover w
      (updates.getD i (0, BitVector.from_bits_two_state 1 0)).2 hwfu hcap hbwu
    unfold signal_after
    rw [hget]
    exact hrec

/-- C6 witness: a byte-aligned width 8 signal and a bit-packed width 2
signal, each updated once, read back their vector. -/
theorem c6_get_bitvector_round_trip_witness :
    ((1 : Nat) ≤ 8 ∧ (8 : Nat) < 2 ^ 62
      ∧ (∀ u ∈ [((0 : Nat), BitVector.from_bits_two_state 8 0xAB)],
          BitVector.wf u.2 ∧ u.2.get_bit_width ≤ 8)
      ∧ (0 : Nat) < [((0 : Nat), BitVector.from_bits_two_state 8 0xAB)].length)
    ∧ (((signal_after 8
          [((0 : Nat), BitVector.from_bits_two_state 8 0xAB)]).get_bitvector 0).get_bit_width
        = 8
      ∧ BitVector.beq
          ((signal_after 8 [((0 : Nat), BitVector.from_bits_two_state 8 0xAB)]).get_bitvector 0)
          ([((0 : Nat), BitVector.from_bits_two_state 8 0xAB)].getD 0
            (0, BitVector.from_bits_two_state 1 0)).2 = true)
    ∧ (((signal_after 2
          [((0 : Nat), BitVector.from_bits_four_state 2 1 2)]).get_bitvector 0).get_bit_width
        = 2
      ∧ BitVector.beq
          ((signal_after 2 [((0 : Nat), BitVector.from_bits_four_state 2 1 2)]).get_bitvector 0)
          ([((0 : Nat), BitVector.from_bits_four_state 2 1 2)].getD 0
            (0, BitVector.from_bits_two_state 1 0)).2 = true) :=
  ⟨⟨by decide, by decide, by decide, by decide⟩,
   c6_get_bitvector_round_trip 8 (by decide) (by decide)
     [((0 : Nat), BitVector.from_bits_two_state 8 0xAB)] (by decide) 0 (by decide),
   c6_get_bitvector_round_trip 2 (by decide) (by decide)
     [((0 : Nat), BitVector.from_bits_four_state 2 1 2)] (by decide) 0 (by decide)⟩

/-- C6 counterexample to the unamended claim: the two-state width 3
vector with payload bits 0b1000 has a set bit above its declared width;
its bit width lies in the range the claim admits for a width 4 signal,
yet after one update the vector read back compares unequal, because the
junk bit is stored into the packed byte and resurfaces at bit 3 of the
width 4 result while the original reads Zero there. -/
theorem c6_counterexample :
    1 ≤ (BitVector.from_bits_two_state 3 8).get_bit_width
    ∧ (BitVector.from_bits_two_state 3 8).get_bit_width ≤ 4
    ∧ BitVector.beq
        ((signal_after 4 [((0 : Nat), BitVector.from_bits_two_state 3 8)]).get_bitvector 0)
        (BitVector.from_bits_two_state 3 8) = false := by
  decide

end Makai
